import Mathlib

/-!
Shallow embedding of `src/network_flow/max_flow.py` (class `MaximumFlow`):
Edmonds-Karp and Dinic maximum-flow over a paired-edge residual store.

Modelling conventions:
* Python numbers (capacities, flows) are modelled as exact arbitrary-precision
  integers `ℤ` (the source docstring advises against floats); the float
  sentinel `INF = float('inf')` appears only as the default argument of
  `send_one_flow` and `DFS` and as a possible return/accumulator value, so
  those places use `WithTop ℤ`.
* Python lists become `List`; reads with a possibly negative index use
  `pyGetI`, which implements Python's negative-index wrap-around.  An
  out-of-range access raises `IndexError` in Python; here it yields a default
  (for reads) or leaves the list unchanged (for writes).  All executions
  relevant to the verified properties stay in range.
* The unbounded `while` loops of the two algorithms take an explicit fuel
  parameter; exhausting it returns `none` (modelling non-termination).
  `BFS` and the path search inside a single iteration are bounded by the
  structure of the graph, so they carry a fuel derived from the store itself
  that is never exhausted on well-formed stores.
-/

/-- Python-style list read with wrap-around for negative indices
(`l[-1]` is the last element); out of range yields the default. -/
def pyGetI {α : Type} (l : List α) (i : ℤ) (d : α) : α :=
  let j : ℤ := if i < 0 then i + l.length else i
  if 0 ≤ j ∧ j < l.length then l.getD j.toNat d else d

/-- Python-style list write with wrap-around for negative indices;
out of range leaves the list unchanged. -/
def pySetI {α : Type} (l : List α) (i : ℤ) (x : α) : List α :=
  let j : ℤ := if i < 0 then i + l.length else i
  if 0 ≤ j then l.set j.toNat x else l

/-- `i ^ 1` of Python on arbitrary ints (two's complement xor with 1). -/
def pyXorOne (i : ℤ) : ℤ :=
  if 0 ≤ i then ((i.toNat ^^^ 1 : ℕ) : ℤ) else -(((-i - 1).toNat ^^^ 1 : ℕ) : ℤ) - 1

/-- The state of a `MaximumFlow` instance: the fields set by `__init__`.
`edge_list` entries are `(head, capacity, flow)` triples. -/
structure MaximumFlow where
  vertices : ℕ
  edge_list : List (ℕ × ℤ × ℤ)
  adjacency_list : List (List ℕ)
  distances : List ℤ
  last : List ℕ
  points : List (ℤ × ℤ)
  has_been_run : Bool
deriving DecidableEq

/-- `MaximumFlow(vertices)` constructor. -/
def MaximumFlow.init (vertices : ℕ) : MaximumFlow :=
  ⟨vertices, [], List.replicate vertices [], [], [], [], false⟩

/-- `self.edge_list[i]` for a natural index, with junk default out of range. -/
def MaximumFlow.edgeAt (g : MaximumFlow) (i : ℕ) : ℕ × ℤ × ℤ :=
  g.edge_list.getD i (0, 0, 0)

def MaximumFlow.headAt (g : MaximumFlow) (i : ℕ) : ℕ := (g.edgeAt i).1

def MaximumFlow.capAt (g : MaximumFlow) (i : ℕ) : ℤ := (g.edgeAt i).2.1

def MaximumFlow.flowAt (g : MaximumFlow) (i : ℕ) : ℤ := (g.edgeAt i).2.2

/-- `self.distances[v]`; the BFS sentinel for unreached is `-1`. -/
def MaximumFlow.distAt (g : MaximumFlow) (v : ℕ) : ℤ :=
  g.distances.getD v (-1)

/-- Flow component of `self.edge_list[i]` for a Python (possibly negative) index. -/
def MaximumFlow.flowAtI (g : MaximumFlow) (i : ℤ) : ℤ :=
  (pyGetI g.edge_list i (0, 0, 0)).2.2

/-- `self.edge_list[i][2] = x`: overwrite the flow component of entry `i`. -/
def setFlow3 (l : List (ℕ × ℤ × ℤ)) (i : ℤ) (x : ℤ) : List (ℕ × ℤ × ℤ) :=
  let e := pyGetI l i (0, 0, 0)
  pySetI l i (e.1, e.2.1, x)

def MaximumFlow.setFlow (g : MaximumFlow) (i : ℤ) (x : ℤ) : MaximumFlow :=
  { g with edge_list := setFlow3 g.edge_list i x }

/-- `add_edge(u, v, capacity, directed)`: no-op for a self-loop, otherwise
append the forward edge (capacity `capacity`) and the paired reverse edge
(capacity `0` if directed else `capacity`), recording both indices.
(Python defaults `directed` to `True`; the flag is passed explicitly here.) -/
def MaximumFlow.add_edge (g : MaximumFlow) (u v : ℕ) (capacity : ℤ)
    (directed : Bool) : MaximumFlow :=
  if u = v then g
  else
    let el₁ := g.edge_list ++ [(v, capacity, 0)]
    let al₁ := g.adjacency_list.set u ((g.adjacency_list.getD u []) ++ [el₁.length - 1])
    let el₂ := el₁ ++ [(u, if directed then 0 else capacity, 0)]
    let al₂ := al₁.set v ((al₁.getD v []) ++ [el₂.length - 1])
    { g with edge_list := el₂, adjacency_list := al₂ }

/-- Body of the `for idx in self.adjacency_list[u]` loop of `BFS`: relax every
edge out of `u` with positive residual capacity into an unreached vertex,
recording distance and parent pointer and enqueueing the vertex. -/
def MaximumFlow.bfsVisit (g : MaximumFlow) (u : ℕ) (q : List ℕ) :
    MaximumFlow × List ℕ :=
  (g.adjacency_list.getD u []).foldl
    (fun p idx =>
      let e := p.1.edge_list.getD idx (0, 0, 0)
      let v := e.1
      if 0 < e.2.1 - e.2.2 ∧ p.1.distAt v = -1 then
        ({ p.1 with
            distances := p.1.distances.set v (p.1.distAt u + 1),
            points := p.1.points.set v ((u : ℤ), (idx : ℤ)) },
         p.2 ++ [v])
      else p)
    (g, q)

/-- The `while len(q) != 0` loop of `BFS`, with early exit on dequeueing `t`.
Every dequeued vertex was enqueued exactly once (its distance flips from the
`-1` sentinel on enqueue), so on a store whose edge heads lie below
`vertices` the loop runs at most `vertices + 1` iterations; the caller
passes fuel `vertices + 2`, which is never exhausted there. -/
def MaximumFlow.bfsLoop : ℕ → MaximumFlow → ℕ → List ℕ → MaximumFlow
  | 0, g, _, _ => g
  | _ + 1, g, _, [] => g
  | fuel + 1, g, t, u :: q =>
    if u = t then g
    else
      let p := g.bfsVisit u q
      MaximumFlow.bfsLoop fuel p.1 t p.2

/-- `BFS(s, t)`: reset distances (source at `0`) and parent pointers, run the
queue loop, and report whether `t` was reached. -/
def MaximumFlow.BFS (g : MaximumFlow) (s t : ℕ) : Bool × MaximumFlow :=
  let g₁ := { g with
    distances := (List.replicate g.vertices (-1 : ℤ)).set s 0,
    points := List.replicate g.vertices ((-1 : ℤ), (-1 : ℤ)) }
  let g₂ := MaximumFlow.bfsLoop (g.vertices + 2) g₁ t [s]
  (decide (g₂.distAt t ≠ -1), g₂)

/-- `send_one_flow(s, t, f)` for a finite flow cap `f` (every recursive call
has a finite cap).  Walk the parent pointer of `t`, push the bottleneck up
the recorded path, then apply it to the entry edge and its paired reverse
edge.  The parent chain strictly decreases the BFS distance, so on states
produced by `BFS` the recursion depth is at most `vertices + 1`; the fuel
does structural bookkeeping only and returns a zero push when exhausted. -/
def MaximumFlow.send_one_flow_fin :
    ℕ → MaximumFlow → ℕ → ℤ → ℤ → ℤ × MaximumFlow
  | 0, g, _, _, _ => (0, g)
  | fuel + 1, g, s, t, f =>
    if t = (s : ℤ) then (f, g)
    else
      let p := pyGetI g.points t (-1, -1)
      let u := p.1
      let idx := p.2
      let e := pyGetI g.edge_list idx (0, 0, 0)
      let cap := e.2.1
      let flow := e.2.2
      let r := MaximumFlow.send_one_flow_fin fuel g s u (min f (cap - flow))
      let g₂ := r.2.setFlow idx (flow + r.1)
      let g₃ := g₂.setFlow (pyXorOne idx) (g₂.flowAtI (pyXorOne idx) - r.1)
      (r.1, g₃)

/-- `send_one_flow(s, t)` with the default cap `f = INF`.  For `s == t` the
call returns `INF` untouched; otherwise the first recursive step passes
`min(INF, cap - flow) = cap - flow`, a finite value, so the rest of the walk
is `send_one_flow_fin`. -/
def MaximumFlow.send_one_flow (g : MaximumFlow) (s t : ℕ) :
    WithTop ℤ × MaximumFlow :=
  if (t : ℤ) = (s : ℤ) then ((⊤ : WithTop ℤ), g)
  else
    let p := pyGetI g.points (t : ℤ) (-1, -1)
    let u := p.1
    let idx := p.2
    let e := pyGetI g.edge_list idx (0, 0, 0)
    let cap := e.2.1
    let flow := e.2.2
    let r := MaximumFlow.send_one_flow_fin (g.vertices + 2) g s u (cap - flow)
    let g₂ := r.2.setFlow idx (flow + r.1)
    let g₃ := g₂.setFlow (pyXorOne idx) (g₂.flowAtI (pyXorOne idx) - r.1)
    (((r.1 : ℤ) : WithTop ℤ), g₃)

/-- `DFS(u, t, f)` for a finite cap `f`, together with its current-arc loop.
The mode argument selects between the function entry (`none`: check
`u == t or f == 0`, then start at the cursor `self.last[u]`) and the loop
`for i in range(self.last[u], len(self.adjacency_list[u]))` at arc `i`
(`some i`).  Both recursive calls and each arc advance consume one unit of
shared fuel; exhaustion returns a zero push with the state unchanged. -/
def MaximumFlow.dfsAux :
    ℕ → MaximumFlow → ℕ → ℕ → ℤ → Option ℕ → ℤ × MaximumFlow
  | 0, g, _, _, _, _ => (0, g)
  | fuel + 1, g, u, t, f, none =>
    if u = t ∨ f = 0 then (f, g)
    else MaximumFlow.dfsAux fuel g u t f (some (g.last.getD u 0))
  | fuel + 1, g, u, t, f, some i =>
    if i < (g.adjacency_list.getD u []).length then
      let g₁ := { g with last := g.last.set u i }
      let eidx := (g₁.adjacency_list.getD u []).getD i 0
      let e := g₁.edge_list.getD eidx (0, 0, 0)
      let v := e.1
      let cap := e.2.1
      let flow := e.2.2
      if g₁.distAt v ≠ g₁.distAt u + 1 then
        MaximumFlow.dfsAux fuel g₁ u t f (some (i + 1))
      else
        let r := MaximumFlow.dfsAux fuel g₁ v t (min f (cap - flow)) none
        if r.1 ≠ 0 then
          let g₂ := r.2.setFlow (eidx : ℤ) (flow + r.1)
          let g₃ := g₂.setFlow ((eidx ^^^ 1 : ℕ) : ℤ)
            (g₂.flowAtI ((eidx ^^^ 1 : ℕ) : ℤ) - r.1)
          (r.1, g₃)
        else MaximumFlow.dfsAux fuel r.2 u t f (some (i + 1))
    else (0, g)

/-- Fuel sufficient for one `DFS(s, t)` call from the source: recursion depth
is bounded by the number of vertices and cursor advances never rewind. -/
def MaximumFlow.dfsFuel (g : MaximumFlow) : ℕ :=
  2 * (g.vertices + g.edge_list.length + (g.adjacency_list.map List.length).sum + 2)

/-- Current-arc loop of the top-level `DFS(s, t)` call, whose cap is
`f = INF`: recursive calls pass `min(INF, cap - flow) = cap - flow`. -/
def MaximumFlow.dfsGoTop : ℕ → MaximumFlow → ℕ → ℕ → ℕ → ℤ × MaximumFlow
  | 0, g, _, _, _ => (0, g)
  | fuel + 1, g, u, t, i =>
    if i < (g.adjacency_list.getD u []).length then
      let g₁ := { g with last := g.last.set u i }
      let eidx := (g₁.adjacency_list.getD u []).getD i 0
      let e := g₁.edge_list.getD eidx (0, 0, 0)
      let v := e.1
      let cap := e.2.1
      let flow := e.2.2
      if g₁.distAt v ≠ g₁.distAt u + 1 then
        MaximumFlow.dfsGoTop fuel g₁ u t (i + 1)
      else
        let r := MaximumFlow.dfsAux fuel g₁ v t (cap - flow) none
        if r.1 ≠ 0 then
          let g₂ := r.2.setFlow (eidx : ℤ) (flow + r.1)
          let g₃ := g₂.setFlow ((eidx ^^^ 1 : ℕ) : ℤ)
            (g₂.flowAtI ((eidx ^^^ 1 : ℕ) : ℤ) - r.1)
          (r.1, g₃)
        else MaximumFlow.dfsGoTop fuel r.2 u t (i + 1)
    else (0, g)

/-- `DFS(s, t)` with the default cap `f = INF`: returns `INF` at once when
`s == t`, otherwise runs the current-arc loop from cursor `self.last[s]`. -/
def MaximumFlow.DFS (g : MaximumFlow) (s t : ℕ) : WithTop ℤ × MaximumFlow :=
  if s = t then ((⊤ : WithTop ℤ), g)
  else
    let r := MaximumFlow.dfsGoTop g.dfsFuel g s t (g.last.getD s 0)
    (((r.1 : ℤ) : WithTop ℤ), r.2)

/-- The message of the exception raised by `assert_has_not_already_been_run`. -/
def rerunMsg : String :=
  "Rerunning a max flow algorithm on the same graph will result in incorrect behaviour. Please use .copy() before you run any max flow algorithm if you need to run multiple iterations"

/-- The `while self.BFS(s, t)` loop of `edmonds_karp`: push one shortest
augmenting path per iteration; stop when the sink is unreachable (or,
defensively, when a push returns zero). -/
def MaximumFlow.ekLoop :
    ℕ → MaximumFlow → ℕ → ℕ → WithTop ℤ → Option (WithTop ℤ × MaximumFlow)
  | 0, _, _, _, _ => none
  | fuel + 1, g, s, t, mf =>
    let r := g.BFS s t
    if r.1 then
      let p := r.2.send_one_flow s t
      if p.1 = 0 then some (mf, p.2)
      else MaximumFlow.ekLoop fuel p.2 s t (mf + p.1)
    else some (mf, r.2)

/-- `edmonds_karp(s, t)`: guard against rerun (raising the invalid-state
exception, carried as `Except.error`), set `has_been_run`, then loop.
`none` models non-termination (fuel exhausted). -/
def MaximumFlow.edmonds_karp (g : MaximumFlow) (s t : ℕ) (fuel : ℕ) :
    Option (Except String (WithTop ℤ) × MaximumFlow) :=
  if g.has_been_run then some (Except.error rerunMsg, g)
  else
    (MaximumFlow.ekLoop fuel { g with has_been_run := true } s t 0).map
      (fun p => (Except.ok p.1, p.2))

/-- The `while f != 0` inner loop of `dinic`: accumulate and re-search until
the blocking-flow phase is exhausted. -/
def MaximumFlow.dinicInner :
    ℕ → MaximumFlow → ℕ → ℕ → WithTop ℤ → WithTop ℤ →
      Option (WithTop ℤ × MaximumFlow)
  | 0, _, _, _, _, _ => none
  | fuel + 1, g, s, t, mf, f =>
    if f = 0 then some (mf, g)
    else
      let p := g.DFS s t
      MaximumFlow.dinicInner fuel p.2 s t (mf + f) p.1

/-- The `while self.BFS(s, t)` loop of `dinic`: per phase, reset the
current-arc cursors to zero and exhaust the level graph with `DFS`. -/
def MaximumFlow.dinicLoop :
    ℕ → MaximumFlow → ℕ → ℕ → WithTop ℤ → Option (WithTop ℤ × MaximumFlow)
  | 0, _, _, _, _ => none
  | fuel + 1, g, s, t, mf =>
    let r := g.BFS s t
    if r.1 then
      let g₁ := { r.2 with last := List.replicate r.2.vertices 0 }
      let p := g₁.DFS s t
      match MaximumFlow.dinicInner fuel p.2 s t mf p.1 with
      | none => none
      | some q => MaximumFlow.dinicLoop fuel q.2 s t q.1
    else some (mf, r.2)

/-- `dinic(s, t)`: rerun guard, then blocking-flow phases. -/
def MaximumFlow.dinic (g : MaximumFlow) (s t : ℕ) (fuel : ℕ) :
    Option (Except String (WithTop ℤ) × MaximumFlow) :=
  if g.has_been_run then some (Except.error rerunMsg, g)
  else
    (MaximumFlow.dinicLoop fuel { g with has_been_run := true } s t 0).map
      (fun p => (Except.ok p.1, p.2))

/-- `copy()` is `deepcopy(self)`: on the immutable value model it is the
identity; the copy shares no mutable state with the original, and it copies
every attribute including `has_been_run`. -/
def MaximumFlow.copy (g : MaximumFlow) : MaximumFlow := g

/-! ### Small concrete stores used by the concrete-scenario claims -/

/-- The spec's concrete scenario: 3 vertices, directed edges
`0→1` cap 3, `0→2` cap 3, `1→2` cap 3. -/
def g3 : MaximumFlow :=
  (((MaximumFlow.init 3).add_edge 0 1 3 true).add_edge 0 2 3 true).add_edge 1 2 3 true

/-- A single directed edge `0→1` with capacity 5. -/
def g1 : MaximumFlow := (MaximumFlow.init 2).add_edge 0 1 5 true

/-- Final state of `edmonds_karp(0, 2)` on `g3`. -/
def g3ek : MaximumFlow := ((g3.edmonds_karp 0 2 30).getD (Except.ok 0, g3)).2

/-- Final state of `dinic(0, 2)` on `g3`. -/
def g3dn : MaximumFlow := ((g3.dinic 0 2 30).getD (Except.ok 0, g3)).2

/-- Final state of `edmonds_karp(0, 1)` on `g1`. -/
def g1ek : MaximumFlow := ((g1.edmonds_karp 0 1 30).getD (Except.ok 0, g1)).2

/-- The simultaneous flow update performed on a pair by both augmenters:
`flow[idx] += p` together with `flow[idx ^ 1] -= p` (the source reads the
flow of `idx` before recursing and writes back the read value plus the
push; on the simple paths the algorithms traverse, that read is current,
which is what this helper captures). -/
def MaximumFlow.pushAt (h : MaximumFlow) (idx : ℕ) (p : ℤ) : MaximumFlow :=
  (h.setFlow (idx : ℤ) (h.flowAt idx + p)).setFlow ((idx ^^^ 1 : ℕ) : ℤ)
    ((h.setFlow (idx : ℤ) (h.flowAt idx + p)).flowAt (idx ^^^ 1) - p)

/-! ### Flow-network notions used by the specified properties -/

/-- Sum of the stored flow over the edges whose head is `v` (the flow
entering `v` through the store, reverse entries included). -/
def MaximumFlow.inflow (g : MaximumFlow) (v : ℕ) : ℤ :=
  ∑ i ∈ Finset.range g.edge_list.length, if g.headAt i = v then g.flowAt i else 0

/-- Sum of the stored flow over the edges whose tail is `v`, the tail of
edge `i` being the head of its paired reverse edge `i ^^^ 1`. -/
def MaximumFlow.outflow (g : MaximumFlow) (v : ℕ) : ℤ :=
  ∑ i ∈ Finset.range g.edge_list.length, if g.headAt (i ^^^ 1) = v then g.flowAt i else 0

/-- The reverse-pair invariant: `flow[i] == -flow[i ^ 1]` for every index. -/
def MaximumFlow.Antisym (g : MaximumFlow) : Prop :=
  ∀ i : ℕ, g.flowAt (i ^^^ 1) = - g.flowAt i

/-- Every edge keeps non-negative residual capacity: `flow[i] <= capacity[i]`. -/
def MaximumFlow.FlowLeCap (g : MaximumFlow) : Prop :=
  ∀ i : ℕ, g.flowAt i ≤ g.capAt i

/-- The immutable part of a store: a run mutates flow values (and the BFS/DFS
bookkeeping) but never the graph itself nor the lifecycle flag outside the
entry points. -/
structure SameShape (g g' : MaximumFlow) : Prop where
  vert : g'.vertices = g.vertices
  adj : g'.adjacency_list = g.adjacency_list
  elen : g'.edge_list.length = g.edge_list.length
  heads : ∀ i, g'.headAt i = g.headAt i
  caps : ∀ i, g'.capAt i = g.capAt i
  flag : g'.has_been_run = g.has_been_run

/-- Structural well-formedness of a store built by `add_edge`:
edges come in adjacent pairs `(2k, 2k+1)` exchanged by `^^^ 1`, each
adjacency entry of `u` names an in-range edge whose reverse points back to
`u`, and all heads are genuine vertices. -/
structure MaximumFlow.WFgraph (g : MaximumFlow) : Prop where
  evenLen : g.edge_list.length % 2 = 0
  adjLen : g.adjacency_list.length = g.vertices
  adjValid : ∀ u : ℕ, ∀ idx ∈ g.adjacency_list.getD u [],
    idx < g.edge_list.length ∧ g.headAt (idx ^^^ 1) = u ∧ g.headAt idx < g.vertices
  headsValid : ∀ i : ℕ, i < g.edge_list.length → g.headAt i < g.vertices

/-- Stores reachable from the constructor by (in-range) `add_edge` calls. -/
inductive Built : MaximumFlow → Prop
  | base (V : ℕ) : Built (MaximumFlow.init V)
  | add {g : MaximumFlow} (u v : ℕ) (c : ℤ) (d : Bool) :
      Built g → u < g.vertices → v < g.vertices → Built (g.add_edge u v c d)

/-- What `BFS(s, t)` guarantees about its output state and `send_one_flow`
needs on its first (non-trivial) frame: the label arrays have the right
length, labels are the sentinel or genuine hop counts, only the source is at
hop count `0`, and each labelled vertex other than the source carries a
parent pointer naming an in-range, residual-positive edge into it whose
reverse edge returns to the parent one hop below. -/
structure MaximumFlow.PathCtx (g : MaximumFlow) (s : ℕ) : Prop where
  lenD : g.distances.length = g.vertices
  lenP : g.points.length = g.vertices
  dsent : ∀ v : ℕ, g.distAt v = -1 ∨ 0 ≤ g.distAt v
  dzero : ∀ v : ℕ, v < g.vertices → g.distAt v = 0 → v = s
  pv : ∀ v : ℕ, v < g.vertices → v ≠ s → 0 ≤ g.distAt v →
    ∃ u idx : ℕ, g.points.getD v (-1, -1) = ((u : ℤ), (idx : ℤ)) ∧
      u < g.vertices ∧ idx < g.edge_list.length ∧ g.headAt idx = v ∧
      g.headAt (idx ^^^ 1) = u ∧ 0 ≤ g.distAt u ∧ g.distAt v = g.distAt u + 1 ∧
      g.flowAt idx < g.capAt idx

/-- What one (finite-cap) `send_one_flow` call does to the store, seen from
its target vertex `tv`: bookkeeping arrays and the graph are untouched, no
flow changes on any pair hanging strictly deeper than `tv` in the BFS
layering, the inflow of every vertex moves only at the endpoints `s`
(by `-p`) and `tv` (by `+p`), and the reverse-pair invariant is preserved. -/
structure SOFPost (g g' : MaximumFlow) (s tv : ℕ) (p : ℤ) : Prop where
  shape : SameShape g g'
  distEq : g'.distances = g.distances
  ptsEq : g'.points = g.points
  lastEq : g'.last = g.last
  untouched : ∀ i : ℕ,
    g.distAt tv < max (g.distAt (g.headAt i)) (g.distAt (g.headAt (i ^^^ 1))) →
    g'.flowAt i = g.flowAt i
  exc : ∀ v : ℕ, g'.inflow v =
    g.inflow v + (if v = tv then p else 0) - (if v = s then p else 0)
  anti : g.Antisym → g'.Antisym

/-- Invariant of the `BFS` queue loop, relative to the state `g₀` on which
`BFS` was called: the store outside the label arrays is untouched, the label
arrays satisfy `PathCtx`, the source keeps label `0`, and every queued
vertex is labelled (or is the source itself). -/
structure BFSInv (g₀ : MaximumFlow) (s : ℕ) (g : MaximumFlow) (q : List ℕ) : Prop where
  ctx : g.PathCtx s
  edges : g.edge_list = g₀.edge_list
  adj : g.adjacency_list = g₀.adjacency_list
  lastE : g.last = g₀.last
  vert : g.vertices = g₀.vertices
  flag : g.has_been_run = g₀.has_been_run
  hs : s < g.vertices → g.distAt s = 0
  qmem : ∀ x ∈ q, (x < g.vertices ∧ 0 ≤ g.distAt x) ∨ x = s

/-- Invariant carried around the outer loops of both algorithms:
the graph is well formed, the reverse-pair invariant holds, and every
vertex other than the endpoints has zero net inflow. -/
structure RunInv (s t : ℕ) (g : MaximumFlow) : Prop where
  wf : g.WFgraph
  anti : g.Antisym
  ze : ∀ v : ℕ, v ≠ s → v ≠ t → g.inflow v = 0

/-- What one `DFS` call (entry mode or current-arc loop mode at vertex `uv`)
does to the store: bookkeeping other than cursors and flows is untouched, no
flow changes on any pair lying strictly below `uv` in the level order, the
inflow moves only at `uv` (by `-p`) and the sink `t` (by `+p`), a
failed search (`p = 0`) changes no flow at all, and the reverse-pair
invariant is preserved. -/
structure DFSPost (g g' : MaximumFlow) (uv t : ℕ) (p : ℤ) : Prop where
  shape : SameShape g g'
  distEq : g'.distances = g.distances
  ptsEq : g'.points = g.points
  untouched : ∀ i : ℕ,
    min (g.distAt (g.headAt i)) (g.distAt (g.headAt (i ^^^ 1))) < g.distAt uv →
    g'.flowAt i = g.flowAt i
  zeroNoChange : p = 0 → ∀ i : ℕ, g'.flowAt i = g.flowAt i
  exc : ∀ v : ℕ, g'.inflow v =
    g.inflow v + (if v = t then p else 0) - (if v = uv then p else 0)
  anti : g.Antisym → g'.Antisym

/-- One arm of the `for idx in self.adjacency_list[u]` loop body of `BFS`
(the function folded by `bfsVisit`), named so the queue analysis can reason
about partial folds of the adjacency list. -/
def MaximumFlow.bfsStep (u : ℕ) (p : MaximumFlow × List ℕ) (idx : ℕ) :
    MaximumFlow × List ℕ :=
  let e := p.1.edge_list.getD idx (0, 0, 0)
  let v := e.1
  if 0 < e.2.1 - e.2.2 ∧ p.1.distAt v = -1 then
    ({ p.1 with
        distances := p.1.distances.set v (p.1.distAt u + 1),
        points := p.1.points.set v ((u : ℤ), (idx : ℤ)) },
     p.2 ++ [v])
  else p

/-- Vertex `u` has been fully processed by the `BFS` queue loop: every edge
listed out of `u` with positive residual capacity leads into the reached
region of the current distance labelling. -/
def MaximumFlow.Relaxed (g : MaximumFlow) (u : ℕ) : Prop :=
  ∀ idx ∈ g.adjacency_list.getD u [], g.flowAt idx < g.capAt idx →
    0 ≤ g.distAt (g.headAt idx)

/-- The in-range vertices still carrying the unreached sentinel. -/
def MaximumFlow.unreachedSet (g : MaximumFlow) : Finset ℕ :=
  (Finset.range g.vertices).filter (fun v => g.distAt v = -1)

/-- The distance labelling is closed: no listed edge with positive residual
capacity escapes the reached region.  `BFS(s, t)` guarantees this whenever
it answers `false` (the queue was exhausted without meeting `t`), and it is
the reason both algorithms stop at a saturated cut. -/
def MaximumFlow.LevelClosed (g : MaximumFlow) : Prop :=
  ∀ u : ℕ, u < g.vertices → 0 ≤ g.distAt u → g.Relaxed u

/-- Every stored edge index is listed in the adjacency list of its tail
(the head of its paired reverse edge), as `add_edge` arranges for both
members of each pair. -/
def MaximumFlow.FullAdj (g : MaximumFlow) : Prop :=
  ∀ i : ℕ, i < g.edge_list.length →
    i ∈ g.adjacency_list.getD (g.headAt (i ^^^ 1)) []

/-- The stored edges crossing the vertex set `S` outward: tail inside,
head outside. -/
def cutEdges (g : MaximumFlow) (S : ℕ → Bool) : Finset ℕ :=
  (Finset.range g.edge_list.length).filter
    (fun i => S (g.headAt (i ^^^ 1)) = true ∧ S (g.headAt i) = false)

/-- Total capacity of the stored edges leaving `S`. -/
def cutCap (g : MaximumFlow) (S : ℕ → Bool) : ℤ :=
  ∑ i ∈ cutEdges g S, g.capAt i

/-! ### Index arithmetic for the paired edge store

Edges are stored as consecutive pairs `(2k, 2k+1)`; `i ^^^ 1` maps each
member of a pair to the other. -/

theorem xor_one_even (k : ℕ) : (2 * k) ^^^ 1 = 2 * k + 1 := by
  simpa [Nat.bit_val] using Nat.xor_bit false k true 0

theorem xor_one_odd (k : ℕ) : (2 * k + 1) ^^^ 1 = 2 * k := by
  simpa [Nat.bit_val] using Nat.xor_bit true k true 0

theorem xor_one_cases (n : ℕ) :
    n % 2 = 0 ∧ n ^^^ 1 = n + 1 ∨ n % 2 = 1 ∧ (n ^^^ 1) + 1 = n := by
  rcases Nat.even_or_odd n with ⟨k, rfl⟩ | ⟨k, rfl⟩
  · refine Or.inl ⟨by omega, ?_⟩
    rw [← two_mul]
    have h := xor_one_even k
    omega
  · refine Or.inr ⟨by omega, ?_⟩
    rw [xor_one_odd k]

theorem xor_one_xor_one (n : ℕ) : (n ^^^ 1) ^^^ 1 = n := by
  rw [Nat.xor_assoc, Nat.xor_self, Nat.xor_zero]

theorem xor_one_ne (n : ℕ) : n ^^^ 1 ≠ n := by
  rcases xor_one_cases n with ⟨hp, he⟩ | ⟨hp, he⟩ <;> omega

theorem xor_one_lt {n len : ℕ} (hlen : len % 2 = 0) (h : n < len) : n ^^^ 1 < len := by
  rcases xor_one_cases n with ⟨hp, he⟩ | ⟨hp, he⟩ <;> omega

/-! ### Python indexing specialised to in-range natural indices -/

theorem pyGetI_natCast {α : Type} (l : List α) (n : ℕ) (d : α) :
    pyGetI l (n : ℤ) d = l.getD n d := by
  unfold pyGetI
  have hn : ¬ ((n : ℤ) < 0) := not_lt.mpr (Int.natCast_nonneg n)
  simp only [hn, if_false, Int.natCast_nonneg, true_and]
  by_cases h : (n : ℤ) < (l.length : ℤ)
  · rw [if_pos h, Int.toNat_natCast]
  · rw [if_neg h]
    have hle : l.length ≤ n := by exact_mod_cast not_lt.mp h
    rw [List.getD_eq_getElem?_getD, List.getElem?_eq_none hle, Option.getD_none]

theorem pySetI_natCast {α : Type} (l : List α) (n : ℕ) (x : α) :
    pySetI l (n : ℤ) x = l.set n x := by
  unfold pySetI
  have hn : ¬ ((n : ℤ) < 0) := not_lt.mpr (Int.natCast_nonneg n)
  simp [hn]

theorem pyXorOne_natCast (n : ℕ) : pyXorOne (n : ℤ) = ((n ^^^ 1 : ℕ) : ℤ) := by
  unfold pyXorOne
  simp

/-! ### Effect of single flow writes on the store -/

theorem getD_set {α : Type} (l : List α) (i j : ℕ) (x d : α) :
    (l.set i x).getD j d = if j = i ∧ i < l.length then x else l.getD j d := by
  by_cases h : j = i ∧ i < l.length
  · obtain ⟨rfl, hi⟩ := h
    simp [List.getD_eq_getElem?_getD, List.getElem?_set_self, hi]
  · rw [if_neg h]
    by_cases hj : j = i
    · subst hj
      have hle : l.length ≤ j := by
        rcases not_and_or.mp h with h1 | h2
        · exact absurd rfl h1
        · omega
      rw [List.set_eq_of_length_le hle]
    · simp [List.getD_eq_getElem?_getD, List.getElem?_set_ne (Ne.symm hj)]

theorem setFlow_natCast (g : MaximumFlow) (n : ℕ) (x : ℤ) :
    g.setFlow (n : ℤ) x =
      { g with edge_list := g.edge_list.set n (g.headAt n, g.capAt n, x) } := by
  unfold MaximumFlow.setFlow setFlow3
  rw [pyGetI_natCast, pySetI_natCast]
  rfl

theorem edge_list_length_setFlow (g : MaximumFlow) (n : ℕ) (x : ℤ) :
    (g.setFlow (n : ℤ) x).edge_list.length = g.edge_list.length := by
  rw [setFlow_natCast]
  exact List.length_set g.edge_list n _

theorem headAt_setFlow (g : MaximumFlow) (n : ℕ) (x : ℤ) (i : ℕ) :
    (g.setFlow (n : ℤ) x).headAt i = g.headAt i := by
  rw [setFlow_natCast]
  unfold MaximumFlow.headAt MaximumFlow.edgeAt
  dsimp only
  rw [getD_set]
  split
  · next h => obtain ⟨rfl, _⟩ := h; rfl
  · rfl

theorem capAt_setFlow (g : MaximumFlow) (n : ℕ) (x : ℤ) (i : ℕ) :
    (g.setFlow (n : ℤ) x).capAt i = g.capAt i := by
  rw [setFlow_natCast]
  unfold MaximumFlow.capAt MaximumFlow.edgeAt
  dsimp only
  rw [getD_set]
  split
  · next h => obtain ⟨rfl, _⟩ := h; rfl
  · rfl

theorem flowAt_setFlow (g : MaximumFlow) (n : ℕ) (x : ℤ) (i : ℕ) :
    (g.setFlow (n : ℤ) x).flowAt i =
      if i = n ∧ n < g.edge_list.length then x else g.flowAt i := by
  rw [setFlow_natCast]
  unfold MaximumFlow.flowAt MaximumFlow.edgeAt
  dsimp only
  rw [getD_set]
  split
  · next h => rfl
  · rfl

theorem fields_setFlow (g : MaximumFlow) (i : ℤ) (x : ℤ) :
    (g.setFlow i x).vertices = g.vertices ∧
    (g.setFlow i x).adjacency_list = g.adjacency_list ∧
    (g.setFlow i x).distances = g.distances ∧
    (g.setFlow i x).last = g.last ∧
    (g.setFlow i x).points = g.points ∧
    (g.setFlow i x).has_been_run = g.has_been_run :=
  ⟨rfl, rfl, rfl, rfl, rfl, rfl⟩

theorem flowAtI_natCast (g : MaximumFlow) (n : ℕ) :
    g.flowAtI (n : ℤ) = g.flowAt n := by
  unfold MaximumFlow.flowAtI MaximumFlow.flowAt MaximumFlow.edgeAt
  rw [pyGetI_natCast]

/-! ### SameShape plumbing -/

theorem SameShape.refl (g : MaximumFlow) : SameShape g g :=
  ⟨rfl, rfl, rfl, fun _ => rfl, fun _ => rfl, rfl⟩

theorem SameShape.trans {g₁ g₂ g₃ : MaximumFlow}
    (h : SameShape g₁ g₂) (h' : SameShape g₂ g₃) : SameShape g₁ g₃ :=
  ⟨h'.vert.trans h.vert, h'.adj.trans h.adj, h'.elen.trans h.elen,
   fun i => (h'.heads i).trans (h.heads i), fun i => (h'.caps i).trans (h.caps i),
   h'.flag.trans h.flag⟩

theorem SameShape.setFlow (g : MaximumFlow) (n : ℕ) (x : ℤ) :
    SameShape g (g.setFlow (n : ℤ) x) :=
  ⟨rfl, rfl, edge_list_length_setFlow g n x,
   headAt_setFlow g n x, capAt_setFlow g n x, rfl⟩

theorem WFgraph_of_sameShape {g g' : MaximumFlow}
    (h : SameShape g g') (w : g.WFgraph) : g'.WFgraph := by
  refine ⟨?_, ?_, ?_, ?_⟩
  · rw [h.elen]; exact w.evenLen
  · rw [h.adj, h.vert]; exact w.adjLen
  · intro u idx hm
    rw [h.adj] at hm
    obtain ⟨h1, h2, h3⟩ := w.adjValid u idx hm
    refine ⟨?_, ?_, ?_⟩
    · rw [h.elen]; exact h1
    · rw [h.heads]; exact h2
    · rw [h.heads, h.vert]; exact h3
  · intro i hi
    rw [h.elen] at hi
    rw [h.heads, h.vert]
    exact w.headsValid i hi

theorem setFlow_oor (g : MaximumFlow) (n : ℕ) (x : ℤ)
    (hn : ¬ n < g.edge_list.length) : g.setFlow (n : ℤ) x = g := by
  rw [setFlow_natCast, List.set_eq_of_length_le (le_of_not_lt hn)]

theorem inflow_setFlow (g : MaximumFlow) (n : ℕ) (x : ℤ) (v : ℕ) :
    (g.setFlow (n : ℤ) x).inflow v =
      g.inflow v +
        (if n < g.edge_list.length ∧ g.headAt n = v then x - g.flowAt n else 0) := by
  by_cases hn : n < g.edge_list.length
  · unfold MaximumFlow.inflow
    rw [edge_list_length_setFlow]
    rw [← Finset.sum_erase_add _ _ (Finset.mem_range.mpr hn),
      ← Finset.sum_erase_add (Finset.range g.edge_list.length)
        (fun i => if g.headAt i = v then g.flowAt i else 0) (Finset.mem_range.mpr hn)]
    have herase : ∀ i ∈ (Finset.range g.edge_list.length).erase n,
        (if (g.setFlow (n : ℤ) x).headAt i = v then (g.setFlow (n : ℤ) x).flowAt i else 0) =
        (if g.headAt i = v then g.flowAt i else 0) := by
      intro i hi
      have hne : i ≠ n := Finset.ne_of_mem_erase hi
      rw [headAt_setFlow, flowAt_setFlow]
      simp [hne]
    rw [Finset.sum_congr rfl herase, headAt_setFlow, flowAt_setFlow]
    simp only [hn, and_true, true_and, if_pos rfl]
    by_cases hv : g.headAt n = v <;> simp [hv] <;> ring
  · rw [setFlow_oor g n x hn]
    simp [hn]

/-- The two consecutive flow writes of the source (read `flow`, recurse,
write `flow + pushed`, decrement the reverse) equal `pushAt` whenever the
read value is still current at write time. -/
theorem push_code_eq (h : MaximumFlow) (idx : ℕ) (flow₀ p : ℤ)
    (hstale : h.flowAt idx = flow₀) :
    (h.setFlow ((idx : ℕ) : ℤ) (flow₀ + p)).setFlow (pyXorOne (idx : ℤ))
      ((h.setFlow ((idx : ℕ) : ℤ) (flow₀ + p)).flowAtI (pyXorOne (idx : ℤ)) - p) =
    h.pushAt idx p := by
  subst hstale
  rw [pyXorOne_natCast, flowAtI_natCast]
  rfl

theorem pushAt_sameShape (h : MaximumFlow) (idx : ℕ) (p : ℤ) :
    SameShape h (h.pushAt idx p) :=
  (SameShape.setFlow h idx _).trans (SameShape.setFlow _ (idx ^^^ 1) _)

theorem pushAt_flowAt (h : MaximumFlow) (idx : ℕ) (p : ℤ)
    (hlen : idx < h.edge_list.length) (heven : h.edge_list.length % 2 = 0) :
    ∀ i : ℕ, (h.pushAt idx p).flowAt i =
      if i = idx then h.flowAt idx + p
      else if i = idx ^^^ 1 then h.flowAt (idx ^^^ 1) - p
      else h.flowAt i := by
  have hlen1 : idx ^^^ 1 < h.edge_list.length := xor_one_lt heven hlen
  have hne : idx ^^^ 1 ≠ idx := xor_one_ne idx
  have e2flow : ∀ i : ℕ, (h.setFlow (idx : ℤ) (h.flowAt idx + p)).flowAt i =
      if i = idx then h.flowAt idx + p else h.flowAt i := by
    intro i
    rw [flowAt_setFlow]
    by_cases hi : i = idx
    · simp [hi, hlen]
    · simp [hi]
  have hlen2 : idx ^^^ 1 < (h.setFlow (idx : ℤ) (h.flowAt idx + p)).edge_list.length := by
    rw [edge_list_length_setFlow]; exact hlen1
  intro i
  unfold MaximumFlow.pushAt
  rw [flowAt_setFlow]
  by_cases hi1 : i = idx ^^^ 1
  · subst hi1
    rw [if_pos ⟨rfl, hlen2⟩, if_neg hne, if_pos rfl, e2flow, if_neg hne]
  · rw [if_neg (fun hc => hi1 hc.1), e2flow]
    by_cases hi : i = idx
    · simp [hi, Ne.symm hne]
    · simp [hi, hi1]

theorem pushAt_inflow (h : MaximumFlow) (idx : ℕ) (p : ℤ)
    (hlen : idx < h.edge_list.length) (heven : h.edge_list.length % 2 = 0) :
    ∀ v : ℕ, (h.pushAt idx p).inflow v =
      h.inflow v + (if h.headAt idx = v then p else 0)
        - (if h.headAt (idx ^^^ 1) = v then p else 0) := by
  have hlen1 : idx ^^^ 1 < h.edge_list.length := xor_one_lt heven hlen
  have hne : idx ^^^ 1 ≠ idx := xor_one_ne idx
  intro v
  unfold MaximumFlow.pushAt
  rw [inflow_setFlow, inflow_setFlow, headAt_setFlow, edge_list_length_setFlow,
    flowAt_setFlow]
  rw [if_neg (show ¬ (idx ^^^ 1 = idx ∧ idx < h.edge_list.length) from fun hc => hne hc.1)]
  by_cases hv : h.headAt idx = v <;> by_cases hv1 : h.headAt (idx ^^^ 1) = v <;>
    simp [hv, hv1, hlen, hlen1] <;> ring

theorem pushAt_antisym {h : MaximumFlow} (idx : ℕ) (p : ℤ)
    (hlen : idx < h.edge_list.length) (heven : h.edge_list.length % 2 = 0)
    (ha : h.Antisym) : (h.pushAt idx p).Antisym := by
  intro i
  have hb3 : idx ^^^ 1 ≠ idx := xor_one_ne idx
  rw [pushAt_flowAt h idx p hlen heven, pushAt_flowAt h idx p hlen heven]
  by_cases hi : i = idx
  · rw [hi]
    simp only [if_neg hb3, eq_self_iff_true, if_true]
    rw [ha idx]
    ring
  · by_cases hi1 : i = idx ^^^ 1
    · rw [hi1, xor_one_xor_one]
      simp only [if_neg hb3, eq_self_iff_true, if_true]
      rw [ha idx]
      ring
    · have h1 : i ^^^ 1 ≠ idx := by
        intro hc
        exact hi1 (by rw [← hc, xor_one_xor_one])
      have h2 : i ^^^ 1 ≠ idx ^^^ 1 := by
        intro hc
        exact hi (by rw [← xor_one_xor_one i, hc, xor_one_xor_one])
      rw [if_neg h1, if_neg h2, if_neg hi, if_neg hi1]
      exact ha i

theorem SOFPost_refl_zero (g : MaximumFlow) (s tv : ℕ) : SOFPost g g s tv 0 :=
  ⟨SameShape.refl g, rfl, rfl, rfl, fun _ _ => rfl, fun v => by simp, fun h => h⟩

theorem SOFPost_refl_diag (g : MaximumFlow) (s : ℕ) (p : ℤ) : SOFPost g g s s p := by
  refine ⟨SameShape.refl g, rfl, rfl, rfl, fun _ _ => rfl, fun v => ?_, fun h => h⟩
  by_cases hv : v = s <;> simp [hv]

/-- Unfolding of one non-trivial `send_one_flow_fin` frame, with the two
Python reads resolved to their in-range values. -/
theorem sof_fin_step (fuel : ℕ) (g : MaximumFlow) (s tv : ℕ) (f : ℤ)
    (hne : ¬ ((tv : ℤ) = (s : ℤ)))
    (u idx : ℕ) (hpts : g.points.getD tv (-1, -1) = ((u : ℤ), (idx : ℤ))) :
    MaximumFlow.send_one_flow_fin (fuel + 1) g s (tv : ℤ) f =
      ((MaximumFlow.send_one_flow_fin fuel g s (u : ℤ)
          (min f (g.capAt idx - g.flowAt idx))).1,
       ((MaximumFlow.send_one_flow_fin fuel g s (u : ℤ)
          (min f (g.capAt idx - g.flowAt idx))).2.setFlow (idx : ℤ)
            (g.flowAt idx + (MaximumFlow.send_one_flow_fin fuel g s (u : ℤ)
              (min f (g.capAt idx - g.flowAt idx))).1)).setFlow (pyXorOne (idx : ℤ))
          (((MaximumFlow.send_one_flow_fin fuel g s (u : ℤ)
              (min f (g.capAt idx - g.flowAt idx))).2.setFlow (idx : ℤ)
            (g.flowAt idx + (MaximumFlow.send_one_flow_fin fuel g s (u : ℤ)
              (min f (g.capAt idx - g.flowAt idx))).1)).flowAtI (pyXorOne (idx : ℤ))
            - (MaximumFlow.send_one_flow_fin fuel g s (u : ℤ)
              (min f (g.capAt idx - g.flowAt idx))).1)) := by
  conv_lhs => simp only [MaximumFlow.send_one_flow_fin]
  rw [if_neg hne, pyGetI_natCast, hpts]
  rw [pyGetI_natCast]
  rfl

/-- Master lemma for `send_one_flow_fin`: each call behaves as one clean
path augmentation seen from its target vertex. -/
theorem sof_fin_post (fuel : ℕ) :
    ∀ (g : MaximumFlow) (s tv : ℕ) (f : ℤ),
    g.WFgraph → g.PathCtx s →
    (tv = s ∨ (tv < g.vertices ∧ 0 ≤ g.distAt tv)) →
    SOFPost g (MaximumFlow.send_one_flow_fin fuel g s (tv : ℤ) f).2 s tv
      (MaximumFlow.send_one_flow_fin fuel g s (tv : ℤ) f).1 := by
  induction fuel with
  | zero =>
    intro g s tv f _ _ _
    exact SOFPost_refl_zero g s tv
  | succ fuel ih =>
    intro g s tv f hwf hctx hpre
    by_cases hts : (tv : ℤ) = (s : ℤ)
    · have htv : tv = s := Nat.cast_inj.mp hts
      simp only [MaximumFlow.send_one_flow_fin, if_pos hts]
      rw [htv]
      exact SOFPost_refl_diag g s f
    · have hnat : tv ≠ s := fun h => hts (by rw [h])
      have htv : tv < g.vertices ∧ 0 ≤ g.distAt tv := hpre.resolve_left hnat
      obtain ⟨u, idx, hpts, huV, hidx, hhead, hhead1, hdu, hdv, hres⟩ :=
        hctx.pv tv htv.1 hnat htv.2
      rw [sof_fin_step fuel g s tv f hts u idx hpts]
      dsimp only
      set r := MaximumFlow.send_one_flow_fin fuel g s (u : ℤ)
          (min f (g.capAt idx - g.flowAt idx)) with hr
      have P : SOFPost g r.2 s u r.1 := ih g s u _ hwf hctx (Or.inr ⟨huV, hdu⟩)
      have hmax : g.distAt u <
          max (g.distAt (g.headAt idx)) (g.distAt (g.headAt (idx ^^^ 1))) := by
        rw [hhead, hhead1]
        exact lt_max_of_lt_left (by omega)
      have hstale : r.2.flowAt idx = g.flowAt idx := P.untouched idx hmax
      have hcode : (r.2.setFlow ((idx : ℕ) : ℤ) (g.flowAt idx + r.1)).setFlow
            (pyXorOne (idx : ℤ))
            ((r.2.setFlow ((idx : ℕ) : ℤ) (g.flowAt idx + r.1)).flowAtI
              (pyXorOne (idx : ℤ)) - r.1)
          = r.2.pushAt idx r.1 := by
        rw [← hstale]
        exact push_code_eq r.2 idx _ r.1 rfl
      rw [hcode]
      have hlen' : idx < r.2.edge_list.length := by rw [P.shape.elen]; exact hidx
      have heven' : r.2.edge_list.length % 2 = 0 := by rw [P.shape.elen]; exact hwf.evenLen
      have htu : tv ≠ u := by
        intro hc
        rw [hc] at hdv
        omega
      refine ⟨?_, ?_, ?_, ?_, ?_, ?_, ?_⟩
      · exact P.shape.trans (pushAt_sameShape r.2 idx r.1)
      · show (r.2.pushAt idx r.1).distances = g.distances
        have : (r.2.pushAt idx r.1).distances = r.2.distances := rfl
        rw [this, P.distEq]
      · show (r.2.pushAt idx r.1).points = g.points
        have : (r.2.pushAt idx r.1).points = r.2.points := rfl
        rw [this, P.ptsEq]
      · show (r.2.pushAt idx r.1).last = g.last
        have : (r.2.pushAt idx r.1).last = r.2.last := rfl
        rw [this, P.lastEq]
      · intro i hi
        have hni : i ≠ idx := by
          intro hc
          rw [hc, hhead, hhead1] at hi
          rw [max_eq_left (by omega : g.distAt u ≤ g.distAt tv)] at hi
          exact lt_irrefl _ hi
        have hni1 : i ≠ idx ^^^ 1 := by
          intro hc
          rw [hc, hhead1, xor_one_xor_one, hhead] at hi
          rw [max_eq_right (by omega : g.distAt u ≤ g.distAt tv)] at hi
          exact lt_irrefl _ hi
        have h2 : r.2.flowAt i = g.flowAt i :=
          P.untouched i (lt_trans (by omega : g.distAt u < g.distAt tv) hi)
        rw [pushAt_flowAt r.2 idx r.1 hlen' heven', if_neg hni, if_neg hni1, h2]
      · intro v
        rw [pushAt_inflow r.2 idx r.1 hlen' heven']
        have hh : r.2.headAt idx = tv := by rw [P.shape.heads, hhead]
        have hh1 : r.2.headAt (idx ^^^ 1) = u := by rw [P.shape.heads, hhead1]
        rw [hh, hh1, P.exc v]
        by_cases h1 : v = tv
        · rw [h1]
          simp only [if_pos rfl, if_neg htu, if_neg (Ne.symm htu : ¬ u = tv),
            if_neg hnat]
          ring
        · by_cases h2 : v = u
          · rw [h2]
            simp only [if_pos rfl, if_neg (htu : ¬ tv = u),
              if_neg (Ne.symm htu : ¬ u = tv)]
            ring
          · simp only [if_neg h1, if_neg h2, if_neg (Ne.symm h1), if_neg (Ne.symm h2)]
            ring
      · intro ha
        exact pushAt_antisym idx r.1 hlen' heven' (P.anti ha)

/-- Bounds part of the `send_one_flow_fin` analysis: with a non-negative cap
and non-negative residuals, the push is between `0` and the cap, and every
residual stays non-negative. -/
theorem sof_fin_bounds (fuel : ℕ) :
    ∀ (g : MaximumFlow) (s tv : ℕ) (f : ℤ),
    g.WFgraph → g.PathCtx s →
    (tv = s ∨ (tv < g.vertices ∧ 0 ≤ g.distAt tv)) →
    g.FlowLeCap → 0 ≤ f →
    0 ≤ (MaximumFlow.send_one_flow_fin fuel g s (tv : ℤ) f).1 ∧
    (MaximumFlow.send_one_flow_fin fuel g s (tv : ℤ) f).1 ≤ f ∧
    (MaximumFlow.send_one_flow_fin fuel g s (tv : ℤ) f).2.FlowLeCap := by
  induction fuel with
  | zero =>
    intro g s tv f _ _ _ hC hf
    exact ⟨le_refl 0, hf, hC⟩
  | succ fuel ih =>
    intro g s tv f hwf hctx hpre hC hf
    by_cases hts : (tv : ℤ) = (s : ℤ)
    · simp only [MaximumFlow.send_one_flow_fin, if_pos hts]
      exact ⟨hf, le_refl f, hC⟩
    · have hnat : tv ≠ s := fun h => hts (by rw [h])
      have htv : tv < g.vertices ∧ 0 ≤ g.distAt tv := hpre.resolve_left hnat
      obtain ⟨u, idx, hpts, huV, hidx, hhead, hhead1, hdu, hdv, hres⟩ :=
        hctx.pv tv htv.1 hnat htv.2
      rw [sof_fin_step fuel g s tv f hts u idx hpts]
      dsimp only
      set r := MaximumFlow.send_one_flow_fin fuel g s (u : ℤ)
          (min f (g.capAt idx - g.flowAt idx)) with hr
      have hf' : 0 ≤ min f (g.capAt idx - g.flowAt idx) :=
        le_min hf (by have := hC idx; omega)
      obtain ⟨hp0, hpf, hC2⟩ := ih g s u _ hwf hctx (Or.inr ⟨huV, hdu⟩) hC hf'
      rw [← hr] at hp0 hpf hC2
      have P : SOFPost g r.2 s u r.1 :=
        sof_fin_post fuel g s u _ hwf hctx (Or.inr ⟨huV, hdu⟩)
      have hmax : g.distAt u <
          max (g.distAt (g.headAt idx)) (g.distAt (g.headAt (idx ^^^ 1))) := by
        rw [hhead, hhead1]
        exact lt_max_of_lt_left (by omega)
      have hstale : r.2.flowAt idx = g.flowAt idx := P.untouched idx hmax
      have hcode : (r.2.setFlow ((idx : ℕ) : ℤ) (g.flowAt idx + r.1)).setFlow
            (pyXorOne (idx : ℤ))
            ((r.2.setFlow ((idx : ℕ) : ℤ) (g.flowAt idx + r.1)).flowAtI
              (pyXorOne (idx : ℤ)) - r.1)
          = r.2.pushAt idx r.1 := by
        rw [← hstale]
        exact push_code_eq r.2 idx _ r.1 rfl
      rw [hcode]
      have hlen' : idx < r.2.edge_list.length := by rw [P.shape.elen]; exact hidx
      have heven' : r.2.edge_list.length % 2 = 0 := by
        rw [P.shape.elen]; exact hwf.evenLen
      have hcap : ∀ i, (r.2.pushAt idx r.1).capAt i = g.capAt i := fun i =>
        ((pushAt_sameShape r.2 idx r.1).caps i).trans (P.shape.caps i)
      have hrmin : r.1 ≤ g.capAt idx - g.flowAt idx :=
        le_trans hpf (min_le_right _ _)
      refine ⟨hp0, le_trans hpf (min_le_left _ _), ?_⟩
      intro i
      rw [pushAt_flowAt r.2 idx r.1 hlen' heven', hcap]
      by_cases hi : i = idx
      · rw [if_pos hi, hstale, hi]
        omega
      · rw [if_neg hi]
        by_cases hi1 : i = idx ^^^ 1
        · rw [if_pos hi1, hi1]
          have h1 := hC2 (idx ^^^ 1)
          have h2 := P.shape.caps (idx ^^^ 1)
          omega
        · rw [if_neg hi1]
          have h1 := hC2 i
          have h2 := P.shape.caps i
          omega

/-- The entry point `send_one_flow(s, t)` with its default infinite cap is,
for `t ≠ s`, the finite-cap walk seeded with the first residual (since
`min(INF, cap - flow) = cap - flow`). -/
theorem sof_entry_eq (g : MaximumFlow) (s t : ℕ) (hts : ¬ ((t : ℤ) = (s : ℤ)))
    (u idx : ℕ) (hpts : g.points.getD t (-1, -1) = ((u : ℤ), (idx : ℤ))) :
    g.send_one_flow s t =
      (((MaximumFlow.send_one_flow_fin (g.vertices + 3) g s (t : ℤ)
          (g.capAt idx - g.flowAt idx)).1 : WithTop ℤ),
       (MaximumFlow.send_one_flow_fin (g.vertices + 3) g s (t : ℤ)
          (g.capAt idx - g.flowAt idx)).2) := by
  rw [show g.vertices + 3 = (g.vertices + 2) + 1 from rfl,
    sof_fin_step (g.vertices + 2) g s t _ hts u idx hpts]
  unfold MaximumFlow.send_one_flow
  rw [if_neg hts, pyGetI_natCast, hpts]
  dsimp only
  rw [pyGetI_natCast, min_self]
  rfl

/-! ### BFS establishes the path context -/

theorem getD_replicate {α : Type} (n i : ℕ) (a d : α) :
    (List.replicate n a).getD i d = if i < n then a else d := by
  rw [List.getD_eq_getElem?_getD]
  by_cases h : i < n <;> simp [List.getElem?_replicate, h]

theorem headAt_congr {g g' : MaximumFlow} (h : g'.edge_list = g.edge_list) (i : ℕ) :
    g'.headAt i = g.headAt i := by
  unfold MaximumFlow.headAt MaximumFlow.edgeAt
  rw [h]

theorem capAt_congr {g g' : MaximumFlow} (h : g'.edge_list = g.edge_list) (i : ℕ) :
    g'.capAt i = g.capAt i := by
  unfold MaximumFlow.capAt MaximumFlow.edgeAt
  rw [h]

theorem flowAt_congr {g g' : MaximumFlow} (h : g'.edge_list = g.edge_list) (i : ℕ) :
    g'.flowAt i = g.flowAt i := by
  unfold MaximumFlow.flowAt MaximumFlow.edgeAt
  rw [h]

theorem bfsVisit_oor (g : MaximumFlow) (u : ℕ) (q : List ℕ)
    (h : g.adjacency_list.length ≤ u) : g.bfsVisit u q = (g, q) := by
  unfold MaximumFlow.bfsVisit
  rw [List.getD_eq_getElem?_getD, List.getElem?_eq_none h]
  rfl

theorem bfsVisit_inv (g₀ : MaximumFlow) (s : ℕ) (hwf : g₀.WFgraph)
    (g : MaximumFlow) (q : List ℕ) (u : ℕ)
    (hinv : BFSInv g₀ s g q) (hu : 0 ≤ g.distAt u) :
    BFSInv g₀ s (g.bfsVisit u q).1 (g.bfsVisit u q).2 ∧
      0 ≤ (g.bfsVisit u q).1.distAt u := by
  unfold MaximumFlow.bfsVisit
  refine @List.foldlRecOn _ _
    (fun p => BFSInv g₀ s p.1 p.2 ∧ 0 ≤ p.1.distAt u)
    (g.adjacency_list.getD u []) _ (g, q) ⟨hinv, hu⟩ ?_
  rintro ⟨h, q'⟩ ⟨C, hdu⟩ idx hmem
  dsimp only
  dsimp only at C hdu
  have hadj : g.adjacency_list.getD u [] = g₀.adjacency_list.getD u [] := by
    rw [hinv.adj]
  rw [hadj] at hmem
  obtain ⟨hidx, hhead1, hheadV⟩ := hwf.adjValid u idx hmem
  have huV : u < g₀.vertices := by
    by_contra hc
    have hempty : g₀.adjacency_list.getD u [] = [] := by
      rw [List.getD_eq_getElem?_getD, List.getElem?_eq_none, Option.getD_none]
      rw [hwf.adjLen]
      omega
    rw [hempty] at hmem
    exact absurd hmem (List.not_mem_nil idx)
  set e := h.edge_list.getD idx (0, 0, 0) with he
  have heg : e = g₀.edge_list.getD idx (0, 0, 0) := by rw [he, C.edges]
  have hv : e.1 = g₀.headAt idx := by rw [heg]; rfl
  have hvV : e.1 < g₀.vertices := by rw [hv]; exact hheadV
  have hcapAt : h.capAt idx = e.2.1 := by
    unfold MaximumFlow.capAt MaximumFlow.edgeAt
    rw [← he]
  have hflowAt : h.flowAt idx = e.2.2 := by
    unfold MaximumFlow.flowAt MaximumFlow.edgeAt
    rw [← he]
  have hheadAt : h.headAt idx = e.1 := by
    unfold MaximumFlow.headAt MaximumFlow.edgeAt
    rw [← he]
  have hheadAt1 : h.headAt (idx ^^^ 1) = u := by
    rw [headAt_congr C.edges]
    exact hhead1
  by_cases hc : 0 < e.2.1 - e.2.2 ∧ h.distAt e.1 = -1
  · rw [if_pos hc]
    dsimp only
    set h' : MaximumFlow := { h with
      distances := h.distances.set e.1 (h.distAt u + 1),
      points := h.points.set e.1 ((u : ℤ), (idx : ℤ)) } with hh'
    have hvneu : e.1 ≠ u := by
      intro hcc
      rw [hcc] at hc
      omega
    have hvnes : e.1 ≠ s := by
      intro hcc
      by_cases hsV : s < h.vertices
      · have := C.hs hsV
        rw [hcc] at hc
        omega
      · rw [C.vert] at hsV
        omega
    have hlenD : h.distances.length = h.vertices := C.ctx.lenD
    have hlenP : h.points.length = h.vertices := C.ctx.lenP
    have hvada : e.1 < h.vertices := by rw [C.vert]; exact hvV
    have hdist : ∀ w : ℕ, h'.distAt w = if w = e.1 then h.distAt u + 1 else h.distAt w := by
      intro w
      show (h.distances.set e.1 (h.distAt u + 1)).getD w (-1) = _
      rw [getD_set]
      by_cases hw : w = e.1
      · rw [if_pos ⟨hw, by omega⟩, if_pos hw]
      · rw [if_neg (fun hcc => hw hcc.1), if_neg hw]
        rfl
    have hpts : ∀ w : ℕ, h'.points.getD w (-1, -1) =
        if w = e.1 then ((u : ℤ), (idx : ℤ)) else h.points.getD w (-1, -1) := by
      intro w
      show (h.points.set e.1 _).getD w (-1, -1) = _
      rw [getD_set]
      by_cases hw : w = e.1
      · rw [if_pos ⟨hw, by omega⟩, if_pos hw]
      · rw [if_neg (fun hcc => hw hcc.1), if_neg hw]
    have hedges : h'.edge_list = g₀.edge_list := C.edges
    have hvert : h'.vertices = g₀.vertices := C.vert
    constructor
    · refine ⟨⟨?_, ?_, ?_, ?_, ?_⟩, hedges, C.adj, C.lastE, hvert, C.flag, ?_, ?_⟩
      · show (h.distances.set e.1 _).length = h.vertices
        rw [List.length_set]
        exact hlenD
      · show (h.points.set e.1 ((u : ℤ), (idx : ℤ))).length = h.vertices
        rw [List.length_set]
        exact hlenP
      · intro w
        rw [hdist w]
        by_cases hw : w = e.1
        · rw [if_pos hw]
          right
          omega
        · rw [if_neg hw]
          exact C.ctx.dsent w
      · intro w hwV hw0
        rw [hdist w] at hw0
        by_cases hw : w = e.1
        · rw [if_pos hw] at hw0
          omega
        · rw [if_neg hw] at hw0
          exact C.ctx.dzero w hwV hw0
      · intro w hwV hws hwd
        rw [hdist w] at hwd
        by_cases hw : w = e.1
        · refine ⟨u, idx, ?_, ?_, ?_, ?_, ?_, ?_, ?_, ?_⟩
          · rw [hpts w, if_pos hw]
          · show u < h.vertices
            rw [C.vert]
            exact huV
          · show idx < h.edge_list.length
            rw [C.edges]
            exact hidx
          · show h.headAt idx = w
            rw [hheadAt, hw]
          · show h.headAt (idx ^^^ 1) = u
            exact hheadAt1
          · rw [hdist u, if_neg (Ne.symm hvneu)]
            exact hdu
          · rw [hdist u, if_neg (Ne.symm hvneu), hw, hdist e.1, if_pos rfl]
          · show h.flowAt idx < h.capAt idx
            rw [hcapAt, hflowAt]
            omega
        · rw [if_neg hw] at hwd
          obtain ⟨u', idx', hp', huV', hidx', hh', hh1', hdu', hdv', hres'⟩ :=
            C.ctx.pv w hwV hws hwd
          have hune : u' ≠ e.1 := by
            intro hcc
            rw [hcc] at hdu'
            omega
          refine ⟨u', idx', ?_, huV', ?_, ?_, ?_, ?_, ?_, ?_⟩
          · rw [hpts w, if_neg hw]
            exact hp'
          · exact hidx'
          · exact hh'
          · exact hh1'
          · rw [hdist u', if_neg hune]
            exact hdu'
          · rw [hdist u', if_neg hune, hdist w, if_neg hw]
            exact hdv'
          · exact hres'
      · intro hsV
        rw [hdist s, if_neg (Ne.symm hvnes)]
        exact C.hs hsV
      · intro x hx
        rcases List.mem_append.mp hx with hx1 | hx2
        · rcases C.qmem x hx1 with ⟨hxa, hxb⟩ | hxs
          · left
            refine ⟨hxa, ?_⟩
            rw [hdist x]
            by_cases hw : x = e.1
            · rw [if_pos hw]; omega
            · rw [if_neg hw]; exact hxb
          · right; exact hxs
        · have hxe : x = e.1 := List.mem_singleton.mp hx2
          left
          refine ⟨by rw [hxe]; exact hvada, ?_⟩
          rw [hdist x]
          by_cases hw : x = e.1
          · rw [if_pos hw]; omega
          · rw [if_neg hw]
            rw [hxe] at hw
            exact absurd rfl hw
    · rw [hdist u, if_neg (Ne.symm hvneu)]
      exact hdu
  · rw [if_neg hc]
    exact ⟨C, hdu⟩

theorem BFSInv_nil {g₀ : MaximumFlow} {s : ℕ} {g : MaximumFlow} {q : List ℕ}
    (hinv : BFSInv g₀ s g q) : BFSInv g₀ s g [] :=
  ⟨hinv.ctx, hinv.edges, hinv.adj, hinv.lastE, hinv.vert, hinv.flag, hinv.hs,
    fun x hx => absurd hx (List.not_mem_nil x)⟩

theorem BFSInv_tail {g₀ : MaximumFlow} {s u : ℕ} {g : MaximumFlow} {q : List ℕ}
    (hinv : BFSInv g₀ s g (u :: q)) : BFSInv g₀ s g q :=
  ⟨hinv.ctx, hinv.edges, hinv.adj, hinv.lastE, hinv.vert, hinv.flag, hinv.hs,
    fun x hx => hinv.qmem x (List.mem_cons_of_mem u hx)⟩

theorem bfsLoop_inv (g₀ : MaximumFlow) (s t : ℕ) (hwf : g₀.WFgraph) :
    ∀ (fuel : ℕ) (g : MaximumFlow) (q : List ℕ),
    BFSInv g₀ s g q → BFSInv g₀ s (MaximumFlow.bfsLoop fuel g t q) [] := by
  intro fuel
  induction fuel with
  | zero =>
    intro g q hinv
    exact BFSInv_nil hinv
  | succ fuel ih =>
    intro g q hinv
    rcases q with _ | ⟨u, q'⟩
    · exact BFSInv_nil hinv
    · simp only [MaximumFlow.bfsLoop]
      by_cases hut : u = t
      · rw [if_pos hut]
        exact BFSInv_nil hinv
      · rw [if_neg hut]
        have hq' : BFSInv g₀ s g q' := BFSInv_tail hinv
        rcases hinv.qmem u (List.mem_cons_self u q') with ⟨huV, hud⟩ | hus
        · exact ih _ _ (bfsVisit_inv g₀ s hwf g q' u hq' hud).1
        · by_cases hsV : s < g.vertices
          · have hud : 0 ≤ g.distAt u := by
              rw [hus]
              rw [hinv.hs hsV]
            exact ih _ _ (bfsVisit_inv g₀ s hwf g q' u hq' hud).1
          · have hoor : g.adjacency_list.length ≤ u := by
              rw [hinv.adj, hwf.adjLen, hus]
              rw [hinv.vert] at hsV
              omega
            rw [bfsVisit_oor g u q' hoor]
            exact ih _ _ hq'

/-- `BFS(s, t)` leaves everything but the label arrays untouched and
establishes the path context (`PathCtx`). -/
theorem BFS_post (g : MaximumFlow) (s t : ℕ) (hwf : g.WFgraph) :
    BFSInv g s (g.BFS s t).2 [] := by
  unfold MaximumFlow.BFS
  dsimp only
  apply bfsLoop_inv g s t hwf
  have hd : ∀ v : ℕ,
      (((List.replicate g.vertices (-1 : ℤ)).set s 0).getD v (-1)) =
        if v = s ∧ s < g.vertices then 0 else -1 := by
    intro v
    rw [getD_set]
    by_cases hv : v = s ∧ s < (List.replicate g.vertices (-1 : ℤ)).length
    · rw [if_pos hv, if_pos ⟨hv.1, by simpa using hv.2⟩]
    · rw [if_neg hv, if_neg (by simpa using hv), getD_replicate]
      split <;> rfl
  refine ⟨⟨?_, ?_, ?_, ?_, ?_⟩, rfl, rfl, rfl, rfl, rfl, ?_, ?_⟩
  · show ((List.replicate g.vertices (-1 : ℤ)).set s 0).length = g.vertices
    rw [List.length_set, List.length_replicate]
  · show (List.replicate g.vertices ((-1 : ℤ), (-1 : ℤ))).length = g.vertices
    rw [List.length_replicate]
  · intro v
    show ((List.replicate g.vertices (-1 : ℤ)).set s 0).getD v (-1) = -1 ∨
      0 ≤ ((List.replicate g.vertices (-1 : ℤ)).set s 0).getD v (-1)
    rw [hd v]
    split
    · right; omega
    · left; rfl
  · intro v hvV hv0
    have hv0' : ((List.replicate g.vertices (-1 : ℤ)).set s 0).getD v (-1) = 0 := hv0
    rw [hd v] at hv0'
    by_cases hv : v = s ∧ s < g.vertices
    · exact hv.1
    · rw [if_neg hv] at hv0'
      omega
  · intro v hvV hvs hvd
    exfalso
    have hvd' : 0 ≤ ((List.replicate g.vertices (-1 : ℤ)).set s 0).getD v (-1) := hvd
    rw [hd v, if_neg (fun hc => hvs hc.1)] at hvd'
    omega
  · intro hsV
    show ((List.replicate g.vertices (-1 : ℤ)).set s 0).getD s (-1) = 0
    rw [hd s, if_pos ⟨rfl, hsV⟩]
  · intro x hx
    right
    exact List.mem_singleton.mp hx

theorem BFS_reached (g : MaximumFlow) (s t : ℕ) (hwf : g.WFgraph)
    (hb : (g.BFS s t).1 = true) :
    t < (g.BFS s t).2.vertices ∧ 0 ≤ (g.BFS s t).2.distAt t := by
  have hpost := BFS_post g s t hwf
  have hne : (g.BFS s t).2.distAt t ≠ -1 := by
    have hb' : decide ((g.BFS s t).2.distAt t ≠ -1) = true := hb
    exact of_decide_eq_true hb'
  constructor
  · by_contra hc
    have hlen : (g.BFS s t).2.distances.length = (g.BFS s t).2.vertices :=
      hpost.ctx.lenD
    have : (g.BFS s t).2.distAt t = -1 := by
      show (g.BFS s t).2.distances.getD t (-1) = -1
      rw [List.getD_eq_getElem?_getD, List.getElem?_eq_none (by omega), Option.getD_none]
    exact hne this
  · rcases hpost.ctx.dsent t with h | h
    · exact absurd h hne
    · exact h

/-! ### Stores built by `add_edge` -/

theorem edge_list_add_edge (g : MaximumFlow) (u v : ℕ) (c : ℤ) (d : Bool) (h : u ≠ v) :
    (g.add_edge u v c d).edge_list =
      g.edge_list ++ [(v, c, 0), (u, if d then 0 else c, 0)] := by
  unfold MaximumFlow.add_edge
  rw [if_neg h]
  dsimp only
  rw [List.append_assoc]
  rfl

theorem adjacency_add_edge (g : MaximumFlow) (u v : ℕ) (c : ℤ) (d : Bool) (h : u ≠ v) :
    (g.add_edge u v c d).adjacency_list =
      (g.adjacency_list.set u
          ((g.adjacency_list.getD u []) ++ [g.edge_list.length])).set v
        ((g.adjacency_list.getD v []) ++ [g.edge_list.length + 1]) := by
  unfold MaximumFlow.add_edge
  rw [if_neg h]
  dsimp only
  rw [getD_set]
  rw [if_neg (fun hc => h hc.1.symm)]
  have h1 : (g.edge_list ++ [(v, c, 0)]).length - 1 = g.edge_list.length := by
    rw [List.length_append]
    simp
  have h2 : ((g.edge_list ++ [(v, c, 0)]) ++ [(u, if d then 0 else c, 0)]).length - 1 =
      g.edge_list.length + 1 := by
    rw [List.length_append, List.length_append]
    simp
  rw [h1, h2]

theorem fields_add_edge (g : MaximumFlow) (u v : ℕ) (c : ℤ) (d : Bool) :
    (g.add_edge u v c d).vertices = g.vertices ∧
    (g.add_edge u v c d).distances = g.distances ∧
    (g.add_edge u v c d).last = g.last ∧
    (g.add_edge u v c d).points = g.points ∧
    (g.add_edge u v c d).has_been_run = g.has_been_run := by
  unfold MaximumFlow.add_edge
  split
  · exact ⟨rfl, rfl, rfl, rfl, rfl⟩
  · exact ⟨rfl, rfl, rfl, rfl, rfl⟩

theorem edgeAt_add_edge (g : MaximumFlow) (u v : ℕ) (c : ℤ) (d : Bool) (h : u ≠ v) :
    (∀ i, i < g.edge_list.length → (g.add_edge u v c d).edgeAt i = g.edgeAt i) ∧
    (g.add_edge u v c d).edgeAt g.edge_list.length = (v, c, 0) ∧
    (g.add_edge u v c d).edgeAt (g.edge_list.length + 1) = (u, if d then 0 else c, 0) := by
  unfold MaximumFlow.edgeAt
  rw [edge_list_add_edge g u v c d h]
  refine ⟨?_, ?_, ?_⟩
  · intro i hi
    rw [List.getD_eq_getElem?_getD, List.getD_eq_getElem?_getD,
      List.getElem?_append_left hi]
  · rw [List.getD_eq_getElem?_getD, List.getElem?_append_right (le_refl _)]
    simp
  · rw [List.getD_eq_getElem?_getD, List.getElem?_append_right (by omega)]
    simp

theorem length_add_edge (g : MaximumFlow) (u v : ℕ) (c : ℤ) (d : Bool) (h : u ≠ v) :
    (g.add_edge u v c d).edge_list.length = g.edge_list.length + 2 := by
  rw [edge_list_add_edge g u v c d h, List.length_append]
  rfl

theorem adjacency_getD_add_edge (g : MaximumFlow) (u v : ℕ) (c : ℤ) (d : Bool)
    (h : u ≠ v) (hwf : g.WFgraph) (hu : u < g.vertices) (hv : v < g.vertices) :
    ∀ w : ℕ, (g.add_edge u v c d).adjacency_list.getD w [] =
      if w = v then g.adjacency_list.getD v [] ++ [g.edge_list.length + 1]
      else if w = u then g.adjacency_list.getD u [] ++ [g.edge_list.length]
      else g.adjacency_list.getD w [] := by
  intro w
  rw [adjacency_add_edge g u v c d h]
  rw [getD_set, getD_set]
  by_cases hwv : w = v
  · rw [if_pos ⟨hwv, by rw [List.length_set, hwf.adjLen]; omega⟩, if_pos hwv]
  · rw [if_neg (fun hc => hwv hc.1), if_neg hwv]
    by_cases hwu : w = u
    · rw [if_pos ⟨hwu, by rw [hwf.adjLen]; omega⟩, if_pos hwu]
    · rw [if_neg (fun hc => hwu hc.1), if_neg hwu]

theorem WFgraph_add_edge {g : MaximumFlow} (hwf : g.WFgraph) (u v : ℕ) (c : ℤ)
    (d : Bool) (hu : u < g.vertices) (hv : v < g.vertices) :
    (g.add_edge u v c d).WFgraph := by
  by_cases h : u = v
  · unfold MaximumFlow.add_edge
    rw [if_pos h]
    exact hwf
  · obtain ⟨hOld, hNew1, hNew2⟩ := edgeAt_add_edge g u v c d h
    have hlen := length_add_edge g u v c d h
    have hvertEq := (fields_add_edge g u v c d).1
    have hadjw := adjacency_getD_add_edge g u v c d h hwf hu hv
    have hHeadOld : ∀ i, i < g.edge_list.length →
        (g.add_edge u v c d).headAt i = g.headAt i := by
      intro i hi
      unfold MaximumFlow.headAt
      rw [hOld i hi]
    have hHnew1 : (g.add_edge u v c d).headAt g.edge_list.length = v := by
      unfold MaximumFlow.headAt
      rw [hNew1]
    have hHnew2 : (g.add_edge u v c d).headAt (g.edge_list.length + 1) = u := by
      unfold MaximumFlow.headAt
      rw [hNew2]
    have hkx : g.edge_list.length ^^^ 1 = g.edge_list.length + 1 := by
      rcases xor_one_cases g.edge_list.length with ⟨_, hx⟩ | ⟨hp, _⟩
      · exact hx
      · have := hwf.evenLen
        omega
    have hkx1 : (g.edge_list.length + 1) ^^^ 1 = g.edge_list.length := by
      rw [← hkx, xor_one_xor_one]
    refine ⟨?_, ?_, ?_, ?_⟩
    · rw [hlen]
      have := hwf.evenLen
      omega
    · rw [adjacency_add_edge g u v c d h, List.length_set, List.length_set,
        hwf.adjLen, hvertEq]
    · intro w idx hmem
      rw [hadjw w] at hmem
      rw [hlen, hvertEq]
      by_cases hwv : w = v
      · rw [if_pos hwv] at hmem
        rcases List.mem_append.mp hmem with hm | hm
        · obtain ⟨h1, h2, h3⟩ := hwf.adjValid v idx hm
          have h1x : idx ^^^ 1 < g.edge_list.length := xor_one_lt hwf.evenLen h1
          rw [hHeadOld _ h1x, hHeadOld _ h1]
          exact ⟨by omega, by rw [h2, hwv], h3⟩
        · have hidx : idx = g.edge_list.length + 1 := List.mem_singleton.mp hm
          rw [hidx, hkx1, hHnew1, hHnew2, hwv]
          exact ⟨by omega, rfl, hu⟩
      · rw [if_neg hwv] at hmem
        by_cases hwu : w = u
        · rw [if_pos hwu] at hmem
          rcases List.mem_append.mp hmem with hm | hm
          · obtain ⟨h1, h2, h3⟩ := hwf.adjValid u idx hm
            have h1x : idx ^^^ 1 < g.edge_list.length := xor_one_lt hwf.evenLen h1
            rw [hHeadOld _ h1x, hHeadOld _ h1]
            exact ⟨by omega, by rw [h2, hwu], h3⟩
          · have hidx : idx = g.edge_list.length := List.mem_singleton.mp hm
            rw [hidx, hkx, hHnew2, hHnew1, hwu]
            exact ⟨by omega, rfl, hv⟩
        · rw [if_neg hwu] at hmem
          obtain ⟨h1, h2, h3⟩ := hwf.adjValid w idx hmem
          have h1x : idx ^^^ 1 < g.edge_list.length := xor_one_lt hwf.evenLen h1
          rw [hHeadOld _ h1x, hHeadOld _ h1]
          exact ⟨by omega, h2, h3⟩
    · intro i hi
      rw [hlen] at hi
      rw [hvertEq]
      rcases Nat.lt_trichotomy i g.edge_list.length with hc | hc | hc
      · rw [hHeadOld _ hc]
        exact hwf.headsValid i hc
      · rw [hc, hHnew1]
        exact hv
      · have : i = g.edge_list.length + 1 := by omega
        rw [this, hHnew2]
        exact hu

theorem Built_wf {g : MaximumFlow} (hb : Built g) : g.WFgraph := by
  induction hb with
  | base V =>
    refine ⟨rfl, List.length_replicate V [], ?_, ?_⟩
    · intro u idx hmem
      have : (List.replicate V ([] : List ℕ)).getD u [] = [] := by
        rw [getD_replicate]
        split <;> rfl
      rw [show (MaximumFlow.init V).adjacency_list = List.replicate V [] from rfl,
        this] at hmem
      exact absurd hmem (List.not_mem_nil idx)
    · intro i hi
      exact absurd hi (by simp [MaximumFlow.init])
  | add u v c d hb hu hv ih => exact WFgraph_add_edge ih u v c d hu hv

theorem Built_flows {g : MaximumFlow} (hb : Built g) : ∀ i : ℕ, g.flowAt i = 0 := by
  induction hb with
  | base V => intro i; rfl
  | @add g' u v c d hb hu hv ih =>
    intro i
    by_cases h : u = v
    · show ((g'.add_edge u v c d).edgeAt i).2.2 = 0
      unfold MaximumFlow.add_edge
      rw [if_pos h]
      exact ih i
    · obtain ⟨hOld, hNew1, hNew2⟩ := edgeAt_add_edge g' u v c d h
      have hlen := length_add_edge g' u v c d h
      show ((g'.add_edge u v c d).edgeAt i).2.2 = 0
      rcases Nat.lt_trichotomy i g'.edge_list.length with hc | hc | hc
      · rw [hOld i hc]
        exact ih i
      · rw [hc, hNew1]
      · by_cases hc2 : i = g'.edge_list.length + 1
        · rw [hc2, hNew2]
        · have hoor : (g'.add_edge u v c d).edge_list.length ≤ i := by omega
          unfold MaximumFlow.edgeAt
          rw [List.getD_eq_getElem?_getD, List.getElem?_eq_none hoor, Option.getD_none]

theorem Built_fields {g : MaximumFlow} (hb : Built g) :
    g.distances = [] ∧ g.last = [] ∧ g.points = [] ∧ g.has_been_run = false := by
  induction hb with
  | base V => exact ⟨rfl, rfl, rfl, rfl⟩
  | add u v c d hb hu hv ih =>
    obtain ⟨h1, h2, h3, h4, h5⟩ := fields_add_edge _ u v c d
    exact ⟨h2.trans ih.1, h3.trans ih.2.1, h4.trans ih.2.2.1, h5.trans ih.2.2.2⟩

theorem Built_antisym {g : MaximumFlow} (hb : Built g) : g.Antisym := by
  intro i
  rw [Built_flows hb, Built_flows hb, neg_zero]

theorem Built_inflow {g : MaximumFlow} (hb : Built g) : ∀ v : ℕ, g.inflow v = 0 := by
  intro v
  unfold MaximumFlow.inflow
  rw [Finset.sum_congr rfl (fun i _ => by rw [Built_flows hb i, ite_self])]
  exact Finset.sum_const_zero

theorem inflow_congr {g g' : MaximumFlow} (h : g'.edge_list = g.edge_list) :
    ∀ v : ℕ, g'.inflow v = g.inflow v := by
  intro v
  unfold MaximumFlow.inflow
  rw [h]
  refine Finset.sum_congr rfl (fun i _ => ?_)
  rw [headAt_congr h, flowAt_congr h]

theorem antisym_congr {g g' : MaximumFlow} (h : g'.edge_list = g.edge_list)
    (ha : g.Antisym) : g'.Antisym := by
  intro i
  rw [flowAt_congr h, flowAt_congr h]
  exact ha i

theorem flowLeCap_congr {g g' : MaximumFlow} (h : g'.edge_list = g.edge_list)
    (hc : g.FlowLeCap) : g'.FlowLeCap := by
  intro i
  rw [flowAt_congr h, capAt_congr h]
  exact hc i

theorem wf_congr {g g' : MaximumFlow} (he : g'.edge_list = g.edge_list)
    (hadj : g'.adjacency_list = g.adjacency_list) (hv : g'.vertices = g.vertices)
    (hwf : g.WFgraph) : g'.WFgraph := by
  refine ⟨?_, ?_, ?_, ?_⟩
  · rw [he]; exact hwf.evenLen
  · rw [hadj, hv]; exact hwf.adjLen
  · intro u idx hmem
    rw [hadj] at hmem
    obtain ⟨h1, h2, h3⟩ := hwf.adjValid u idx hmem
    refine ⟨?_, ?_, ?_⟩
    · rw [he]; exact h1
    · rw [headAt_congr he]; exact h2
    · rw [headAt_congr he, hv]; exact h3
  · intro i hi
    rw [he] at hi
    rw [headAt_congr he, hv]
    exact hwf.headsValid i hi

/-- With the reverse-pair invariant, the stored outflow of a vertex is the
negation of its stored inflow (pairs `(2k, 2k+1)` exchange head and tail). -/
theorem outflow_eq_neg_inflow {g : MaximumFlow}
    (heven : g.edge_list.length % 2 = 0) (ha : g.Antisym) :
    ∀ v : ℕ, g.outflow v = - g.inflow v := by
  intro v
  unfold MaximumFlow.outflow MaximumFlow.inflow
  rw [← Finset.sum_neg_distrib]
  refine Finset.sum_nbij' (fun i => i ^^^ 1) (fun i => i ^^^ 1) ?_ ?_ ?_ ?_ ?_
  all_goals intro a ha'
  · exact Finset.mem_range.mpr (xor_one_lt heven (Finset.mem_range.mp ha'))
  · exact Finset.mem_range.mpr (xor_one_lt heven (Finset.mem_range.mp ha'))
  · exact xor_one_xor_one a
  · exact xor_one_xor_one a
  · show (if g.headAt (a ^^^ 1) = v then g.flowAt a else 0) =
      - (if g.headAt (a ^^^ 1) = v then g.flowAt (a ^^^ 1) else 0)
    by_cases hc : g.headAt (a ^^^ 1) = v
    · rw [if_pos hc, if_pos hc, ha a, neg_neg]
    · rw [if_neg hc, if_neg hc, neg_zero]

/-- The Edmonds-Karp loop preserves the run invariant (and capacity respect),
and never touches the lifecycle flag. -/
theorem ekLoop_inv (s t : ℕ) : ∀ (fuel : ℕ) (g : MaximumFlow) (mf : WithTop ℤ)
    (res : WithTop ℤ × MaximumFlow),
    MaximumFlow.ekLoop fuel g s t mf = some res →
    RunInv s t g →
    RunInv s t res.2 ∧ (g.FlowLeCap → res.2.FlowLeCap) ∧
      res.2.has_been_run = g.has_been_run := by
  intro fuel
  induction fuel with
  | zero =>
    intro g mf res hres hinv
    exact absurd hres (by simp [MaximumFlow.ekLoop])
  | succ fuel ih =>
    intro g mf res hres hinv
    simp only [MaximumFlow.ekLoop] at hres
    set b := g.BFS s t with hbdef
    have hpost : BFSInv g s b.2 [] := BFS_post g s t hinv.wf
    have hwf2 : b.2.WFgraph := wf_congr hpost.edges hpost.adj hpost.vert hinv.wf
    have hanti2 : b.2.Antisym := antisym_congr hpost.edges hinv.anti
    have hinv2 : RunInv s t b.2 := ⟨hwf2, hanti2, fun v hv1 hv2 => by
      rw [inflow_congr hpost.edges]
      exact hinv.ze v hv1 hv2⟩
    by_cases hbt : b.1 = true
    · rw [if_pos hbt] at hres
      by_cases hts : t = s
      · have hsof : b.2.send_one_flow s t = ((⊤ : WithTop ℤ), b.2) := by
          unfold MaximumFlow.send_one_flow
          rw [if_pos (by rw [hts])]
        rw [hsof] at hres
        dsimp only at hres
        rw [if_neg (by decide : ¬ ((⊤ : WithTop ℤ) = 0))] at hres
        obtain ⟨hre, hC, hflag⟩ := ih b.2 _ res hres hinv2
        refine ⟨hre, ?_, ?_⟩
        · intro hCg
          exact hC (flowLeCap_congr hpost.edges hCg)
        · rw [hflag, hpost.flag]
      · obtain ⟨htV, hdt⟩ := BFS_reached g s t hinv.wf hbt
        have hnz : ¬ ((t : ℤ) = (s : ℤ)) := fun hc => hts (Nat.cast_inj.mp hc)
        obtain ⟨u, idx, hpts, _, hidx, _, _, _, _, _⟩ :=
          hpost.ctx.pv t htV hts hdt
        have hentry := sof_entry_eq b.2 s t hnz u idx hpts
        rw [hentry] at hres
        dsimp only at hres
        set rfin := MaximumFlow.send_one_flow_fin (b.2.vertices + 3) b.2 s (t : ℤ)
          (b.2.capAt idx - b.2.flowAt idx) with hrfin
        have P : SOFPost b.2 rfin.2 s t rfin.1 :=
          sof_fin_post _ b.2 s t _ hwf2 hpost.ctx (Or.inr ⟨htV, hdt⟩)
        have hinv3 : RunInv s t rfin.2 := by
          refine ⟨WFgraph_of_sameShape P.shape hwf2, P.anti hanti2, ?_⟩
          intro v hv1 hv2
          rw [P.exc v, if_neg hv2, if_neg hv1, hinv2.ze v hv1 hv2]
          ring
        have hCnext : b.2.FlowLeCap → rfin.2.FlowLeCap := by
          intro hC
          exact (sof_fin_bounds _ b.2 s t _ hwf2 hpost.ctx (Or.inr ⟨htV, hdt⟩) hC
            (by have := hC idx; omega)).2.2
        by_cases hz : ((rfin.1 : ℤ) : WithTop ℤ) = 0
        · rw [if_pos hz] at hres
          obtain rfl := Option.some.inj hres
          refine ⟨hinv3, ?_, ?_⟩
          · intro hCg
            exact hCnext (flowLeCap_congr hpost.edges hCg)
          · show rfin.2.has_been_run = g.has_been_run
            rw [P.shape.flag, hpost.flag]
        · rw [if_neg hz] at hres
          obtain ⟨hre, hC, hflag⟩ := ih rfin.2 _ res hres hinv3
          refine ⟨hre, ?_, ?_⟩
          · intro hCg
            exact hC (hCnext (flowLeCap_congr hpost.edges hCg))
          · rw [hflag, P.shape.flag, hpost.flag]
    · rw [if_neg hbt] at hres
      obtain rfl := Option.some.inj hres
      refine ⟨hinv2, ?_, ?_⟩
      · intro hCg
        exact flowLeCap_congr hpost.edges hCg
      · exact hpost.flag

/-! ### The blocking-flow search -/

theorem distAt_congr {g g' : MaximumFlow} (h : g'.distances = g.distances)
    (v : ℕ) : g'.distAt v = g.distAt v := by
  unfold MaximumFlow.distAt
  rw [h]

theorem inflow_congr' {g g' : MaximumFlow}
    (hlen : g'.edge_list.length = g.edge_list.length)
    (hh : ∀ i, g'.headAt i = g.headAt i) (hf : ∀ i, g'.flowAt i = g.flowAt i) :
    ∀ v : ℕ, g'.inflow v = g.inflow v := by
  intro v
  unfold MaximumFlow.inflow
  rw [hlen]
  exact Finset.sum_congr rfl (fun i _ => by rw [hh i, hf i])

theorem mem_of_getD {α : Type} (l : List α) (i : ℕ) (d : α) (h : i < l.length) :
    l.getD i d ∈ l := by
  rw [List.getD_eq_getElem?_getD, List.getElem?_eq_getElem h]
  exact List.getElem_mem h

theorem push_code_eq_nat (h : MaximumFlow) (idx : ℕ) (flow₀ p : ℤ)
    (hstale : h.flowAt idx = flow₀) :
    (h.setFlow ((idx : ℕ) : ℤ) (flow₀ + p)).setFlow (((idx ^^^ 1 : ℕ)) : ℤ)
      ((h.setFlow ((idx : ℕ) : ℤ) (flow₀ + p)).flowAtI (((idx ^^^ 1 : ℕ)) : ℤ) - p) =
    h.pushAt idx p := by
  subst hstale
  rw [flowAtI_natCast]
  rfl

theorem DFSPost_refl_zero (g : MaximumFlow) (uv t : ℕ) : DFSPost g g uv t 0 :=
  ⟨SameShape.refl g, rfl, rfl, fun _ _ => rfl, fun _ _ => rfl,
   fun v => by simp, fun h => h⟩

theorem DFSPost_refl_f (g : MaximumFlow) (uv t : ℕ) (f : ℤ)
    (h : uv = t ∨ f = 0) : DFSPost g g uv t f := by
  refine ⟨SameShape.refl g, rfl, rfl, fun _ _ => rfl, fun _ _ => rfl, fun v => ?_,
    fun h => h⟩
  rcases h with h | h
  · rw [h]
    by_cases hv : v = t <;> simp [hv]
  · rw [h]
    simp

theorem DFSPost_of_setLast {g : MaximumFlow} {l' : List ℕ} {g' : MaximumFlow}
    {uv t : ℕ} {p : ℤ} (h : DFSPost { g with last := l' } g' uv t p) :
    DFSPost g g' uv t p :=
  ⟨⟨h.shape.vert, h.shape.adj, h.shape.elen, h.shape.heads, h.shape.caps,
    h.shape.flag⟩, h.distEq, h.ptsEq, h.untouched, h.zeroNoChange, h.exc, h.anti⟩

theorem DFSPost_comp_zero {g g₁ g₂ : MaximumFlow} {a b uv t : ℕ} {p : ℤ}
    (Q : DFSPost g g₁ a b 0) (R : DFSPost g₁ g₂ uv t p) : DFSPost g g₂ uv t p := by
  have hfl : ∀ i, g₁.flowAt i = g.flowAt i := Q.zeroNoChange rfl
  have hinf : ∀ v, g₁.inflow v = g.inflow v :=
    inflow_congr' Q.shape.elen Q.shape.heads hfl
  refine ⟨Q.shape.trans R.shape, R.distEq.trans Q.distEq, R.ptsEq.trans Q.ptsEq,
    ?_, ?_, ?_, ?_⟩
  · intro i hi
    have hi' : min (g₁.distAt (g₁.headAt i)) (g₁.distAt (g₁.headAt (i ^^^ 1)))
        < g₁.distAt uv := by
      rw [Q.shape.heads, Q.shape.heads, distAt_congr Q.distEq, distAt_congr Q.distEq,
        distAt_congr Q.distEq]
      exact hi
    rw [R.untouched i hi', hfl i]
  · intro hp i
    rw [R.zeroNoChange hp i, hfl i]
  · intro v
    rw [R.exc v, hinf v]
  · intro ha
    exact R.anti (Q.anti ha)

theorem DFSPost_comp_push {g g₁ : MaximumFlow} {u v t : ℕ} {p : ℤ} {eidx : ℕ}
    (hwf : g.WFgraph) (heidx : eidx < g.edge_list.length)
    (hhv : g.headAt eidx = v) (hhu : g.headAt (eidx ^^^ 1) = u)
    (hdvu : g.distAt v = g.distAt u + 1)
    (Q : DFSPost g g₁ v t p) :
    DFSPost g (g₁.pushAt eidx p) u t p := by
  have hlen₁ : eidx < g₁.edge_list.length := by rw [Q.shape.elen]; exact heidx
  have heven₁ : g₁.edge_list.length % 2 = 0 := by
    rw [Q.shape.elen]; exact hwf.evenLen
  have hh₁v : g₁.headAt eidx = v := by rw [Q.shape.heads]; exact hhv
  have hh₁u : g₁.headAt (eidx ^^^ 1) = u := by rw [Q.shape.heads]; exact hhu
  refine ⟨Q.shape.trans (pushAt_sameShape g₁ eidx p), Q.distEq, Q.ptsEq,
    ?_, ?_, ?_, ?_⟩
  · intro i hi
    have hne1 : i ≠ eidx := by
      intro hc
      rw [hc, hhv, hhu, hdvu, min_eq_right (by omega)] at hi
      exact lt_irrefl _ hi
    have hne2 : i ≠ eidx ^^^ 1 := by
      intro hc
      rw [hc, hhu, xor_one_xor_one, hhv, hdvu, min_eq_left (by omega)] at hi
      exact lt_irrefl _ hi
    have hi' : min (g.distAt (g.headAt i)) (g.distAt (g.headAt (i ^^^ 1)))
        < g.distAt v := by omega
    rw [pushAt_flowAt g₁ eidx p hlen₁ heven₁, if_neg hne1, if_neg hne2,
      Q.untouched i hi']
  · intro hp i
    rw [pushAt_flowAt g₁ eidx p hlen₁ heven₁, hp]
    by_cases h1 : i = eidx
    · rw [if_pos h1, add_zero, Q.zeroNoChange hp eidx, h1]
    · rw [if_neg h1]
      by_cases h2 : i = eidx ^^^ 1
      · rw [if_pos h2, sub_zero, Q.zeroNoChange hp (eidx ^^^ 1), h2]
      · rw [if_neg h2, Q.zeroNoChange hp i]
  · intro w
    have hflip : ∀ (a : ℕ) (x : ℤ),
        (if a = w then x else 0) = (if w = a then x else 0) := by
      intro a x
      by_cases h : a = w
      · rw [if_pos h, if_pos h.symm]
      · rw [if_neg h, if_neg (fun hc => h hc.symm)]
    rw [pushAt_inflow g₁ eidx p hlen₁ heven₁, hh₁v, hh₁u, Q.exc w,
      hflip v p, hflip u p]
    ring
  · intro ha
    exact pushAt_antisym eidx p hlen₁ heven₁ (Q.anti ha)

theorem dfs_step_some (fuel : ℕ) (g : MaximumFlow) (u t : ℕ) (f : ℤ) (i : ℕ)
    (hi : i < (g.adjacency_list.getD u []).length) :
    MaximumFlow.dfsAux (fuel + 1) g u t f (some i) =
      (let g₁ : MaximumFlow := { g with last := g.last.set u i };
       let eidx := (g.adjacency_list.getD u []).getD i 0;
       if g.distAt (g.headAt eidx) ≠ g.distAt u + 1 then
         MaximumFlow.dfsAux fuel g₁ u t f (some (i + 1))
       else
         let r := MaximumFlow.dfsAux fuel g₁ (g.headAt eidx) t
           (min f (g.capAt eidx - g.flowAt eidx)) none;
         if r.1 ≠ 0 then
           (r.1, (r.2.setFlow ((eidx : ℕ) : ℤ) (g.flowAt eidx + r.1)).setFlow
             (((eidx ^^^ 1 : ℕ)) : ℤ)
             ((r.2.setFlow ((eidx : ℕ) : ℤ) (g.flowAt eidx + r.1)).flowAtI
               (((eidx ^^^ 1 : ℕ)) : ℤ) - r.1))
         else MaximumFlow.dfsAux fuel r.2 u t f (some (i + 1))) := by
  simp only [MaximumFlow.dfsAux]
  rw [if_pos hi]
  rfl

theorem dfs_post : ∀ (fuel : ℕ) (g : MaximumFlow) (u t : ℕ) (f : ℤ)
    (mode : Option ℕ), g.WFgraph →
    DFSPost g (MaximumFlow.dfsAux fuel g u t f mode).2 u t
      (MaximumFlow.dfsAux fuel g u t f mode).1 := by
  intro fuel
  induction fuel with
  | zero =>
    intro g u t f mode hwf
    exact DFSPost_refl_zero g u t
  | succ fuel ih =>
    intro g u t f mode hwf
    rcases mode with _ | i
    · simp only [MaximumFlow.dfsAux]
      by_cases hc : u = t ∨ f = 0
      · rw [if_pos hc]
        exact DFSPost_refl_f g u t f hc
      · rw [if_neg hc]
        exact ih g u t f _ hwf
    · by_cases hi : i < (g.adjacency_list.getD u []).length
      · rw [dfs_step_some fuel g u t f i hi]
        dsimp only
        set g₁ : MaximumFlow := { g with last := g.last.set u i } with hg₁
        set eidx := (g.adjacency_list.getD u []).getD i 0 with heidx
        have hmem : eidx ∈ g.adjacency_list.getD u [] := mem_of_getD _ i 0 hi
        obtain ⟨helen, hh1, hhV⟩ := hwf.adjValid u eidx hmem
        have hwf₁ : g₁.WFgraph :=
          wf_congr (show g₁.edge_list = g.edge_list from rfl)
            (show g₁.adjacency_list = g.adjacency_list from rfl)
            (show g₁.vertices = g.vertices from rfl) hwf
        by_cases hd : g.distAt (g.headAt eidx) ≠ g.distAt u + 1
        · rw [if_pos hd]
          exact DFSPost_of_setLast (ih g₁ u t f (some (i + 1)) hwf₁)
        · rw [if_neg hd]
          push_neg at hd
          set r := MaximumFlow.dfsAux fuel g₁ (g.headAt eidx) t
            (min f (g.capAt eidx - g.flowAt eidx)) none with hr
          have Q : DFSPost g r.2 (g.headAt eidx) t r.1 :=
            DFSPost_of_setLast (ih g₁ (g.headAt eidx) t _ none hwf₁)
          by_cases hz : r.1 ≠ 0
          · rw [if_pos hz]
            dsimp only
            have hstale : r.2.flowAt eidx = g.flowAt eidx := by
              apply Q.untouched eidx
              rw [hh1, hd, min_eq_right (by omega)]
              omega
            rw [push_code_eq_nat r.2 eidx _ r.1 hstale]
            exact DFSPost_comp_push hwf helen rfl hh1 hd Q
          · rw [if_neg hz]
            push_neg at hz
            have Q0 : DFSPost g r.2 (g.headAt eidx) t 0 := hz ▸ Q
            exact DFSPost_comp_zero Q0
              (ih r.2 u t f (some (i + 1)) (WFgraph_of_sameShape Q.shape hwf))
      · have hstep : MaximumFlow.dfsAux (fuel + 1) g u t f (some i) = (0, g) := by
          simp only [MaximumFlow.dfsAux]
          rw [if_neg hi]
        rw [hstep]
        exact DFSPost_refl_zero g u t

theorem dfs_bounds : ∀ (fuel : ℕ) (g : MaximumFlow) (u t : ℕ) (f : ℤ)
    (mode : Option ℕ), g.WFgraph → g.FlowLeCap → 0 ≤ f →
    0 ≤ (MaximumFlow.dfsAux fuel g u t f mode).1 ∧
    (MaximumFlow.dfsAux fuel g u t f mode).1 ≤ f ∧
    (MaximumFlow.dfsAux fuel g u t f mode).2.FlowLeCap := by
  intro fuel
  induction fuel with
  | zero =>
    intro g u t f mode hwf hC hf
    exact ⟨le_refl 0, hf, hC⟩
  | succ fuel ih =>
    intro g u t f mode hwf hC hf
    rcases mode with _ | i
    · simp only [MaximumFlow.dfsAux]
      by_cases hc : u = t ∨ f = 0
      · rw [if_pos hc]
        exact ⟨hf, le_refl f, hC⟩
      · rw [if_neg hc]
        exact ih g u t f _ hwf hC hf
    · by_cases hi : i < (g.adjacency_list.getD u []).length
      · rw [dfs_step_some fuel g u t f i hi]
        dsimp only
        set g₁ : MaximumFlow := { g with last := g.last.set u i } with hg₁
        set eidx := (g.adjacency_list.getD u []).getD i 0 with heidx
        have hmem : eidx ∈ g.adjacency_list.getD u [] := mem_of_getD _ i 0 hi
        obtain ⟨helen, hh1, hhV⟩ := hwf.adjValid u eidx hmem
        have hwf₁ : g₁.WFgraph :=
          wf_congr (show g₁.edge_list = g.edge_list from rfl)
            (show g₁.adjacency_list = g.adjacency_list from rfl)
            (show g₁.vertices = g.vertices from rfl) hwf
        have hC₁ : g₁.FlowLeCap :=
          flowLeCap_congr (show g₁.edge_list = g.edge_list from rfl) hC
        by_cases hd : g.distAt (g.headAt eidx) ≠ g.distAt u + 1
        · rw [if_pos hd]
          exact ih g₁ u t f (some (i + 1)) hwf₁ hC₁ hf
        · rw [if_neg hd]
          push_neg at hd
          set r := MaximumFlow.dfsAux fuel g₁ (g.headAt eidx) t
            (min f (g.capAt eidx - g.flowAt eidx)) none with hr
          have Q : DFSPost g r.2 (g.headAt eidx) t r.1 :=
            DFSPost_of_setLast (dfs_post fuel g₁ (g.headAt eidx) t _ none hwf₁)
          have hf' : 0 ≤ min f (g.capAt eidx - g.flowAt eidx) :=
            le_min hf (by have := hC eidx; omega)
          obtain ⟨hp0, hpf, hC2⟩ := ih g₁ (g.headAt eidx) t _ none hwf₁ hC₁ hf'
          rw [← hr] at hp0 hpf hC2
          have hrmin : r.1 ≤ g.capAt eidx - g.flowAt eidx :=
            le_trans hpf (min_le_right _ _)
          by_cases hz : r.1 ≠ 0
          · rw [if_pos hz]
            dsimp only
            have hstale : r.2.flowAt eidx = g.flowAt eidx := by
              apply Q.untouched eidx
              rw [hh1, hd, min_eq_right (by omega)]
              omega
            rw [push_code_eq_nat r.2 eidx _ r.1 hstale]
            have hlen' : eidx < r.2.edge_list.length := by
              rw [Q.shape.elen]; exact helen
            have heven' : r.2.edge_list.length % 2 = 0 := by
              rw [Q.shape.elen]; exact hwf.evenLen
            refine ⟨hp0, le_trans hpf (min_le_left _ _), ?_⟩
            intro j
            have hcap : (r.2.pushAt eidx r.1).capAt j = g.capAt j :=
              ((pushAt_sameShape r.2 eidx r.1).caps j).trans (Q.shape.caps j)
            rw [pushAt_flowAt r.2 eidx r.1 hlen' heven', hcap]
            by_cases hj : j = eidx
            · rw [if_pos hj, hstale, hj]
              omega
            · rw [if_neg hj]
              by_cases hj1 : j = eidx ^^^ 1
              · rw [if_pos hj1, hj1]
                have h1 := hC2 (eidx ^^^ 1)
                have h2 := Q.shape.caps (eidx ^^^ 1)
                omega
              · rw [if_neg hj1]
                have h1 := hC2 j
                have h2 := Q.shape.caps j
                omega
          · rw [if_neg hz]
            exact ih r.2 u t f (some (i + 1)) (WFgraph_of_sameShape Q.shape hwf) hC2 hf
      · have hstep : MaximumFlow.dfsAux (fuel + 1) g u t f (some i) = (0, g) := by
          simp only [MaximumFlow.dfsAux]
          rw [if_neg hi]
        rw [hstep]
        exact ⟨le_refl 0, hf, hC⟩

theorem dfsGoTop_step (fuel : ℕ) (g : MaximumFlow) (u t : ℕ) (i : ℕ)
    (hi : i < (g.adjacency_list.getD u []).length) :
    MaximumFlow.dfsGoTop (fuel + 1) g u t i =
      (let g₁ : MaximumFlow := { g with last := g.last.set u i };
       let eidx := (g.adjacency_list.getD u []).getD i 0;
       if g.distAt (g.headAt eidx) ≠ g.distAt u + 1 then
         MaximumFlow.dfsGoTop fuel g₁ u t (i + 1)
       else
         let r := MaximumFlow.dfsAux fuel g₁ (g.headAt eidx) t
           (g.capAt eidx - g.flowAt eidx) none;
         if r.1 ≠ 0 then
           (r.1, (r.2.setFlow ((eidx : ℕ) : ℤ) (g.flowAt eidx + r.1)).setFlow
             (((eidx ^^^ 1 : ℕ)) : ℤ)
             ((r.2.setFlow ((eidx : ℕ) : ℤ) (g.flowAt eidx + r.1)).flowAtI
               (((eidx ^^^ 1 : ℕ)) : ℤ) - r.1))
         else MaximumFlow.dfsGoTop fuel r.2 u t (i + 1)) := by
  simp only [MaximumFlow.dfsGoTop]
  rw [if_pos hi]
  rfl

theorem dfsGoTop_post : ∀ (fuel : ℕ) (g : MaximumFlow) (u t : ℕ) (i : ℕ),
    g.WFgraph →
    DFSPost g (MaximumFlow.dfsGoTop fuel g u t i).2 u t
      (MaximumFlow.dfsGoTop fuel g u t i).1 := by
  intro fuel
  induction fuel with
  | zero =>
    intro g u t i hwf
    exact DFSPost_refl_zero g u t
  | succ fuel ih =>
    intro g u t i hwf
    by_cases hi : i < (g.adjacency_list.getD u []).length
    · rw [dfsGoTop_step fuel g u t i hi]
      dsimp only
      set g₁ : MaximumFlow := { g with last := g.last.set u i } with hg₁
      set eidx := (g.adjacency_list.getD u []).getD i 0 with heidx
      have hmem : eidx ∈ g.adjacency_list.getD u [] := mem_of_getD _ i 0 hi
      obtain ⟨helen, hh1, hhV⟩ := hwf.adjValid u eidx hmem
      have hwf₁ : g₁.WFgraph :=
        wf_congr (show g₁.edge_list = g.edge_list from rfl)
          (show g₁.adjacency_list = g.adjacency_list from rfl)
          (show g₁.vertices = g.vertices from rfl) hwf
      by_cases hd : g.distAt (g.headAt eidx) ≠ g.distAt u + 1
      · rw [if_pos hd]
        exact DFSPost_of_setLast (ih g₁ u t (i + 1) hwf₁)
      · rw [if_neg hd]
        push_neg at hd
        set r := MaximumFlow.dfsAux fuel g₁ (g.headAt eidx) t
          (g.capAt eidx - g.flowAt eidx) none with hr
        have Q : DFSPost g r.2 (g.headAt eidx) t r.1 :=
          DFSPost_of_setLast (dfs_post fuel g₁ (g.headAt eidx) t _ none hwf₁)
        by_cases hz : r.1 ≠ 0
        · rw [if_pos hz]
          dsimp only
          have hstale : r.2.flowAt eidx = g.flowAt eidx := by
            apply Q.untouched eidx
            rw [hh1, hd, min_eq_right (by omega)]
            omega
          rw [push_code_eq_nat r.2 eidx _ r.1 hstale]
          exact DFSPost_comp_push hwf helen rfl hh1 hd Q
        · rw [if_neg hz]
          push_neg at hz
          have Q0 : DFSPost g r.2 (g.headAt eidx) t 0 := hz ▸ Q
          exact DFSPost_comp_zero Q0
            (ih r.2 u t (i + 1) (WFgraph_of_sameShape Q.shape hwf))
    · have hstep : MaximumFlow.dfsGoTop (fuel + 1) g u t i = (0, g) := by
        simp only [MaximumFlow.dfsGoTop]
        rw [if_neg hi]
      rw [hstep]
      exact DFSPost_refl_zero g u t

theorem dfsGoTop_bounds : ∀ (fuel : ℕ) (g : MaximumFlow) (u t : ℕ) (i : ℕ),
    g.WFgraph → g.FlowLeCap →
    0 ≤ (MaximumFlow.dfsGoTop fuel g u t i).1 ∧
    (MaximumFlow.dfsGoTop fuel g u t i).2.FlowLeCap := by
  intro fuel
  induction fuel with
  | zero =>
    intro g u t i hwf hC
    exact ⟨le_refl 0, hC⟩
  | succ fuel ih =>
    intro g u t i hwf hC
    by_cases hi : i < (g.adjacency_list.getD u []).length
    · rw [dfsGoTop_step fuel g u t i hi]
      dsimp only
      set g₁ : MaximumFlow := { g with last := g.last.set u i } with hg₁
      set eidx := (g.adjacency_list.getD u []).getD i 0 with heidx
      have hmem : eidx ∈ g.adjacency_list.getD u [] := mem_of_getD _ i 0 hi
      obtain ⟨helen, hh1, hhV⟩ := hwf.adjValid u eidx hmem
      have hwf₁ : g₁.WFgraph :=
        wf_congr (show g₁.edge_list = g.edge_list from rfl)
          (show g₁.adjacency_list = g.adjacency_list from rfl)
          (show g₁.vertices = g.vertices from rfl) hwf
      have hC₁ : g₁.FlowLeCap :=
        flowLeCap_congr (show g₁.edge_list = g.edge_list from rfl) hC
      by_cases hd : g.distAt (g.headAt eidx) ≠ g.distAt u + 1
      · rw [if_pos hd]
        exact ih g₁ u t (i + 1) hwf₁ hC₁
      · rw [if_neg hd]
        push_neg at hd
        set r := MaximumFlow.dfsAux fuel g₁ (g.headAt eidx) t
          (g.capAt eidx - g.flowAt eidx) none with hr
        have Q : DFSPost g r.2 (g.headAt eidx) t r.1 :=
          DFSPost_of_setLast (dfs_post fuel g₁ (g.headAt eidx) t _ none hwf₁)
        have hf' : 0 ≤ g.capAt eidx - g.flowAt eidx := by
          have := hC eidx
          omega
        obtain ⟨hp0, hpf, hC2⟩ := dfs_bounds fuel g₁ (g.headAt eidx) t _ none hwf₁ hC₁ hf'
        rw [← hr] at hp0 hpf hC2
        by_cases hz : r.1 ≠ 0
        · rw [if_pos hz]
          dsimp only
          have hstale : r.2.flowAt eidx = g.flowAt eidx := by
            apply Q.untouched eidx
            rw [hh1, hd, min_eq_right (by omega)]
            omega
          rw [push_code_eq_nat r.2 eidx _ r.1 hstale]
          have hlen' : eidx < r.2.edge_list.length := by
            rw [Q.shape.elen]; exact helen
          have heven' : r.2.edge_list.length % 2 = 0 := by
            rw [Q.shape.elen]; exact hwf.evenLen
          refine ⟨hp0, ?_⟩
          intro j
          have hcap : (r.2.pushAt eidx r.1).capAt j = g.capAt j :=
            ((pushAt_sameShape r.2 eidx r.1).caps j).trans (Q.shape.caps j)
          rw [pushAt_flowAt r.2 eidx r.1 hlen' heven', hcap]
          by_cases hj : j = eidx
          · rw [if_pos hj, hstale, hj]
            omega
          · rw [if_neg hj]
            by_cases hj1 : j = eidx ^^^ 1
            · rw [if_pos hj1, hj1]
              have h1 := hC2 (eidx ^^^ 1)
              have h2 := Q.shape.caps (eidx ^^^ 1)
              omega
            · rw [if_neg hj1]
              have h1 := hC2 j
              have h2 := Q.shape.caps j
              omega
        · rw [if_neg hz]
          exact ih r.2 u t (i + 1) (WFgraph_of_sameShape Q.shape hwf) hC2
    · have hstep : MaximumFlow.dfsGoTop (fuel + 1) g u t i = (0, g) := by
        simp only [MaximumFlow.dfsGoTop]
        rw [if_neg hi]
      rw [hstep]
      exact ⟨le_refl 0, hC⟩

theorem DFS_entry_cases (g : MaximumFlow) (s t : ℕ) (hwf : g.WFgraph) :
    (s = t ∧ g.DFS s t = ((⊤ : WithTop ℤ), g)) ∨
    (s ≠ t ∧ ∃ p : ℤ, (g.DFS s t).1 = (p : WithTop ℤ) ∧
      DFSPost g (g.DFS s t).2 s t p ∧
      (g.FlowLeCap → 0 ≤ p ∧ (g.DFS s t).2.FlowLeCap)) := by
  by_cases hst : s = t
  · left
    refine ⟨hst, ?_⟩
    unfold MaximumFlow.DFS
    rw [if_pos hst]
  · right
    refine ⟨hst, ?_⟩
    unfold MaximumFlow.DFS
    rw [if_neg hst]
    dsimp only
    refine ⟨(MaximumFlow.dfsGoTop g.dfsFuel g s t (g.last.getD s 0)).1, rfl, ?_, ?_⟩
    · exact dfsGoTop_post _ g s t _ hwf
    · intro hC
      exact dfsGoTop_bounds _ g s t _ hwf hC

theorem runInv_of_dfspost {s t : ℕ} {g g' : MaximumFlow} {p : ℤ}
    (P : DFSPost g g' s t p) (hinv : RunInv s t g) : RunInv s t g' := by
  refine ⟨WFgraph_of_sameShape P.shape hinv.wf, P.anti hinv.anti, ?_⟩
  intro v h1 h2
  rw [P.exc v, if_neg h2, if_neg h1, hinv.ze v h1 h2]
  ring

theorem dinicInner_inv (s t : ℕ) : ∀ (fuel : ℕ) (g : MaximumFlow)
    (mf f : WithTop ℤ) (res : WithTop ℤ × MaximumFlow),
    MaximumFlow.dinicInner fuel g s t mf f = some res →
    RunInv s t g →
    RunInv s t res.2 ∧ (g.FlowLeCap → res.2.FlowLeCap) ∧
      res.2.has_been_run = g.has_been_run := by
  intro fuel
  induction fuel with
  | zero =>
    intro g mf f res hres hinv
    exact absurd hres (by simp [MaximumFlow.dinicInner])
  | succ fuel ih =>
    intro g mf f res hres hinv
    simp only [MaximumFlow.dinicInner] at hres
    by_cases hf : f = 0
    · rw [if_pos hf] at hres
      obtain rfl := Option.some.inj hres
      exact ⟨hinv, fun h => h, rfl⟩
    · rw [if_neg hf] at hres
      rcases DFS_entry_cases g s t hinv.wf with ⟨hst, heq⟩ | ⟨hst, p, hp1, hP, hB⟩
      · rw [heq] at hres
        dsimp only at hres
        exact ih g _ _ res hres hinv
      · obtain ⟨hre, hC, hflag⟩ :=
          ih (g.DFS s t).2 _ _ res hres (runInv_of_dfspost hP hinv)
        refine ⟨hre, ?_, ?_⟩
        · intro hCg
          exact hC (hB hCg).2
        · rw [hflag, hP.shape.flag]

theorem dinicLoop_inv (s t : ℕ) : ∀ (fuel : ℕ) (g : MaximumFlow)
    (mf : WithTop ℤ) (res : WithTop ℤ × MaximumFlow),
    MaximumFlow.dinicLoop fuel g s t mf = some res →
    RunInv s t g →
    RunInv s t res.2 ∧ (g.FlowLeCap → res.2.FlowLeCap) ∧
      res.2.has_been_run = g.has_been_run := by
  intro fuel
  induction fuel with
  | zero =>
    intro g mf res hres hinv
    exact absurd hres (by simp [MaximumFlow.dinicLoop])
  | succ fuel ih =>
    intro g mf res hres hinv
    simp only [MaximumFlow.dinicLoop] at hres
    set b := g.BFS s t with hbdef
    have hpost : BFSInv g s b.2 [] := BFS_post g s t hinv.wf
    have hwf2 : b.2.WFgraph := wf_congr hpost.edges hpost.adj hpost.vert hinv.wf
    have hinv2 : RunInv s t b.2 := ⟨hwf2, antisym_congr hpost.edges hinv.anti,
      fun v hv1 hv2 => by
        rw [inflow_congr hpost.edges]
        exact hinv.ze v hv1 hv2⟩
    by_cases hbt : b.1 = true
    · rw [if_pos hbt] at hres
      set g₁ : MaximumFlow := { b.2 with last := List.replicate b.2.vertices 0 }
        with hg₁
      have hwf3 : g₁.WFgraph :=
        wf_congr (show g₁.edge_list = b.2.edge_list from rfl)
          (show g₁.adjacency_list = b.2.adjacency_list from rfl)
          (show g₁.vertices = b.2.vertices from rfl) hwf2
      have hinv3 : RunInv s t g₁ := ⟨hwf3,
        antisym_congr (show g₁.edge_list = b.2.edge_list from rfl) hinv2.anti,
        fun v hv1 hv2 => by
          rw [inflow_congr (show g₁.edge_list = b.2.edge_list from rfl)]
          exact hinv2.ze v hv1 hv2⟩
      rcases DFS_entry_cases g₁ s t hwf3 with ⟨hst, heq⟩ | ⟨hst, p, hp1, hP, hB⟩
      · rw [heq] at hres
        dsimp only at hres
        rcases hdi : MaximumFlow.dinicInner fuel g₁ s t mf ⊤ with _ | q
        · rw [hdi] at hres
          exact absurd hres (by simp)
        · rw [hdi] at hres
          obtain ⟨hre1, hC1, hflag1⟩ := dinicInner_inv s t fuel g₁ mf ⊤ q hdi hinv3
          obtain ⟨hre2, hC2, hflag2⟩ := ih q.2 q.1 res hres hre1
          refine ⟨hre2, ?_, ?_⟩
          · intro hCg
            exact hC2 (hC1 (flowLeCap_congr
              (show g₁.edge_list = b.2.edge_list from rfl)
              (flowLeCap_congr hpost.edges hCg)))
          · rw [hflag2, hflag1]
            show b.2.has_been_run = g.has_been_run
            exact hpost.flag
      · rcases hdi : MaximumFlow.dinicInner fuel (g₁.DFS s t).2 s t mf
            (g₁.DFS s t).1 with _ | q
        · rw [hdi] at hres
          exact absurd hres (by simp)
        · rw [hdi] at hres
          have hinv4 : RunInv s t (g₁.DFS s t).2 := runInv_of_dfspost hP hinv3
          obtain ⟨hre1, hC1, hflag1⟩ :=
            dinicInner_inv s t fuel (g₁.DFS s t).2 mf (g₁.DFS s t).1 q hdi hinv4
          obtain ⟨hre2, hC2, hflag2⟩ := ih q.2 q.1 res hres hre1
          refine ⟨hre2, ?_, ?_⟩
          · intro hCg
            exact hC2 (hC1 ((hB (flowLeCap_congr
              (show g₁.edge_list = b.2.edge_list from rfl)
              (flowLeCap_congr hpost.edges hCg))).2))
          · rw [hflag2, hflag1, hP.shape.flag]
            show b.2.has_been_run = g.has_been_run
            exact hpost.flag
    · rw [if_neg hbt] at hres
      obtain rfl := Option.some.inj hres
      refine ⟨hinv2, ?_, hpost.flag⟩
      intro hCg
      exact flowLeCap_congr hpost.edges hCg

/-! ### Unconditional bookkeeping: runs never touch the lifecycle flag,
and `BFS` never touches the edge store. -/

theorem bfsVisit_fields (g : MaximumFlow) (u : ℕ) (q : List ℕ) :
    (g.bfsVisit u q).1.edge_list = g.edge_list ∧
    (g.bfsVisit u q).1.has_been_run = g.has_been_run := by
  unfold MaximumFlow.bfsVisit
  refine @List.foldlRecOn _ _
    (fun p => p.1.edge_list = g.edge_list ∧ p.1.has_been_run = g.has_been_run)
    (g.adjacency_list.getD u []) _ (g, q) ⟨rfl, rfl⟩ ?_
  rintro ⟨h, q'⟩ ⟨h1, h2⟩ idx _
  dsimp only
  dsimp only at h1 h2
  split
  · exact ⟨h1, h2⟩
  · exact ⟨h1, h2⟩

theorem bfsLoop_fields : ∀ (fuel : ℕ) (g : MaximumFlow) (t : ℕ) (q : List ℕ),
    (MaximumFlow.bfsLoop fuel g t q).edge_list = g.edge_list ∧
    (MaximumFlow.bfsLoop fuel g t q).has_been_run = g.has_been_run := by
  intro fuel
  induction fuel with
  | zero => intro g t q; exact ⟨rfl, rfl⟩
  | succ fuel ih =>
    intro g t q
    rcases q with _ | ⟨u, q'⟩
    · exact ⟨rfl, rfl⟩
    · simp only [MaximumFlow.bfsLoop]
      split
      · exact ⟨rfl, rfl⟩
      · obtain ⟨h1, h2⟩ := ih (g.bfsVisit u q').1 t (g.bfsVisit u q').2
        obtain ⟨h3, h4⟩ := bfsVisit_fields g u q'
        exact ⟨h1.trans h3, h2.trans h4⟩

theorem BFS_fields (g : MaximumFlow) (s t : ℕ) :
    (g.BFS s t).2.edge_list = g.edge_list ∧
    (g.BFS s t).2.has_been_run = g.has_been_run := by
  unfold MaximumFlow.BFS
  dsimp only
  exact bfsLoop_fields _ _ t [s]

theorem sof_fin_flag : ∀ (fuel : ℕ) (g : MaximumFlow) (s : ℕ) (t : ℤ) (f : ℤ),
    (MaximumFlow.send_one_flow_fin fuel g s t f).2.has_been_run = g.has_been_run := by
  intro fuel
  induction fuel with
  | zero => intro g s t f; rfl
  | succ fuel ih =>
    intro g s t f
    simp only [MaximumFlow.send_one_flow_fin]
    split
    · rfl
    · exact ih g s _ _

theorem sof_entry_flag (g : MaximumFlow) (s t : ℕ) :
    (g.send_one_flow s t).2.has_been_run = g.has_been_run := by
  unfold MaximumFlow.send_one_flow
  split
  · rfl
  · exact sof_fin_flag _ g s _ _

theorem dfsAux_flag : ∀ (fuel : ℕ) (g : MaximumFlow) (u t : ℕ) (f : ℤ)
    (mode : Option ℕ),
    (MaximumFlow.dfsAux fuel g u t f mode).2.has_been_run = g.has_been_run := by
  intro fuel
  induction fuel with
  | zero => intro g u t f mode; rfl
  | succ fuel ih =>
    intro g u t f mode
    rcases mode with _ | i
    · simp only [MaximumFlow.dfsAux]
      split
      · rfl
      · exact ih g u t f _
    · simp only [MaximumFlow.dfsAux]
      split
      · split
        · exact ih _ u t f _
        · split
          · exact ih _ _ t _ none
          · exact (ih _ u t f (some (i + 1))).trans (ih _ _ t _ none)
      · rfl

theorem dfsGoTop_flag : ∀ (fuel : ℕ) (g : MaximumFlow) (u t i : ℕ),
    (MaximumFlow.dfsGoTop fuel g u t i).2.has_been_run = g.has_been_run := by
  intro fuel
  induction fuel with
  | zero => intro g u t i; rfl
  | succ fuel ih =>
    intro g u t i
    simp only [MaximumFlow.dfsGoTop]
    split
    · split
      · exact ih _ u t _
      · split
        · exact dfsAux_flag fuel _ _ t _ none
        · exact (ih _ u t (i + 1)).trans (dfsAux_flag fuel _ _ t _ none)
    · rfl

theorem DFS_flag (g : MaximumFlow) (s t : ℕ) :
    (g.DFS s t).2.has_been_run = g.has_been_run := by
  unfold MaximumFlow.DFS
  split
  · rfl
  · exact dfsGoTop_flag _ g s t _

theorem ekLoop_flag : ∀ (fuel : ℕ) (g : MaximumFlow) (s t : ℕ) (mf : WithTop ℤ)
    (res : WithTop ℤ × MaximumFlow),
    MaximumFlow.ekLoop fuel g s t mf = some res →
    res.2.has_been_run = g.has_been_run := by
  intro fuel
  induction fuel with
  | zero =>
    intro g s t mf res hres
    exact absurd hres (by simp [MaximumFlow.ekLoop])
  | succ fuel ih =>
    intro g s t mf res hres
    simp only [MaximumFlow.ekLoop] at hres
    split at hres
    · split at hres
      · obtain rfl := Option.some.inj hres
        show ((g.BFS s t).2.send_one_flow s t).2.has_been_run = g.has_been_run
        rw [sof_entry_flag, (BFS_fields g s t).2]
      · rw [ih _ s t _ res hres, sof_entry_flag, (BFS_fields g s t).2]
    · obtain rfl := Option.some.inj hres
      exact (BFS_fields g s t).2

theorem dinicInner_flag : ∀ (fuel : ℕ) (g : MaximumFlow) (s t : ℕ)
    (mf f : WithTop ℤ) (res : WithTop ℤ × MaximumFlow),
    MaximumFlow.dinicInner fuel g s t mf f = some res →
    res.2.has_been_run = g.has_been_run := by
  intro fuel
  induction fuel with
  | zero =>
    intro g s t mf f res hres
    exact absurd hres (by simp [MaximumFlow.dinicInner])
  | succ fuel ih =>
    intro g s t mf f res hres
    simp only [MaximumFlow.dinicInner] at hres
    split at hres
    · obtain rfl := Option.some.inj hres
      rfl
    · rw [ih _ s t _ _ res hres, DFS_flag]

theorem dinicLoop_flag : ∀ (fuel : ℕ) (g : MaximumFlow) (s t : ℕ)
    (mf : WithTop ℤ) (res : WithTop ℤ × MaximumFlow),
    MaximumFlow.dinicLoop fuel g s t mf = some res →
    res.2.has_been_run = g.has_been_run := by
  intro fuel
  induction fuel with
  | zero =>
    intro g s t mf res hres
    exact absurd hres (by simp [MaximumFlow.dinicLoop])
  | succ fuel ih =>
    intro g s t mf res hres
    simp only [MaximumFlow.dinicLoop] at hres
    split at hres
    · rcases hdi : MaximumFlow.dinicInner fuel
          ({ (g.BFS s t).2 with last := List.replicate (g.BFS s t).2.vertices 0 }.DFS s t).2
          s t mf
          ({ (g.BFS s t).2 with last := List.replicate (g.BFS s t).2.vertices 0 }.DFS s t).1
        with _ | q
      · rw [hdi] at hres
        exact absurd hres (by simp)
      · rw [hdi] at hres
        have h1 := dinicInner_flag fuel _ s t _ _ q hdi
        have h2 := ih q.2 s t q.1 res hres
        rw [h2, h1, DFS_flag]
        exact (BFS_fields g s t).2
    · obtain rfl := Option.some.inj hres
      exact (BFS_fields g s t).2

/-! ### Top-level runs from built stores -/

theorem Built_runInv {g : MaximumFlow} (hb : Built g) (s t : ℕ) :
    RunInv s t { g with has_been_run := true } := by
  have he : ({ g with has_been_run := true } : MaximumFlow).edge_list = g.edge_list := rfl
  refine ⟨wf_congr he rfl rfl (Built_wf hb), antisym_congr he (Built_antisym hb), ?_⟩
  intro v _ _
  rw [inflow_congr he, Built_inflow hb]

theorem Built_flowLeCap {g : MaximumFlow} (hb : Built g)
    (hc : ∀ i : ℕ, 0 ≤ g.capAt i) : g.FlowLeCap := by
  intro i
  rw [Built_flows hb i]
  exact hc i

theorem edmonds_karp_ok {g : MaximumFlow} {s t fuel : ℕ} {mf : WithTop ℤ}
    {g' : MaximumFlow} (hb : Built g)
    (hok : g.edmonds_karp s t fuel = some (Except.ok mf, g')) :
    MaximumFlow.ekLoop fuel { g with has_been_run := true } s t 0 = some (mf, g') := by
  unfold MaximumFlow.edmonds_karp at hok
  rw [(Built_fields hb).2.2.2] at hok
  rw [if_neg (by decide : ¬ (false = true))] at hok
  rcases hres : MaximumFlow.ekLoop fuel { g with has_been_run := true } s t 0
    with _ | p
  · rw [hres] at hok
    exact Option.noConfusion hok
  · rw [hres] at hok
    obtain h := Option.some.inj hok
    have h1 : Except.ok p.1 = Except.ok mf := congrArg Prod.fst h
    have h2 : p.2 = g' := congrArg Prod.snd h
    rw [show p = (p.1, p.2) from rfl, Except.ok.inj h1, h2]

theorem dinic_ok {g : MaximumFlow} {s t fuel : ℕ} {mf : WithTop ℤ}
    {g' : MaximumFlow} (hb : Built g)
    (hok : g.dinic s t fuel = some (Except.ok mf, g')) :
    MaximumFlow.dinicLoop fuel { g with has_been_run := true } s t 0 = some (mf, g') := by
  unfold MaximumFlow.dinic at hok
  rw [(Built_fields hb).2.2.2] at hok
  rw [if_neg (by decide : ¬ (false = true))] at hok
  rcases hres : MaximumFlow.dinicLoop fuel { g with has_been_run := true } s t 0
    with _ | p
  · rw [hres] at hok
    exact Option.noConfusion hok
  · rw [hres] at hok
    obtain h := Option.some.inj hok
    have h1 : Except.ok p.1 = Except.ok mf := congrArg Prod.fst h
    have h2 : p.2 = g' := congrArg Prod.snd h
    rw [show p = (p.1, p.2) from rfl, Except.ok.inj h1, h2]

/-- Any successful run from a built store ends in a state satisfying the run
invariant; capacity respect also holds when the capacities are non-negative. -/
theorem run_final_inv {g : MaximumFlow} {s t fuel : ℕ} {mf : WithTop ℤ}
    {g' : MaximumFlow} (hb : Built g)
    (hok : g.edmonds_karp s t fuel = some (Except.ok mf, g') ∨
      g.dinic s t fuel = some (Except.ok mf, g')) :
    RunInv s t g' ∧ ((∀ i : ℕ, 0 ≤ g.capAt i) → g'.FlowLeCap) ∧
      g'.has_been_run = true := by
  have hC0 : (∀ i : ℕ, 0 ≤ g.capAt i) →
      ({ g with has_been_run := true } : MaximumFlow).FlowLeCap := by
    intro hc
    exact flowLeCap_congr
      (show ({ g with has_been_run := true } : MaximumFlow).edge_list = g.edge_list
        from rfl) (Built_flowLeCap hb hc)
  rcases hok with hok | hok
  · obtain ⟨h1, h2, h3⟩ := ekLoop_inv s t fuel _ 0 (mf, g')
      (edmonds_karp_ok hb hok) (Built_runInv hb s t)
    exact ⟨h1, fun hc => h2 (hC0 hc), h3⟩
  · obtain ⟨h1, h2, h3⟩ := dinicLoop_inv s t fuel _ 0 (mf, g')
      (dinic_ok hb hok) (Built_runInv hb s t)
    exact ⟨h1, fun hc => h2 (hC0 hc), h3⟩

theorem add_edge_flows_zero {g : MaximumFlow} (hz : ∀ i : ℕ, g.flowAt i = 0)
    (u v : ℕ) (c : ℤ) (d : Bool) : ∀ i : ℕ, (g.add_edge u v c d).flowAt i = 0 := by
  intro i
  by_cases h : u = v
  · show ((g.add_edge u v c d).edgeAt i).2.2 = 0
    unfold MaximumFlow.add_edge
    rw [if_pos h]
    exact hz i
  · obtain ⟨hOld, hNew1, hNew2⟩ := edgeAt_add_edge g u v c d h
    have hlen := length_add_edge g u v c d h
    show ((g.add_edge u v c d).edgeAt i).2.2 = 0
    rcases Nat.lt_trichotomy i g.edge_list.length with hc | hc | hc
    · rw [hOld i hc]
      exact hz i
    · rw [hc, hNew1]
    · by_cases hc2 : i = g.edge_list.length + 1
      · rw [hc2, hNew2]
      · have hoor : (g.add_edge u v c d).edge_list.length ≤ i := by omega
        unfold MaximumFlow.edgeAt
        rw [List.getD_eq_getElem?_getD, List.getElem?_eq_none hoor, Option.getD_none]

theorem antisym_of_flows_zero {g : MaximumFlow} (hz : ∀ i : ℕ, g.flowAt i = 0) :
    g.Antisym := by
  intro i
  rw [hz, hz, neg_zero]

theorem capAt_oor (g : MaximumFlow) (i : ℕ) (h : g.edge_list.length ≤ i) :
    g.capAt i = 0 := by
  unfold MaximumFlow.capAt MaximumFlow.edgeAt
  rw [List.getD_eq_getElem?_getD, List.getElem?_eq_none h, Option.getD_none]

theorem capsNonneg_of_bounded (g : MaximumFlow)
    (h : ∀ i, i < g.edge_list.length → 0 ≤ g.capAt i) : ∀ i : ℕ, 0 ≤ g.capAt i := by
  intro i
  by_cases hi : i < g.edge_list.length
  · exact h i hi
  · rw [capAt_oor g i (by omega)]

theorem g3_built : Built g3 :=
  Built.add 1 2 3 true
    (Built.add 0 2 3 true
      (Built.add 0 1 3 true (Built.base 3) (by decide) (by decide))
      (by decide) (by decide))
    (by decide) (by decide)

theorem g1_built : Built g1 :=
  Built.add 0 1 5 true (Built.base 2) (by decide) (by decide)

theorem ek_ok_flag {g : MaximumFlow} {s t fuel : ℕ} {mf : WithTop ℤ}
    {g' : MaximumFlow}
    (hok : g.edmonds_karp s t fuel = some (Except.ok mf, g')) :
    g'.has_been_run = true := by
  unfold MaximumFlow.edmonds_karp at hok
  by_cases hf : g.has_been_run = true
  · rw [if_pos hf] at hok
    obtain h := Option.some.inj hok
    exact absurd (congrArg Prod.fst h) (by simp)
  · rw [if_neg hf] at hok
    rcases hres : MaximumFlow.ekLoop fuel { g with has_been_run := true } s t 0
      with _ | p
    · rw [hres] at hok
      exact Option.noConfusion hok
    · rw [hres] at hok
      obtain h := Option.some.inj hok
      have h2 : p.2 = g' := congrArg Prod.snd h
      rw [← h2]
      exact ekLoop_flag fuel _ s t 0 p hres

theorem dinic_ok_flag {g : MaximumFlow} {s t fuel : ℕ} {mf : WithTop ℤ}
    {g' : MaximumFlow}
    (hok : g.dinic s t fuel = some (Except.ok mf, g')) :
    g'.has_been_run = true := by
  unfold MaximumFlow.dinic at hok
  by_cases hf : g.has_been_run = true
  · rw [if_pos hf] at hok
    obtain h := Option.some.inj hok
    exact absurd (congrArg Prod.fst h) (by simp)
  · rw [if_neg hf] at hok
    rcases hres : MaximumFlow.dinicLoop fuel { g with has_been_run := true } s t 0
      with _ | p
    · rw [hres] at hok
      exact Option.noConfusion hok
    · rw [hres] at hok
      obtain h := Option.some.inj hok
      have h2 : p.2 = g' := congrArg Prod.snd h
      rw [← h2]
      exact dinicLoop_flag fuel _ s t 0 p hres

theorem run_on_done {g : MaximumFlow} (hf : g.has_been_run = true)
    (s t fuel : ℕ) :
    g.edmonds_karp s t fuel = some (Except.error rerunMsg, g) ∧
    g.dinic s t fuel = some (Except.error rerunMsg, g) := by
  constructor
  · unfold MaximumFlow.edmonds_karp
    rw [if_pos hf]
  · unfold MaximumFlow.dinic
    rw [if_pos hf]

theorem run_no_error {g : MaximumFlow} (hf : g.has_been_run = false)
    (s t fuel : ℕ) (m : String) (st : MaximumFlow) :
    g.edmonds_karp s t fuel ≠ some (Except.error m, st) ∧
    g.dinic s t fuel ≠ some (Except.error m, st) := by
  constructor
  · unfold MaximumFlow.edmonds_karp
    rw [hf, if_neg (by decide : ¬ (false = true))]
    rcases hres : MaximumFlow.ekLoop fuel { g with has_been_run := true } s t 0
      with _ | p
    · intro hc
      exact Option.noConfusion hc
    · intro hc
      obtain h := Option.some.inj hc
      exact absurd (congrArg Prod.fst h) (by simp)
  · unfold MaximumFlow.dinic
    rw [hf, if_neg (by decide : ¬ (false = true))]
    rcases hres : MaximumFlow.dinicLoop fuel { g with has_been_run := true } s t 0
      with _ | p
    · intro hc
      exact Option.noConfusion hc
    · intro hc
      obtain h := Option.some.inj hc
      exact absurd (congrArg Prod.fst h) (by simp)

/-! ### Toward the equal-value property: the final `BFS` closes the reached
region, so both algorithms stop at a saturated cut -/

theorem bfsVisit_eq_foldl (g : MaximumFlow) (u : ℕ) (q : List ℕ) :
    g.bfsVisit u q =
      (g.adjacency_list.getD u []).foldl (MaximumFlow.bfsStep u) (g, q) := rfl

theorem relaxed_mono {g g' : MaximumFlow} (he : g'.edge_list = g.edge_list)
    (hadj : g'.adjacency_list = g.adjacency_list)
    (hmono : ∀ v : ℕ, 0 ≤ g.distAt v → 0 ≤ g'.distAt v)
    {u : ℕ} (hr : g.Relaxed u) : g'.Relaxed u := by
  intro idx hmem hres
  rw [hadj] at hmem
  rw [flowAt_congr he, capAt_congr he] at hres
  rw [headAt_congr he]
  exact hmono _ (hr idx hmem hres)

theorem fullAdj_congr {g g' : MaximumFlow} (he : g'.edge_list = g.edge_list)
    (hadj : g'.adjacency_list = g.adjacency_list) (hfa : g.FullAdj) :
    g'.FullAdj := by
  intro i hi
  rw [he] at hi
  rw [hadj, headAt_congr he]
  exact hfa i hi

theorem fullAdj_of_sameShape {g g' : MaximumFlow} (hs : SameShape g g')
    (hfa : g.FullAdj) : g'.FullAdj := by
  intro i hi
  rw [hs.elen] at hi
  rw [hs.adj, hs.heads]
  exact hfa i hi

theorem FullAdj_add_edge {g : MaximumFlow} (hwf : g.WFgraph) (hfa : g.FullAdj)
    (u v : ℕ) (c : ℤ) (d : Bool) (hu : u < g.vertices) (hv : v < g.vertices) :
    (g.add_edge u v c d).FullAdj := by
  by_cases h : u = v
  · unfold MaximumFlow.add_edge
    rw [if_pos h]
    exact hfa
  · obtain ⟨hOld, hNew1, hNew2⟩ := edgeAt_add_edge g u v c d h
    have hlen := length_add_edge g u v c d h
    have hadjw := adjacency_getD_add_edge g u v c d h hwf hu hv
    have hHeadOld : ∀ i, i < g.edge_list.length →
        (g.add_edge u v c d).headAt i = g.headAt i := by
      intro i hi
      unfold MaximumFlow.headAt
      rw [hOld i hi]
    have hkx : g.edge_list.length ^^^ 1 = g.edge_list.length + 1 := by
      rcases xor_one_cases g.edge_list.length with ⟨_, hx⟩ | ⟨hp, _⟩
      · exact hx
      · have := hwf.evenLen
        omega
    have hkx1 : (g.edge_list.length + 1) ^^^ 1 = g.edge_list.length := by
      rw [← hkx, xor_one_xor_one]
    intro i hi
    rw [hlen] at hi
    rcases Nat.lt_trichotomy i g.edge_list.length with hc | hc | hc
    · have hix : i ^^^ 1 < g.edge_list.length := xor_one_lt hwf.evenLen hc
      rw [hHeadOld _ hix, hadjw _]
      have hmem := hfa i hc
      by_cases hw1 : g.headAt (i ^^^ 1) = v
      · rw [if_pos hw1, ← hw1]
        exact List.mem_append_left _ hmem
      · rw [if_neg hw1]
        by_cases hw2 : g.headAt (i ^^^ 1) = u
        · rw [if_pos hw2, ← hw2]
          exact List.mem_append_left _ hmem
        · rw [if_neg hw2]
          exact hmem
    · rw [hc]
      have hrev : (g.add_edge u v c d).headAt (g.edge_list.length ^^^ 1) = u := by
        rw [hkx]
        show ((g.add_edge u v c d).edgeAt (g.edge_list.length + 1)).1 = u
        rw [hNew2]
      rw [hrev, hadjw u, if_neg h, if_pos rfl]
      exact List.mem_append_right _ (List.mem_singleton.mpr rfl)
    · have hc2 : i = g.edge_list.length + 1 := by omega
      rw [hc2]
      have hrev : (g.add_edge u v c d).headAt ((g.edge_list.length + 1) ^^^ 1) = v := by
        rw [hkx1]
        show ((g.add_edge u v c d).edgeAt g.edge_list.length).1 = v
        rw [hNew1]
      rw [hrev, hadjw v, if_pos rfl]
      exact List.mem_append_right _ (List.mem_singleton.mpr rfl)

theorem Built_fullAdj {g : MaximumFlow} (hb : Built g) : g.FullAdj := by
  induction hb with
  | base V =>
    intro i hi
    exact absurd hi (by simp [MaximumFlow.init])
  | add u v c d hb hu hv ih =>
    exact FullAdj_add_edge (Built_wf hb) ih u v c d hu hv

theorem cutEdges_congr {g g' : MaximumFlow}
    (hlen : g'.edge_list.length = g.edge_list.length)
    (hh : ∀ i, g'.headAt i = g.headAt i) (S : ℕ → Bool) :
    cutEdges g' S = cutEdges g S := by
  unfold cutEdges
  rw [hlen]
  exact Finset.filter_congr (fun i _ => by rw [hh i, hh (i ^^^ 1)])

theorem cutCap_congr {g g' : MaximumFlow}
    (hlen : g'.edge_list.length = g.edge_list.length)
    (hh : ∀ i, g'.headAt i = g.headAt i) (hc : ∀ i, g'.capAt i = g.capAt i)
    (S : ℕ → Bool) : cutCap g' S = cutCap g S := by
  unfold cutCap
  rw [cutEdges_congr hlen hh S]
  exact Finset.sum_congr rfl (fun i _ => hc i)

/-- Walking the parent chain from any reached vertex inhabits every
distance level below it. -/
theorem level_inhabited (g : MaximumFlow) (s : ℕ) (hctx : g.PathCtx s)
    (hs0 : s < g.vertices → g.distAt s = 0) :
    ∀ (n : ℕ) (tv : ℕ), tv < g.vertices → g.distAt tv = (n : ℤ) →
    ∀ m : ℕ, m ≤ n → ∃ v : ℕ, v < g.vertices ∧ g.distAt v = (m : ℤ) := by
  intro n
  induction n with
  | zero =>
    intro tv htv hd m hm
    obtain rfl : m = 0 := Nat.le_zero.mp hm
    exact ⟨tv, htv, hd⟩
  | succ n ih =>
    intro tv htv hd m hm
    by_cases hms : m = n + 1
    · exact ⟨tv, htv, by rw [hd, hms]⟩
    · have hmn : m ≤ n := by omega
      have hts : tv ≠ s := by
        intro hc
        rw [hc, hs0 (hc ▸ htv)] at hd
        omega
      obtain ⟨u, idx, _, huV, _, _, _, hdu, hdv, _⟩ :=
        hctx.pv tv htv hts (by rw [hd]; omega)
      have hdu' : g.distAt u = (n : ℤ) := by
        rw [hd] at hdv
        omega
      exact ih u huV hdu' m hmn

/-- Pigeonhole over the inhabited levels: a reached in-range vertex has
distance label below the vertex count. -/
theorem dist_lt_vertices (g : MaximumFlow) (s : ℕ) (hctx : g.PathCtx s)
    (hs0 : s < g.vertices → g.distAt s = 0) (tv : ℕ) (htvV : tv < g.vertices)
    (h0 : 0 ≤ g.distAt tv) : g.distAt tv < (g.vertices : ℤ) := by
  set D : ℕ := (g.distAt tv).toNat with hD
  have hdtv : g.distAt tv = (D : ℤ) := by omega
  have hlev : ∀ m : ℕ, m ≤ D → ∃ v : ℕ, v < g.vertices ∧ g.distAt v = (m : ℤ) :=
    level_inhabited g s hctx hs0 D tv htvV hdtv
  have hcard : (Finset.range (D + 1)).card ≤ (Finset.range g.vertices).card := by
    refine Finset.card_le_card_of_injOn
      (fun m => if h : ∃ v : ℕ, v < g.vertices ∧ g.distAt v = (m : ℤ) then
        h.choose else 0) ?_ ?_
    · intro m hm
      have hm' : m < D + 1 := by simpa using hm
      have hex := hlev m (by omega)
      dsimp only
      rw [dif_pos hex]
      exact Finset.mem_range.mpr hex.choose_spec.1
    · intro m₁ hm₁ m₂ hm₂ heq
      have hm₁' : m₁ < D + 1 := by simpa using hm₁
      have hm₂' : m₂ < D + 1 := by simpa using hm₂
      have hex₁ := hlev m₁ (by omega)
      have hex₂ := hlev m₂ (by omega)
      dsimp only at heq
      rw [dif_pos hex₁, dif_pos hex₂] at heq
      have h₁ := hex₁.choose_spec.2
      have h₂ := hex₂.choose_spec.2
      rw [heq] at h₁
      have hz : (m₁ : ℤ) = (m₂ : ℤ) := h₁.symm.trans h₂
      exact_mod_cast hz
  rw [Finset.card_range, Finset.card_range] at hcard
  omega

/-- On a path context, the finite-cap walk with a positive cap and enough
fuel to reach the source pushes a strictly positive amount: every residual
read along the parent chain is positive. -/
theorem sof_fin_pos : ∀ (fuel : ℕ) (g : MaximumFlow) (s tv : ℕ) (f : ℤ),
    g.PathCtx s → (tv = s ∨ (tv < g.vertices ∧ 0 ≤ g.distAt tv)) →
    0 < f → (g.distAt tv).toNat < fuel →
    0 < (MaximumFlow.send_one_flow_fin fuel g s (tv : ℤ) f).1 := by
  intro fuel
  induction fuel with
  | zero =>
    intro g s tv f _ _ _ hfu
    omega
  | succ fuel ih =>
    intro g s tv f hctx hpre hf hfu
    by_cases hts : (tv : ℤ) = (s : ℤ)
    · simp only [MaximumFlow.send_one_flow_fin, if_pos hts]
      exact hf
    · have hnat : tv ≠ s := fun h => hts (by rw [h])
      have htv : tv < g.vertices ∧ 0 ≤ g.distAt tv := hpre.resolve_left hnat
      obtain ⟨u, idx, hpts, huV, hidx, hhead, hhead1, hdu, hdv, hres⟩ :=
        hctx.pv tv htv.1 hnat htv.2
      rw [sof_fin_step fuel g s tv f hts u idx hpts]
      dsimp only
      apply ih g s u _ hctx (Or.inr ⟨huV, hdu⟩)
      · exact lt_min hf (by omega)
      · omega

theorem BFS_shape (g : MaximumFlow) (s t : ℕ) (hwf : g.WFgraph) :
    SameShape g (g.BFS s t).2 := by
  have hpost := BFS_post g s t hwf
  exact ⟨hpost.vert, hpost.adj, by rw [hpost.edges],
    fun i => headAt_congr hpost.edges i, fun i => capAt_congr hpost.edges i,
    hpost.flag⟩

theorem BFS_flag_t_oor (g : MaximumFlow) (s t : ℕ) (hwf : g.WFgraph)
    (ht : g.vertices ≤ t) : (g.BFS s t).1 = false := by
  have hpost := BFS_post g s t hwf
  have hdt : (g.BFS s t).2.distAt t = -1 := by
    show (g.BFS s t).2.distances.getD t (-1) = -1
    rw [List.getD_eq_getElem?_getD, List.getElem?_eq_none, Option.getD_none]
    rw [hpost.ctx.lenD, hpost.vert]
    exact ht
  show decide ((g.BFS s t).2.distAt t ≠ -1) = false
  rw [hdt]
  simp

theorem BFS_flag_s_oor (g : MaximumFlow) (s t : ℕ) (hwf : g.WFgraph)
    (hs : g.vertices ≤ s) : (g.BFS s t).1 = false := by
  unfold MaximumFlow.BFS
  dsimp only
  set g₁ : MaximumFlow := { g with
    distances := (List.replicate g.vertices (-1 : ℤ)).set s 0,
    points := List.replicate g.vertices ((-1 : ℤ), (-1 : ℤ)) } with hg₁
  have hd : ∀ v : ℕ, g₁.distAt v = -1 := by
    intro v
    show ((List.replicate g.vertices (-1 : ℤ)).set s 0).getD v (-1) = -1
    rw [getD_set]
    rw [if_neg (fun hc => absurd hc.2 (by rw [List.length_replicate]; omega))]
    rw [getD_replicate]
    split <;> rfl
  have hloop : ∀ fuel : ℕ, MaximumFlow.bfsLoop (fuel + 2) g₁ t [s] = g₁ := by
    intro fuel
    show MaximumFlow.bfsLoop (fuel + 1 + 1) g₁ t [s] = g₁
    simp only [MaximumFlow.bfsLoop]
    by_cases hst : s = t
    · rw [if_pos hst]
    · rw [if_neg hst]
      have hoor : g₁.adjacency_list.length ≤ s := by
        show g.adjacency_list.length ≤ s
        rw [hwf.adjLen]
        exact hs
      rw [bfsVisit_oor g₁ s [] hoor]
      show MaximumFlow.bfsLoop (fuel + 1) g₁ t [] = g₁
      rfl
  rw [hloop g.vertices, hd t]
  simp

theorem BFS_flag_self (g : MaximumFlow) (s : ℕ) (hwf : g.WFgraph)
    (hs : s < g.vertices) : (g.BFS s s).1 = true := by
  have hpost := BFS_post g s s hwf
  have hds : (g.BFS s s).2.distAt s = 0 :=
    hpost.hs (by rw [hpost.vert]; exact hs)
  show decide ((g.BFS s s).2.distAt s ≠ -1) = true
  rw [hds]
  decide

/-- With source equal to sink (and the source a genuine vertex), the sink
stays reachable forever and every push returns `INF`, so the
`edmonds_karp` loop never terminates. -/
theorem ekLoop_self_none (s : ℕ) :
    ∀ (fuel : ℕ) (g : MaximumFlow) (mf : WithTop ℤ),
    g.WFgraph → s < g.vertices →
    MaximumFlow.ekLoop fuel g s s mf = none := by
  intro fuel
  induction fuel with
  | zero => intro g mf _ _; rfl
  | succ fuel ih =>
    intro g mf hwf hs
    simp only [MaximumFlow.ekLoop]
    rw [BFS_flag_self g s hwf hs, if_pos rfl]
    have hsof : (g.BFS s s).2.send_one_flow s s =
        ((⊤ : WithTop ℤ), (g.BFS s s).2) := by
      unfold MaximumFlow.send_one_flow
      rw [if_pos rfl]
    rw [hsof]
    dsimp only
    rw [if_neg (by decide : ¬ ((⊤ : WithTop ℤ) = 0))]
    have hpost := BFS_post g s s hwf
    exact ih (g.BFS s s).2 _ (wf_congr hpost.edges hpost.adj hpost.vert hwf)
      (by rw [hpost.vert]; exact hs)

theorem dinicInner_self_none (s : ℕ) (g : MaximumFlow) :
    ∀ (fuel : ℕ) (mf : WithTop ℤ),
    MaximumFlow.dinicInner fuel g s s mf ⊤ = none := by
  intro fuel
  induction fuel with
  | zero => intro mf; rfl
  | succ fuel ih =>
    intro mf
    simp only [MaximumFlow.dinicInner]
    rw [if_neg (by decide : ¬ ((⊤ : WithTop ℤ) = 0))]
    have hdfs : g.DFS s s = ((⊤ : WithTop ℤ), g) := by
      unfold MaximumFlow.DFS
      rw [if_pos rfl]
    rw [hdfs]
    exact ih _

/-- With source equal to sink, the blocking-flow inner loop spins on `INF`
forever, so `dinic` never terminates either. -/
theorem dinicLoop_self_none (s : ℕ) :
    ∀ (fuel : ℕ) (g : MaximumFlow) (mf : WithTop ℤ),
    g.WFgraph → s < g.vertices →
    MaximumFlow.dinicLoop fuel g s s mf = none := by
  intro fuel
  induction fuel with
  | zero => intro g mf _ _; rfl
  | succ fuel ih =>
    intro g mf hwf hs
    simp only [MaximumFlow.dinicLoop]
    rw [BFS_flag_self g s hwf hs, if_pos rfl]
    have hdfs : ({ (g.BFS s s).2 with
        last := List.replicate (g.BFS s s).2.vertices 0 } : MaximumFlow).DFS s s =
        ((⊤ : WithTop ℤ), { (g.BFS s s).2 with
          last := List.replicate (g.BFS s s).2.vertices 0 }) := by
      unfold MaximumFlow.DFS
      rw [if_pos rfl]
    rw [hdfs]
    rw [dinicInner_self_none s _ fuel mf]

theorem ekLoop_first_false {g : MaximumFlow} {s t : ℕ} (fuel : ℕ)
    (mf : WithTop ℤ) (hflag : (g.BFS s t).1 = false) :
    MaximumFlow.ekLoop (fuel + 1) g s t mf = some (mf, (g.BFS s t).2) := by
  simp only [MaximumFlow.ekLoop]
  rw [hflag, if_neg (by decide : ¬ (false = true))]

theorem dinicLoop_first_false {g : MaximumFlow} {s t : ℕ} (fuel : ℕ)
    (mf : WithTop ℤ) (hflag : (g.BFS s t).1 = false) :
    MaximumFlow.dinicLoop (fuel + 1) g s t mf = some (mf, (g.BFS s t).2) := by
  simp only [MaximumFlow.dinicLoop]
  rw [hflag, if_neg (by decide : ¬ (false = true))]

theorem ek_value_first_false {g : MaximumFlow} {s t fuel : ℕ} {mf : WithTop ℤ}
    {g' : MaximumFlow} (hb : Built g)
    (hok : g.edmonds_karp s t fuel = some (Except.ok mf, g'))
    (hflag : (({ g with has_been_run := true } : MaximumFlow).BFS s t).1 = false) :
    mf = 0 := by
  have hloop := edmonds_karp_ok hb hok
  rcases fuel with _ | fuel
  · exact absurd hloop (by simp [MaximumFlow.ekLoop])
  · rw [ekLoop_first_false fuel 0 hflag] at hloop
    obtain h := Option.some.inj hloop
    exact (congrArg Prod.fst h).symm

theorem dinic_value_first_false {g : MaximumFlow} {s t fuel : ℕ}
    {mf : WithTop ℤ} {g' : MaximumFlow} (hb : Built g)
    (hok : g.dinic s t fuel = some (Except.ok mf, g'))
    (hflag : (({ g with has_been_run := true } : MaximumFlow).BFS s t).1 = false) :
    mf = 0 := by
  have hloop := dinic_ok hb hok
  rcases fuel with _ | fuel
  · exact absurd hloop (by simp [MaximumFlow.dinicLoop])
  · rw [dinicLoop_first_false fuel 0 hflag] at hloop
    obtain h := Option.some.inj hloop
    exact (congrArg Prod.fst h).symm

/-- A sum of stored flows over a pair-symmetric index set vanishes: the
reverse-pair invariant cancels each pair. -/
theorem sum_flow_sym_zero (g : MaximumFlow)
    (heven : g.edge_list.length % 2 = 0) (ha : g.Antisym)
    (P : ℕ → Prop) [DecidablePred P] (hsym : ∀ i : ℕ, P (i ^^^ 1) ↔ P i) :
    ∑ i ∈ Finset.range g.edge_list.length,
      (if P i then g.flowAt i else 0) = 0 := by
  have hre : ∑ i ∈ Finset.range g.edge_list.length,
        (if P i then g.flowAt i else 0)
      = ∑ i ∈ Finset.range g.edge_list.length,
        (if P i then - g.flowAt i else 0) := by
    refine Finset.sum_nbij' (fun i => i ^^^ 1) (fun i => i ^^^ 1) ?_ ?_ ?_ ?_ ?_
    all_goals intro a ha'
    · exact Finset.mem_range.mpr (xor_one_lt heven (Finset.mem_range.mp ha'))
    · exact Finset.mem_range.mpr (xor_one_lt heven (Finset.mem_range.mp ha'))
    · exact xor_one_xor_one a
    · exact xor_one_xor_one a
    · show (if P a then g.flowAt a else 0) =
        (if P (a ^^^ 1) then - g.flowAt (a ^^^ 1) else 0)
      by_cases hP : P a
      · rw [if_pos hP, if_pos ((hsym a).mpr hP), ha a, neg_neg]
      · rw [if_neg hP, if_neg (fun hc => hP ((hsym a).mp hc))]
  have hneg : ∑ i ∈ Finset.range g.edge_list.length,
        (if P i then - g.flowAt i else 0)
      = - ∑ i ∈ Finset.range g.edge_list.length,
        (if P i then g.flowAt i else 0) := by
    rw [← Finset.sum_neg_distrib]
    refine Finset.sum_congr rfl ?_
    intro i _
    by_cases hP : P i
    · rw [if_pos hP, if_pos hP]
    · rw [if_neg hP, if_neg hP, neg_zero]
  rw [hneg] at hre
  omega

/-- Summing stored inflow over any set of vertices counts each stored edge
whose head lies in the set. -/
theorem sum_inflow_filter (g : MaximumFlow)
    (hheads : ∀ i : ℕ, i < g.edge_list.length → g.headAt i < g.vertices)
    (P : ℕ → Prop) [DecidablePred P] :
    ∑ v ∈ (Finset.range g.vertices).filter P, g.inflow v
      = ∑ i ∈ Finset.range g.edge_list.length,
          (if P (g.headAt i) then g.flowAt i else 0) := by
  unfold MaximumFlow.inflow
  rw [Finset.sum_comm]
  refine Finset.sum_congr rfl ?_
  intro i hi
  rw [Finset.sum_ite_eq]
  by_cases hm : P (g.headAt i)
  · rw [if_pos (Finset.mem_filter.mpr
      ⟨Finset.mem_range.mpr (hheads i (Finset.mem_range.mp hi)), hm⟩), if_pos hm]
  · rw [if_neg (fun hc => hm (Finset.mem_filter.mp hc).2), if_neg hm]

/-- Max-flow/min-cut accounting: with the reverse-pair invariant and flow
conservation away from the endpoints, the inflow of the sink equals the net
stored flow across any vertex cut separating it from the source. -/
theorem inflow_eq_cutflow (g : MaximumFlow) (s t : ℕ) (S : ℕ → Bool)
    (heven : g.edge_list.length % 2 = 0)
    (hheads : ∀ i : ℕ, i < g.edge_list.length → g.headAt i < g.vertices)
    (ha : g.Antisym)
    (hze : ∀ v : ℕ, v ≠ s → v ≠ t → g.inflow v = 0)
    (hst : s ≠ t) (hsV : s < g.vertices) (htV : t < g.vertices)
    (hSs : S s = true) (hSt : S t = false) :
    g.inflow t = ∑ i ∈ cutEdges g S, g.flowAt i := by
  have hA : g.inflow s =
      ∑ i ∈ Finset.range g.edge_list.length,
        (if S (g.headAt i) = true then g.flowAt i else 0) := by
    rw [← sum_inflow_filter g hheads (fun v => S v = true)]
    have hsmem : s ∈ (Finset.range g.vertices).filter (fun v => S v = true) :=
      Finset.mem_filter.mpr ⟨Finset.mem_range.mpr hsV, hSs⟩
    rw [← Finset.sum_erase_add _ _ hsmem]
    have hz : ∑ v ∈ ((Finset.range g.vertices).filter
        (fun v => S v = true)).erase s, g.inflow v = 0 := by
      apply Finset.sum_eq_zero
      intro v hv
      obtain ⟨hvs, hvf⟩ := Finset.mem_erase.mp hv
      have hvt : v ≠ t := by
        intro hc
        rw [hc] at hvf
        have hcT := (Finset.mem_filter.mp hvf).2
        rw [hSt] at hcT
        exact absurd hcT (by decide)
      exact hze v hvs hvt
    rw [hz, zero_add]
  have hst0 : g.inflow s + g.inflow t = 0 := by
    have htrue : ∑ v ∈ Finset.range g.vertices, g.inflow v
        = ∑ i ∈ Finset.range g.edge_list.length,
            (if (True : Prop) then g.flowAt i else 0) := by
      rw [← sum_inflow_filter g hheads (fun _ => True)]
      rw [Finset.filter_true_of_mem (fun x _ => trivial)]
    have hsum0 : ∑ i ∈ Finset.range g.edge_list.length,
        (if (True : Prop) then g.flowAt i else 0) = 0 :=
      sum_flow_sym_zero g heven ha (fun _ => True) (fun i => Iff.rfl)
    have htot : ∑ v ∈ Finset.range g.vertices, g.inflow v = 0 := by
      rw [htrue, hsum0]
    have hsmem : s ∈ Finset.range g.vertices := Finset.mem_range.mpr hsV
    have htmem : t ∈ (Finset.range g.vertices).erase s :=
      Finset.mem_erase.mpr ⟨Ne.symm hst, Finset.mem_range.mpr htV⟩
    have h1 := Finset.sum_erase_add (Finset.range g.vertices) g.inflow hsmem
    have h2 := Finset.sum_erase_add ((Finset.range g.vertices).erase s)
      g.inflow htmem
    have h3 : ∑ v ∈ ((Finset.range g.vertices).erase s).erase t, g.inflow v = 0 :=
      Finset.sum_eq_zero (fun v hv => by
        obtain ⟨hvt, hv2⟩ := Finset.mem_erase.mp hv
        obtain ⟨hvs, _⟩ := Finset.mem_erase.mp hv2
        exact hze v hvs hvt)
    rw [htot] at h1
    rw [h3, zero_add] at h2
    omega
  have hsplit : ∑ i ∈ Finset.range g.edge_list.length,
        (if S (g.headAt i) = true then g.flowAt i else 0)
      = (∑ i ∈ Finset.range g.edge_list.length,
          (if S (g.headAt i) = true ∧ S (g.headAt (i ^^^ 1)) = true then
            g.flowAt i else 0))
        + (∑ i ∈ Finset.range g.edge_list.length,
          (if S (g.headAt i) = true ∧ S (g.headAt (i ^^^ 1)) = false then
            g.flowAt i else 0)) := by
    rw [← Finset.sum_add_distrib]
    refine Finset.sum_congr rfl ?_
    intro i _
    by_cases h1 : S (g.headAt i) = true
    · by_cases h2 : S (g.headAt (i ^^^ 1)) = true
      · have h2f : ¬ (S (g.headAt i) = true ∧ S (g.headAt (i ^^^ 1)) = false) := by
          intro hc
          rw [h2] at hc
          exact absurd hc.2 (by decide)
        rw [if_pos h1, if_pos ⟨h1, h2⟩, if_neg h2f, add_zero]
      · have h2' : S (g.headAt (i ^^^ 1)) = false := by
          revert h2
          cases S (g.headAt (i ^^^ 1)) <;> simp
        rw [if_pos h1, if_neg (fun hc => h2 hc.2), if_pos ⟨h1, h2'⟩, zero_add]
    · rw [if_neg h1, if_neg (fun hc => h1 hc.1), if_neg (fun hc => h1 hc.1),
        add_zero]
  have hzero1 : ∑ i ∈ Finset.range g.edge_list.length,
      (if S (g.headAt i) = true ∧ S (g.headAt (i ^^^ 1)) = true then
        g.flowAt i else 0) = 0 := by
    refine sum_flow_sym_zero g heven ha _ ?_
    intro i
    rw [xor_one_xor_one]
    exact And.comm
  have hEnt : ∑ i ∈ Finset.range g.edge_list.length,
        (if S (g.headAt i) = true ∧ S (g.headAt (i ^^^ 1)) = false then
          g.flowAt i else 0)
      = - ∑ i ∈ Finset.range g.edge_list.length,
        (if S (g.headAt (i ^^^ 1)) = true ∧ S (g.headAt i) = false then
          g.flowAt i else 0) := by
    rw [← Finset.sum_neg_distrib]
    refine Finset.sum_nbij' (fun i => i ^^^ 1) (fun i => i ^^^ 1) ?_ ?_ ?_ ?_ ?_
    all_goals intro a ha'
    · exact Finset.mem_range.mpr (xor_one_lt heven (Finset.mem_range.mp ha'))
    · exact Finset.mem_range.mpr (xor_one_lt heven (Finset.mem_range.mp ha'))
    · exact xor_one_xor_one a
    · exact xor_one_xor_one a
    · show (if S (g.headAt a) = true ∧ S (g.headAt (a ^^^ 1)) = false then
          g.flowAt a else 0)
        = - (if S (g.headAt ((a ^^^ 1) ^^^ 1)) = true ∧
            S (g.headAt (a ^^^ 1)) = false then g.flowAt (a ^^^ 1) else 0)
      rw [xor_one_xor_one]
      by_cases hc : S (g.headAt a) = true ∧ S (g.headAt (a ^^^ 1)) = false
      · rw [if_pos hc, if_pos hc, ha a, neg_neg]
      · rw [if_neg hc, if_neg hc, neg_zero]
  have hcut : ∑ i ∈ cutEdges g S, g.flowAt i
      = ∑ i ∈ Finset.range g.edge_list.length,
          (if S (g.headAt (i ^^^ 1)) = true ∧ S (g.headAt i) = false then
            g.flowAt i else 0) := by
    unfold cutEdges
    rw [Finset.sum_filter]
  rw [hcut]
  linarith [hA, hsplit, hzero1, hEnt, hst0]

/-- At a closed distance labelling, every stored edge leaving the reached
region is saturated. -/
theorem cut_saturated (g : MaximumFlow) (hwf : g.WFgraph) (hfa : g.FullAdj)
    (hcl : g.LevelClosed) :
    ∀ i ∈ cutEdges g (fun v => decide (0 ≤ g.distAt v)),
      g.capAt i ≤ g.flowAt i := by
  intro i hi
  unfold cutEdges at hi
  obtain ⟨hir, hcond⟩ := Finset.mem_filter.mp hi
  have hiR : i < g.edge_list.length := Finset.mem_range.mp hir
  obtain ⟨hin, hout⟩ := hcond
  have hTd : 0 ≤ g.distAt (g.headAt (i ^^^ 1)) := of_decide_eq_true hin
  have hHd : ¬ 0 ≤ g.distAt (g.headAt i) := of_decide_eq_false hout
  have hTV : g.headAt (i ^^^ 1) < g.vertices :=
    hwf.headsValid _ (xor_one_lt hwf.evenLen hiR)
  by_contra hc
  push_neg at hc
  exact hHd (hcl _ hTV hTd i (hfa i hiR) hc)

/-- Weak duality at a saturated cut: the sink inflow of any conserving,
capacity-respecting state is at most that of a state of the same shape
whose final labelling is closed. -/
theorem final_value_le (s t : ℕ) (hst : s ≠ t) (h₁ h₂ : MaximumFlow)
    (hw1 : h₁.WFgraph) (ha1 : h₁.Antisym)
    (hz1 : ∀ v : ℕ, v ≠ s → v ≠ t → h₁.inflow v = 0) (hC1 : h₁.FlowLeCap)
    (hw2 : h₂.WFgraph) (hfa2 : h₂.FullAdj) (ha2 : h₂.Antisym)
    (hz2 : ∀ v : ℕ, v ≠ s → v ≠ t → h₂.inflow v = 0)
    (hcl2 : h₂.LevelClosed) (hds2 : h₂.distAt s = 0) (hdt2 : h₂.distAt t = -1)
    (hsV : s < h₁.vertices) (htV : t < h₁.vertices)
    (hlen : h₁.edge_list.length = h₂.edge_list.length)
    (hh : ∀ i : ℕ, h₁.headAt i = h₂.headAt i)
    (hc : ∀ i : ℕ, h₁.capAt i = h₂.capAt i)
    (hvert : h₁.vertices = h₂.vertices) :
    h₁.inflow t ≤ h₂.inflow t := by
  have hSs : (fun v => decide (0 ≤ h₂.distAt v)) s = true :=
    decide_eq_true (by rw [hds2])
  have hSt : (fun v => decide (0 ≤ h₂.distAt v)) t = false :=
    decide_eq_false (by rw [hdt2]; omega)
  have h1cut : h₁.inflow t =
      ∑ i ∈ cutEdges h₁ (fun v => decide (0 ≤ h₂.distAt v)), h₁.flowAt i :=
    inflow_eq_cutflow h₁ s t _ hw1.evenLen hw1.headsValid ha1 hz1 hst hsV htV
      hSs hSt
  have h2cut : h₂.inflow t =
      ∑ i ∈ cutEdges h₂ (fun v => decide (0 ≤ h₂.distAt v)), h₂.flowAt i :=
    inflow_eq_cutflow h₂ s t _ hw2.evenLen hw2.headsValid ha2 hz2 hst
      (by rw [← hvert]; exact hsV) (by rw [← hvert]; exact htV) hSs hSt
  have hEq : cutEdges h₁ (fun v => decide (0 ≤ h₂.distAt v)) =
      cutEdges h₂ (fun v => decide (0 ≤ h₂.distAt v)) :=
    cutEdges_congr hlen hh _
  have hflow1 : ∑ i ∈ cutEdges h₁ (fun v => decide (0 ≤ h₂.distAt v)), h₁.flowAt i
      ≤ ∑ i ∈ cutEdges h₁ (fun v => decide (0 ≤ h₂.distAt v)), h₁.capAt i :=
    Finset.sum_le_sum (fun i _ => hC1 i)
  have hcap12 : ∑ i ∈ cutEdges h₁ (fun v => decide (0 ≤ h₂.distAt v)), h₁.capAt i
      = ∑ i ∈ cutEdges h₂ (fun v => decide (0 ≤ h₂.distAt v)), h₂.capAt i := by
    rw [hEq]
    exact Finset.sum_congr rfl (fun i _ => hc i)
  have hflow2 : ∑ i ∈ cutEdges h₂ (fun v => decide (0 ≤ h₂.distAt v)), h₂.capAt i
      ≤ ∑ i ∈ cutEdges h₂ (fun v => decide (0 ≤ h₂.distAt v)), h₂.flowAt i :=
    Finset.sum_le_sum (cut_saturated h₂ hw2 hfa2 hcl2)
  linarith [h1cut, h2cut]

/-- One `bfsStep` preserves the queue invariant and additionally: reached
vertices stay reached, newly reached vertices are enqueued, the measure
`|unreached| + |queue|` does not grow, the processed edge is relaxed, and
the queue only grows. -/
theorem bfsStep_inv (g₀ : MaximumFlow) (s : ℕ) (hwf : g₀.WFgraph)
    (u : ℕ) (h : MaximumFlow) (q' : List ℕ) (idx : ℕ)
    (C : BFSInv g₀ s h q') (hdu : 0 ≤ h.distAt u)
    (hmem : idx ∈ g₀.adjacency_list.getD u []) :
    BFSInv g₀ s (MaximumFlow.bfsStep u (h, q') idx).1
        (MaximumFlow.bfsStep u (h, q') idx).2 ∧
    (∀ v : ℕ, 0 ≤ h.distAt v →
      0 ≤ (MaximumFlow.bfsStep u (h, q') idx).1.distAt v) ∧
    (∀ v : ℕ, 0 ≤ (MaximumFlow.bfsStep u (h, q') idx).1.distAt v →
      0 ≤ h.distAt v ∨ v ∈ (MaximumFlow.bfsStep u (h, q') idx).2) ∧
    ((MaximumFlow.bfsStep u (h, q') idx).1.unreachedSet.card +
        (MaximumFlow.bfsStep u (h, q') idx).2.length ≤
      h.unreachedSet.card + q'.length) ∧
    ((MaximumFlow.bfsStep u (h, q') idx).1.flowAt idx <
        (MaximumFlow.bfsStep u (h, q') idx).1.capAt idx →
      0 ≤ (MaximumFlow.bfsStep u (h, q') idx).1.distAt
        ((MaximumFlow.bfsStep u (h, q') idx).1.headAt idx)) ∧
    (∀ x : ℕ, x ∈ q' → x ∈ (MaximumFlow.bfsStep u (h, q') idx).2) := by
  unfold MaximumFlow.bfsStep
  dsimp only
  obtain ⟨hidx, hhead1, hheadV⟩ := hwf.adjValid u idx hmem
  have huV : u < g₀.vertices := by
    by_contra hcV
    have hempty : g₀.adjacency_list.getD u [] = [] := by
      rw [List.getD_eq_getElem?_getD, List.getElem?_eq_none, Option.getD_none]
      rw [hwf.adjLen]
      omega
    rw [hempty] at hmem
    exact absurd hmem (List.not_mem_nil idx)
  set e := h.edge_list.getD idx (0, 0, 0) with he
  have heg : e = g₀.edge_list.getD idx (0, 0, 0) := by rw [he, C.edges]
  have hv : e.1 = g₀.headAt idx := by rw [heg]; rfl
  have hvV : e.1 < g₀.vertices := by rw [hv]; exact hheadV
  have hcapAt : h.capAt idx = e.2.1 := by
    unfold MaximumFlow.capAt MaximumFlow.edgeAt
    rw [← he]
  have hflowAt : h.flowAt idx = e.2.2 := by
    unfold MaximumFlow.flowAt MaximumFlow.edgeAt
    rw [← he]
  have hheadAt : h.headAt idx = e.1 := by
    unfold MaximumFlow.headAt MaximumFlow.edgeAt
    rw [← he]
  have hheadAt1 : h.headAt (idx ^^^ 1) = u := by
    rw [headAt_congr C.edges]
    exact hhead1
  by_cases hc : 0 < e.2.1 - e.2.2 ∧ h.distAt e.1 = -1
  · rw [if_pos hc]
    dsimp only
    set h' : MaximumFlow := { h with
      distances := h.distances.set e.1 (h.distAt u + 1),
      points := h.points.set e.1 ((u : ℤ), (idx : ℤ)) } with hh'
    have hvneu : e.1 ≠ u := by
      intro hcc
      rw [hcc] at hc
      omega
    have hvnes : e.1 ≠ s := by
      intro hcc
      by_cases hsV : s < h.vertices
      · have := C.hs hsV
        rw [hcc] at hc
        omega
      · rw [C.vert] at hsV
        omega
    have hlenD : h.distances.length = h.vertices := C.ctx.lenD
    have hlenP : h.points.length = h.vertices := C.ctx.lenP
    have hvada : e.1 < h.vertices := by rw [C.vert]; exact hvV
    have hdist : ∀ w : ℕ, h'.distAt w =
        if w = e.1 then h.distAt u + 1 else h.distAt w := by
      intro w
      show (h.distances.set e.1 (h.distAt u + 1)).getD w (-1) = _
      rw [getD_set]
      by_cases hw : w = e.1
      · rw [if_pos ⟨hw, by omega⟩, if_pos hw]
      · rw [if_neg (fun hcc => hw hcc.1), if_neg hw]
        rfl
    have hpts : ∀ w : ℕ, h'.points.getD w (-1, -1) =
        if w = e.1 then ((u : ℤ), (idx : ℤ)) else h.points.getD w (-1, -1) := by
      intro w
      show (h.points.set e.1 _).getD w (-1, -1) = _
      rw [getD_set]
      by_cases hw : w = e.1
      · rw [if_pos ⟨hw, by omega⟩, if_pos hw]
      · rw [if_neg (fun hcc => hw hcc.1), if_neg hw]
    have hedges : h'.edge_list = g₀.edge_list := C.edges
    have hvert : h'.vertices = g₀.vertices := C.vert
    have hinv' : BFSInv g₀ s h' (q' ++ [e.1]) := by
      refine ⟨⟨?_, ?_, ?_, ?_, ?_⟩, hedges, C.adj, C.lastE, hvert, C.flag, ?_, ?_⟩
      · show (h.distances.set e.1 _).length = h.vertices
        rw [List.length_set]
        exact hlenD
      · show (h.points.set e.1 ((u : ℤ), (idx : ℤ))).length = h.vertices
        rw [List.length_set]
        exact hlenP
      · intro w
        rw [hdist w]
        by_cases hw : w = e.1
        · rw [if_pos hw]
          right
          omega
        · rw [if_neg hw]
          exact C.ctx.dsent w
      · intro w hwV hw0
        rw [hdist w] at hw0
        by_cases hw : w = e.1
        · rw [if_pos hw] at hw0
          omega
        · rw [if_neg hw] at hw0
          exact C.ctx.dzero w hwV hw0
      · intro w hwV hws hwd
        rw [hdist w] at hwd
        by_cases hw : w = e.1
        · refine ⟨u, idx, ?_, ?_, ?_, ?_, ?_, ?_, ?_, ?_⟩
          · rw [hpts w, if_pos hw]
          · show u < h.vertices
            rw [C.vert]
            exact huV
          · show idx < h.edge_list.length
            rw [C.edges]
            exact hidx
          · show h.headAt idx = w
            rw [hheadAt, hw]
          · show h.headAt (idx ^^^ 1) = u
            exact hheadAt1
          · rw [hdist u, if_neg (Ne.symm hvneu)]
            exact hdu
          · rw [hdist u, if_neg (Ne.symm hvneu), hw, hdist e.1, if_pos rfl]
          · show h.flowAt idx < h.capAt idx
            rw [hcapAt, hflowAt]
            omega
        · rw [if_neg hw] at hwd
          obtain ⟨u', idx', hp', huV', hidx', hh', hh1', hdu', hdv', hres'⟩ :=
            C.ctx.pv w hwV hws hwd
          have hune : u' ≠ e.1 := by
            intro hcc
            rw [hcc] at hdu'
            omega
          refine ⟨u', idx', ?_, huV', ?_, ?_, ?_, ?_, ?_, ?_⟩
          · rw [hpts w, if_neg hw]
            exact hp'
          · exact hidx'
          · exact hh'
          · exact hh1'
          · rw [hdist u', if_neg hune]
            exact hdu'
          · rw [hdist u', if_neg hune, hdist w, if_neg hw]
            exact hdv'
          · exact hres'
      · intro hsV
        rw [hdist s, if_neg (Ne.symm hvnes)]
        exact C.hs hsV
      · intro x hx
        rcases List.mem_append.mp hx with hx1 | hx2
        · rcases C.qmem x hx1 with ⟨hxa, hxb⟩ | hxs
          · left
            refine ⟨hxa, ?_⟩
            rw [hdist x]
            by_cases hw : x = e.1
            · rw [if_pos hw]; omega
            · rw [if_neg hw]; exact hxb
          · right; exact hxs
        · have hxe : x = e.1 := List.mem_singleton.mp hx2
          left
          refine ⟨by rw [hxe]; exact hvada, ?_⟩
          rw [hdist x]
          by_cases hw : x = e.1
          · rw [if_pos hw]; omega
          · rw [if_neg hw]
            rw [hxe] at hw
            exact absurd rfl hw
    refine ⟨hinv', ?_, ?_, ?_, ?_, ?_⟩
    · intro v hvd
      rw [hdist v]
      by_cases hw : v = e.1
      · rw [if_pos hw]; omega
      · rw [if_neg hw]; exact hvd
    · intro v hvd
      rw [hdist v] at hvd
      by_cases hw : v = e.1
      · right
        rw [hw]
        exact List.mem_append_right _ (List.mem_singleton.mpr rfl)
      · rw [if_neg hw] at hvd
        exact Or.inl hvd
    · have hUr : h'.unreachedSet = h.unreachedSet.erase e.1 := by
        unfold MaximumFlow.unreachedSet
        ext w
        simp only [Finset.mem_filter, Finset.mem_erase, Finset.mem_range]
        have hvv : h'.vertices = h.vertices := rfl
        rw [hvv, hdist w]
        constructor
        · rintro ⟨hw1, hw2⟩
          by_cases hww : w = e.1
          · rw [if_pos hww] at hw2; omega
          · rw [if_neg hww] at hw2
            exact ⟨hww, hw1, hw2⟩
        · rintro ⟨hww, hw1, hw2⟩
          refine ⟨hw1, ?_⟩
          rw [if_neg hww]
          exact hw2
      have hmemU : e.1 ∈ h.unreachedSet := by
        unfold MaximumFlow.unreachedSet
        exact Finset.mem_filter.mpr ⟨Finset.mem_range.mpr hvada, hc.2⟩
      have hpos : 0 < h.unreachedSet.card := Finset.card_pos.mpr ⟨e.1, hmemU⟩
      rw [hUr, Finset.card_erase_of_mem hmemU]
      simp only [List.length_append, List.length_singleton]
      omega
    · intro _
      have hhh : h'.headAt idx = e.1 := hheadAt
      rw [hhh, hdist e.1, if_pos rfl]
      omega
    · intro x hx
      exact List.mem_append_left _ hx
  · rw [if_neg hc]
    dsimp only
    refine ⟨C, fun v hv => hv, fun v hv => Or.inl hv, le_refl _, ?_, fun x hx => hx⟩
    intro hflt
    rw [hcapAt, hflowAt] at hflt
    have hne : h.distAt e.1 ≠ -1 := by
      intro hcc
      exact hc ⟨by omega, hcc⟩
    have hd := C.ctx.dsent e.1
    rw [hheadAt]
    omega

/-- Folding `bfsStep` over any sublist of `u`'s adjacency entries keeps the
queue invariant and the bookkeeping of `bfsStep_inv`, and relaxes every
processed entry. -/
theorem bfsFold_closed (g₀ : MaximumFlow) (s : ℕ) (hwf : g₀.WFgraph) (u : ℕ) :
    ∀ (l : List ℕ), (∀ idx ∈ l, idx ∈ g₀.adjacency_list.getD u []) →
    ∀ (h : MaximumFlow) (q' : List ℕ),
    BFSInv g₀ s h q' → 0 ≤ h.distAt u →
    BFSInv g₀ s (l.foldl (MaximumFlow.bfsStep u) (h, q')).1
        (l.foldl (MaximumFlow.bfsStep u) (h, q')).2 ∧
    (∀ v : ℕ, 0 ≤ h.distAt v →
      0 ≤ (l.foldl (MaximumFlow.bfsStep u) (h, q')).1.distAt v) ∧
    (∀ v : ℕ, 0 ≤ (l.foldl (MaximumFlow.bfsStep u) (h, q')).1.distAt v →
      0 ≤ h.distAt v ∨ v ∈ (l.foldl (MaximumFlow.bfsStep u) (h, q')).2) ∧
    ((l.foldl (MaximumFlow.bfsStep u) (h, q')).1.unreachedSet.card +
        (l.foldl (MaximumFlow.bfsStep u) (h, q')).2.length ≤
      h.unreachedSet.card + q'.length) ∧
    (∀ idx ∈ l, (l.foldl (MaximumFlow.bfsStep u) (h, q')).1.flowAt idx <
        (l.foldl (MaximumFlow.bfsStep u) (h, q')).1.capAt idx →
      0 ≤ (l.foldl (MaximumFlow.bfsStep u) (h, q')).1.distAt
        ((l.foldl (MaximumFlow.bfsStep u) (h, q')).1.headAt idx)) ∧
    (∀ x : ℕ, x ∈ q' → x ∈ (l.foldl (MaximumFlow.bfsStep u) (h, q')).2) := by
  intro l
  induction l with
  | nil =>
    intro _ h q' C hdu
    exact ⟨C, fun v hv => hv, fun v hv => Or.inl hv, le_refl _,
      fun idx hidx => absurd hidx (List.not_mem_nil idx), fun x hx => hx⟩
  | cons idx l ih =>
    intro hl h q' C hdu
    obtain ⟨S1, S2, S3, S4, S5, S6⟩ :=
      bfsStep_inv g₀ s hwf u h q' idx C hdu (hl idx (List.mem_cons_self idx l))
    have hdu' : 0 ≤ (MaximumFlow.bfsStep u (h, q') idx).1.distAt u := S2 u hdu
    obtain ⟨I1, I2, I3, I4, I5, I6⟩ :=
      ih (fun j hj => hl j (List.mem_cons_of_mem idx hj))
        (MaximumFlow.bfsStep u (h, q') idx).1
        (MaximumFlow.bfsStep u (h, q') idx).2 S1 hdu'
    have hfold : (idx :: l).foldl (MaximumFlow.bfsStep u) (h, q') =
        l.foldl (MaximumFlow.bfsStep u)
          ((MaximumFlow.bfsStep u (h, q') idx).1,
           (MaximumFlow.bfsStep u (h, q') idx).2) := by
      show (idx :: l).foldl (MaximumFlow.bfsStep u) (h, q') =
        l.foldl (MaximumFlow.bfsStep u) (MaximumFlow.bfsStep u (h, q') idx)
      rfl
    rw [hfold]
    refine ⟨I1, ?_, ?_, ?_, ?_, ?_⟩
    · intro v hv
      exact I2 v (S2 v hv)
    · intro v hv
      rcases I3 v hv with hv2 | hv2
      · rcases S3 v hv2 with hv3 | hv3
        · exact Or.inl hv3
        · exact Or.inr (I6 v hv3)
      · exact Or.inr hv2
    · exact le_trans I4 S4
    · intro j hj
      rcases List.mem_cons.mp hj with hje | hjl
      · intro hflt
        have hedgesF : (l.foldl (MaximumFlow.bfsStep u)
            ((MaximumFlow.bfsStep u (h, q') idx).1,
             (MaximumFlow.bfsStep u (h, q') idx).2)).1.edge_list =
            (MaximumFlow.bfsStep u (h, q') idx).1.edge_list := by
          rw [I1.edges, S1.edges]
        rw [hje]
        rw [hje] at hflt
        rw [flowAt_congr hedgesF, capAt_congr hedgesF] at hflt
        rw [headAt_congr hedgesF]
        exact I2 _ (S5 hflt)
      · exact I5 j hjl
    · intro x hx
      exact I6 x (S6 x hx)

/-- When the queue loop ends with the sink unreached, the final labelling
is closed: the loop has enough fuel, never meets the sink, and each
dequeued vertex is relaxed by its visit. -/
theorem bfsLoop_closed (g₀ : MaximumFlow) (s t : ℕ) (hwf : g₀.WFgraph)
    (hsV : s < g₀.vertices) :
    ∀ (fuel : ℕ) (g : MaximumFlow) (q : List ℕ),
    BFSInv g₀ s g q →
    (∀ w : ℕ, w < g.vertices → 0 ≤ g.distAt w → w ∉ q → g.Relaxed w) →
    g.unreachedSet.card + q.length < fuel →
    (MaximumFlow.bfsLoop fuel g t q).distAt t = -1 →
    (MaximumFlow.bfsLoop fuel g t q).LevelClosed := by
  intro fuel
  induction fuel with
  | zero =>
    intro g q _ _ hcd _
    omega
  | succ fuel ih =>
    intro g q C hcl hcd hdt
    rcases q with _ | ⟨u, q'⟩
    · intro w hwV hwd
      exact hcl w hwV hwd (List.not_mem_nil w)
    · simp only [MaximumFlow.bfsLoop] at hdt ⊢
      rw [List.length_cons] at hcd
      by_cases hut : u = t
      · rw [if_pos hut] at hdt ⊢
        exfalso
        rcases C.qmem u (List.mem_cons_self u q') with ⟨_, hud⟩ | hus
        · rw [hut] at hud
          omega
        · have hds : g.distAt s = 0 := C.hs (by rw [C.vert]; exact hsV)
          have hts : t = s := hut.symm.trans hus
          rw [hts, hds] at hdt
          omega
      · rw [if_neg hut] at hdt ⊢
        have hdu : 0 ≤ g.distAt u := by
          rcases C.qmem u (List.mem_cons_self u q') with ⟨_, hud⟩ | hus
          · exact hud
          · rw [hus]
            rw [C.hs (by rw [C.vert]; exact hsV)]
        obtain ⟨F1, F2, F3, F4, F5, F6⟩ :=
          bfsFold_closed g₀ s hwf u (g.adjacency_list.getD u [])
            (by rw [C.adj]; exact fun j hj => hj) g q' (BFSInv_tail C) hdu
        rw [bfsVisit_eq_foldl] at hdt ⊢
        apply ih _ _ F1 ?_ ?_ hdt
        · intro w hwV hwd hwq
          rcases F3 w hwd with hold | hmem
          · by_cases hwu : w = u
            · rw [hwu]
              intro j hj hres
              apply F5 j
              · have hadjF : ((g.adjacency_list.getD u []).foldl
                    (MaximumFlow.bfsStep u) (g, q')).1.adjacency_list =
                    g.adjacency_list := by
                  rw [F1.adj, C.adj]
                rw [hadjF] at hj
                exact hj
              · exact hres
            · have hwq' : w ∉ q' := by
                intro hc
                exact hwq (F6 w hc)
              have hrel : g.Relaxed w := by
                apply hcl w ?_ hold
                · intro hc
                  rcases List.mem_cons.mp hc with hc1 | hc1
                  · exact hwu hc1
                  · exact hwq' hc1
                · rw [F1.vert, ← C.vert] at hwV
                  exact hwV
              refine relaxed_mono ?_ ?_ F2 hrel
              · rw [F1.edges, C.edges]
              · rw [F1.adj, C.adj]
          · exact absurd hmem hwq
        · have hcard := F4
          omega

/-- The state `BFS(s, t)` enters its queue loop with satisfies the queue
invariant for the singleton queue `[s]`. -/
theorem BFS_init_inv (g : MaximumFlow) (s : ℕ) :
    BFSInv g s { g with
      distances := (List.replicate g.vertices (-1 : ℤ)).set s 0,
      points := List.replicate g.vertices ((-1 : ℤ), (-1 : ℤ)) } [s] := by
  have hd : ∀ v : ℕ,
      (((List.replicate g.vertices (-1 : ℤ)).set s 0).getD v (-1)) =
        if v = s ∧ s < g.vertices then 0 else -1 := by
    intro v
    rw [getD_set]
    by_cases hv : v = s ∧ s < (List.replicate g.vertices (-1 : ℤ)).length
    · rw [if_pos hv, if_pos ⟨hv.1, by simpa using hv.2⟩]
    · rw [if_neg hv, if_neg (by simpa using hv), getD_replicate]
      split <;> rfl
  refine ⟨⟨?_, ?_, ?_, ?_, ?_⟩, rfl, rfl, rfl, rfl, rfl, ?_, ?_⟩
  · show ((List.replicate g.vertices (-1 : ℤ)).set s 0).length = g.vertices
    rw [List.length_set, List.length_replicate]
  · show (List.replicate g.vertices ((-1 : ℤ), (-1 : ℤ))).length = g.vertices
    rw [List.length_replicate]
  · intro v
    show ((List.replicate g.vertices (-1 : ℤ)).set s 0).getD v (-1) = -1 ∨
      0 ≤ ((List.replicate g.vertices (-1 : ℤ)).set s 0).getD v (-1)
    rw [hd v]
    split
    · right; omega
    · left; rfl
  · intro v hvV hv0
    have hv0' : ((List.replicate g.vertices (-1 : ℤ)).set s 0).getD v (-1) = 0 := hv0
    rw [hd v] at hv0'
    by_cases hv : v = s ∧ s < g.vertices
    · exact hv.1
    · rw [if_neg hv] at hv0'
      omega
  · intro v hvV hvs hvd
    exfalso
    have hvd' : 0 ≤ ((List.replicate g.vertices (-1 : ℤ)).set s 0).getD v (-1) := hvd
    rw [hd v, if_neg (fun hc => hvs hc.1)] at hvd'
    omega
  · intro hsV
    show ((List.replicate g.vertices (-1 : ℤ)).set s 0).getD s (-1) = 0
    rw [hd s, if_pos ⟨rfl, hsV⟩]
  · intro x hx
    right
    exact List.mem_singleton.mp hx

theorem BFS_dists_s_oor (g : MaximumFlow) (s t : ℕ) (hwf : g.WFgraph)
    (hs : g.vertices ≤ s) : ∀ v : ℕ, (g.BFS s t).2.distAt v = -1 := by
  intro v
  unfold MaximumFlow.BFS
  dsimp only
  set g₁ : MaximumFlow := { g with
    distances := (List.replicate g.vertices (-1 : ℤ)).set s 0,
    points := List.replicate g.vertices ((-1 : ℤ), (-1 : ℤ)) } with hg₁
  have hd : ∀ w : ℕ, g₁.distAt w = -1 := by
    intro w
    show ((List.replicate g.vertices (-1 : ℤ)).set s 0).getD w (-1) = -1
    rw [getD_set]
    rw [if_neg (fun hc => absurd hc.2 (by rw [List.length_replicate]; omega))]
    rw [getD_replicate]
    split <;> rfl
  have hloop : ∀ fuel : ℕ, MaximumFlow.bfsLoop (fuel + 2) g₁ t [s] = g₁ := by
    intro fuel
    show MaximumFlow.bfsLoop (fuel + 1 + 1) g₁ t [s] = g₁
    simp only [MaximumFlow.bfsLoop]
    by_cases hst : s = t
    · rw [if_pos hst]
    · rw [if_neg hst]
      have hoor : g₁.adjacency_list.length ≤ s := by
        show g.adjacency_list.length ≤ s
        rw [hwf.adjLen]
        exact hs
      rw [bfsVisit_oor g₁ s [] hoor]
      show MaximumFlow.bfsLoop (fuel + 1) g₁ t [] = g₁
      rfl
  rw [hloop g.vertices]
  exact hd v

/-- When `BFS(s, t)` answers `false`, its output labelling is closed and
leaves the sink unreached. -/
theorem BFS_closed (g : MaximumFlow) (s t : ℕ) (hwf : g.WFgraph)
    (hflag : (g.BFS s t).1 = false) :
    (g.BFS s t).2.LevelClosed ∧ (g.BFS s t).2.distAt t = -1 := by
  have hdt : (g.BFS s t).2.distAt t = -1 := by
    have hdec : decide ((g.BFS s t).2.distAt t ≠ -1) = false := hflag
    exact not_not.mp (of_decide_eq_false hdec)
  refine ⟨?_, hdt⟩
  by_cases hsV : s < g.vertices
  · unfold MaximumFlow.BFS at hdt ⊢
    dsimp only at hdt ⊢
    apply bfsLoop_closed g s t hwf hsV (g.vertices + 2) _ [s]
      (BFS_init_inv g s) ?_ ?_ hdt
    · intro w hwV hwd hwq
      exfalso
      have hdw : ({ g with
          distances := (List.replicate g.vertices (-1 : ℤ)).set s 0,
          points := List.replicate g.vertices ((-1 : ℤ), (-1 : ℤ)) } :
            MaximumFlow).distAt w =
          if w = s ∧ s < g.vertices then 0 else -1 := by
        show ((List.replicate g.vertices (-1 : ℤ)).set s 0).getD w (-1) = _
        rw [getD_set]
        by_cases hv : w = s ∧ s < (List.replicate g.vertices (-1 : ℤ)).length
        · rw [if_pos hv, if_pos ⟨hv.1, by simpa using hv.2⟩]
        · rw [if_neg hv, if_neg (by simpa using hv), getD_replicate]
          split <;> rfl
      have hws : w ≠ s := fun hc => hwq (hc ▸ List.mem_singleton.mpr rfl)
      rw [hdw, if_neg (fun hc => hws hc.1)] at hwd
      omega
    · have hcle : ({ g with
          distances := (List.replicate g.vertices (-1 : ℤ)).set s 0,
          points := List.replicate g.vertices ((-1 : ℤ), (-1 : ℤ)) } :
            MaximumFlow).unreachedSet.card ≤ g.vertices := by
        unfold MaximumFlow.unreachedSet
        exact le_trans (Finset.card_filter_le _ _) (le_of_eq (Finset.card_range _))
      show _ + [s].length < g.vertices + 2
      simp only [List.length_singleton]
      omega
  · intro w hwV hwd
    exfalso
    have := BFS_dists_s_oor g s t hwf (by omega) w
    omega

/-- Full account of a terminating `edmonds_karp` loop from a well-formed
state: the result is the sink inflow of the final state, the invariants
survive, and the final state is a `BFS` output that answers `false` — its
labelling is closed with the source at level `0` and the sink unreached.
The defensive zero-push break never fires: after a successful `BFS`, the
recorded path has positive bottleneck. -/
theorem ekLoop_value (s t : ℕ) (hst : s ≠ t) :
    ∀ (fuel : ℕ) (g : MaximumFlow) (mf : ℤ) (res : WithTop ℤ × MaximumFlow),
    MaximumFlow.ekLoop fuel g s t ((mf : ℤ) : WithTop ℤ) = some res →
    RunInv s t g → g.FlowLeCap → g.FullAdj →
    s < g.vertices → mf = g.inflow t →
    res.1 = ((res.2.inflow t : ℤ) : WithTop ℤ) ∧
    RunInv s t res.2 ∧ res.2.FlowLeCap ∧ res.2.FullAdj ∧
    SameShape g res.2 ∧ res.2.LevelClosed ∧
    res.2.distAt t = -1 ∧ res.2.distAt s = 0 := by
  intro fuel
  induction fuel with
  | zero =>
    intro g mf res hres _ _ _ _ _
    exact absurd hres (by simp [MaximumFlow.ekLoop])
  | succ fuel ih =>
    intro g mf res hres hinv hC hfa hsV hmf
    simp only [MaximumFlow.ekLoop] at hres
    set b := g.BFS s t with hbdef
    have hpost : BFSInv g s b.2 [] := BFS_post g s t hinv.wf
    have hwf2 : b.2.WFgraph := wf_congr hpost.edges hpost.adj hpost.vert hinv.wf
    have hanti2 : b.2.Antisym := antisym_congr hpost.edges hinv.anti
    have hinv2 : RunInv s t b.2 := ⟨hwf2, hanti2, fun v hv1 hv2 => by
      rw [inflow_congr hpost.edges]
      exact hinv.ze v hv1 hv2⟩
    have hshape2 : SameShape g b.2 := BFS_shape g s t hinv.wf
    have hC2 : b.2.FlowLeCap := flowLeCap_congr hpost.edges hC
    have hfa2 : b.2.FullAdj := fullAdj_of_sameShape hshape2 hfa
    have hmf2 : mf = b.2.inflow t := by
      rw [inflow_congr hpost.edges]
      exact hmf
    by_cases hbt : b.1 = true
    · rw [if_pos hbt] at hres
      obtain ⟨htV, hdt⟩ := BFS_reached g s t hinv.wf hbt
      have hts : t ≠ s := Ne.symm hst
      have hnz : ¬ ((t : ℤ) = (s : ℤ)) := fun hc => hts (Nat.cast_inj.mp hc)
      obtain ⟨u, idx, hpts, huV, hidx, hhead, hhead1, hdu, hdv, hresid⟩ :=
        hpost.ctx.pv t htV hts hdt
      have hentry := sof_entry_eq b.2 s t hnz u idx hpts
      rw [hentry] at hres
      dsimp only at hres
      set rfin := MaximumFlow.send_one_flow_fin (b.2.vertices + 3) b.2 s (t : ℤ)
        (b.2.capAt idx - b.2.flowAt idx) with hrfin
      have P : SOFPost b.2 rfin.2 s t rfin.1 :=
        sof_fin_post _ b.2 s t _ hwf2 hpost.ctx (Or.inr ⟨htV, hdt⟩)
      have hdbound : b.2.distAt t < (b.2.vertices : ℤ) :=
        dist_lt_vertices b.2 s hpost.ctx hpost.hs t htV hdt
      have hppos : 0 < rfin.1 :=
        sof_fin_pos (b.2.vertices + 3) b.2 s t _ hpost.ctx (Or.inr ⟨htV, hdt⟩)
          (by omega) (by omega)
      have hz : ¬ (((rfin.1 : ℤ) : WithTop ℤ) = 0) := by
        intro hc
        have hz' : rfin.1 = 0 := by exact_mod_cast hc
        omega
      rw [if_neg hz] at hres
      have hinv3 : RunInv s t rfin.2 := by
        refine ⟨WFgraph_of_sameShape P.shape hwf2, P.anti hanti2, ?_⟩
        intro v hv1 hv2
        rw [P.exc v, if_neg hv2, if_neg hv1, hinv2.ze v hv1 hv2]
        ring
      have hC3 : rfin.2.FlowLeCap :=
        (sof_fin_bounds _ b.2 s t _ hwf2 hpost.ctx (Or.inr ⟨htV, hdt⟩) hC2
          (by have := hC2 idx; omega)).2.2
      have hfa3 : rfin.2.FullAdj := fullAdj_of_sameShape P.shape hfa2
      have hsV3 : s < rfin.2.vertices := by
        rw [P.shape.vert, hpost.vert]
        exact hsV
      have hmf3 : mf + rfin.1 = rfin.2.inflow t := by
        rw [P.exc t, if_pos rfl, if_neg hts, hmf2]
        ring
      rw [show ((mf : ℤ) : WithTop ℤ) + ((rfin.1 : ℤ) : WithTop ℤ)
          = (((mf + rfin.1 : ℤ)) : WithTop ℤ) from
        (WithTop.coe_add mf rfin.1).symm] at hres
      obtain ⟨V1, V2, V3, V4, V5, V6, V7, V8⟩ :=
        ih rfin.2 (mf + rfin.1) res hres hinv3 hC3 hfa3 hsV3 hmf3
      exact ⟨V1, V2, V3, V4, (hshape2.trans P.shape).trans V5, V6, V7, V8⟩
    · rw [if_neg hbt] at hres
      obtain rfl := Option.some.inj hres
      have hflagF : b.1 = false := by
        revert hbt
        cases b.1 <;> simp
      obtain ⟨hcl, hdtf⟩ := BFS_closed g s t hinv.wf (by rw [← hbdef]; exact hflagF)
      rw [← hbdef] at hcl hdtf
      refine ⟨?_, hinv2, hC2, hfa2, hshape2, hcl, hdtf, ?_⟩
      · show ((mf : ℤ) : WithTop ℤ) = ((b.2.inflow t : ℤ) : WithTop ℤ)
        rw [hmf2]
      · exact hpost.hs (by rw [hpost.vert]; exact hsV)

/-- The blocking-flow inner loop, fed finite pushes, accumulates exactly the
sink inflow and preserves all run invariants. -/
theorem dinicInner_value (s t : ℕ) (hst : s ≠ t) :
    ∀ (fuel : ℕ) (g : MaximumFlow) (mf p : ℤ) (res : WithTop ℤ × MaximumFlow),
    MaximumFlow.dinicInner fuel g s t ((mf : ℤ) : WithTop ℤ)
      ((p : ℤ) : WithTop ℤ) = some res →
    RunInv s t g → g.FlowLeCap → g.FullAdj →
    mf + p = g.inflow t →
    res.1 = ((res.2.inflow t : ℤ) : WithTop ℤ) ∧
    RunInv s t res.2 ∧ res.2.FlowLeCap ∧ res.2.FullAdj ∧ SameShape g res.2 := by
  intro fuel
  induction fuel with
  | zero =>
    intro g mf p res hres _ _ _ _
    exact absurd hres (by simp [MaximumFlow.dinicInner])
  | succ fuel ih =>
    intro g mf p res hres hinv hC hfa hmf
    simp only [MaximumFlow.dinicInner] at hres
    by_cases hp0 : p = 0
    · have hcond : ((p : ℤ) : WithTop ℤ) = 0 := by
        rw [hp0]
        exact WithTop.coe_zero
      rw [if_pos hcond] at hres
      obtain rfl := Option.some.inj hres
      refine ⟨?_, hinv, hC, hfa, SameShape.refl g⟩
      show ((mf : ℤ) : WithTop ℤ) = ((g.inflow t : ℤ) : WithTop ℤ)
      rw [show mf = g.inflow t from by omega]
    · have hcond : ¬ (((p : ℤ) : WithTop ℤ) = 0) := by
        intro hc
        exact hp0 (by exact_mod_cast hc)
      rw [if_neg hcond] at hres
      rcases DFS_entry_cases g s t hinv.wf with ⟨hstq, _⟩ | ⟨_, pp, hp1, hP, hB⟩
      · exact absurd hstq hst
      · rw [hp1, ← WithTop.coe_add] at hres
        have hinv4 : RunInv s t (g.DFS s t).2 := runInv_of_dfspost hP hinv
        have hC4 : (g.DFS s t).2.FlowLeCap := (hB hC).2
        have hfa4 : (g.DFS s t).2.FullAdj := fullAdj_of_sameShape hP.shape hfa
        have hmf4 : (mf + p) + pp = (g.DFS s t).2.inflow t := by
          rw [hP.exc t, if_pos rfl, if_neg (Ne.symm hst), ← hmf]
          ring
        obtain ⟨V1, V2, V3, V4, V5⟩ :=
          ih (g.DFS s t).2 (mf + p) pp res hres hinv4 hC4 hfa4 hmf4
        exact ⟨V1, V2, V3, V4, hP.shape.trans V5⟩

/-- Full account of a terminating `dinic` loop, mirroring `ekLoop_value`:
the result is the final sink inflow and the final state is a closed `BFS`
output with the sink unreached. -/
theorem dinicLoop_value (s t : ℕ) (hst : s ≠ t) :
    ∀ (fuel : ℕ) (g : MaximumFlow) (mf : ℤ) (res : WithTop ℤ × MaximumFlow),
    MaximumFlow.dinicLoop fuel g s t ((mf : ℤ) : WithTop ℤ) = some res →
    RunInv s t g → g.FlowLeCap → g.FullAdj →
    s < g.vertices → mf = g.inflow t →
    res.1 = ((res.2.inflow t : ℤ) : WithTop ℤ) ∧
    RunInv s t res.2 ∧ res.2.FlowLeCap ∧ res.2.FullAdj ∧
    SameShape g res.2 ∧ res.2.LevelClosed ∧
    res.2.distAt t = -1 ∧ res.2.distAt s = 0 := by
  intro fuel
  induction fuel with
  | zero =>
    intro g mf res hres _ _ _ _ _
    exact absurd hres (by simp [MaximumFlow.dinicLoop])
  | succ fuel ih =>
    intro g mf res hres hinv hC hfa hsV hmf
    simp only [MaximumFlow.dinicLoop] at hres
    set b := g.BFS s t with hbdef
    have hpost : BFSInv g s b.2 [] := BFS_post g s t hinv.wf
    have hwf2 : b.2.WFgraph := wf_congr hpost.edges hpost.adj hpost.vert hinv.wf
    have hanti2 : b.2.Antisym := antisym_congr hpost.edges hinv.anti
    have hinv2 : RunInv s t b.2 := ⟨hwf2, hanti2, fun v hv1 hv2 => by
      rw [inflow_congr hpost.edges]
      exact hinv.ze v hv1 hv2⟩
    have hshape2 : SameShape g b.2 := BFS_shape g s t hinv.wf
    have hC2 : b.2.FlowLeCap := flowLeCap_congr hpost.edges hC
    have hfa2 : b.2.FullAdj := fullAdj_of_sameShape hshape2 hfa
    have hmf2 : mf = b.2.inflow t := by
      rw [inflow_congr hpost.edges]
      exact hmf
    by_cases hbt : b.1 = true
    · rw [if_pos hbt] at hres
      set g₁ : MaximumFlow := { b.2 with
        last := List.replicate b.2.vertices 0 } with hg₁
      have he1 : g₁.edge_list = b.2.edge_list := rfl
      have ha1 : g₁.adjacency_list = b.2.adjacency_list := rfl
      have hv1 : g₁.vertices = b.2.vertices := rfl
      have hwf3 : g₁.WFgraph := wf_congr he1 ha1 hv1 hwf2
      have hshape3 : SameShape b.2 g₁ :=
        ⟨hv1, ha1, by rw [he1], fun i => headAt_congr he1 i,
         fun i => capAt_congr he1 i, rfl⟩
      have hinv3 : RunInv s t g₁ := ⟨hwf3, antisym_congr he1 hinv2.anti,
        fun v h1 h2 => by
          rw [inflow_congr he1]
          exact hinv2.ze v h1 h2⟩
      have hC3 : g₁.FlowLeCap := flowLeCap_congr he1 hC2
      have hfa3 : g₁.FullAdj := fullAdj_of_sameShape hshape3 hfa2
      rcases DFS_entry_cases g₁ s t hwf3 with ⟨hstq, _⟩ | ⟨_, pp, hp1, hP, hB⟩
      · exact absurd hstq hst
      · rw [hp1] at hres
        have hinv4 : RunInv s t (g₁.DFS s t).2 := runInv_of_dfspost hP hinv3
        have hC4 : (g₁.DFS s t).2.FlowLeCap := (hB hC3).2
        have hfa4 : (g₁.DFS s t).2.FullAdj := fullAdj_of_sameShape hP.shape hfa3
        have hmf4 : mf + pp = (g₁.DFS s t).2.inflow t := by
          rw [hP.exc t, if_pos rfl, if_neg (Ne.symm hst), inflow_congr he1,
            ← hmf2]
          ring
        rcases hdi : MaximumFlow.dinicInner fuel (g₁.DFS s t).2 s t
            ((mf : ℤ) : WithTop ℤ) ((pp : ℤ) : WithTop ℤ) with _ | q
        · rw [hdi] at hres
          exact absurd hres (by simp)
        · rw [hdi] at hres
          dsimp only at hres
          obtain ⟨W1, W2, W3, W4, W5⟩ :=
            dinicInner_value s t hst fuel (g₁.DFS s t).2 mf pp q hdi hinv4 hC4
              hfa4 hmf4
          rw [W1] at hres
          have hsV5 : s < q.2.vertices := by
            rw [W5.vert, hP.shape.vert, hv1, hpost.vert]
            exact hsV
          obtain ⟨V1, V2, V3, V4, V5, V6, V7, V8⟩ :=
            ih q.2 (q.2.inflow t) res hres W2 W3 W4 hsV5 rfl
          refine ⟨V1, V2, V3, V4, ?_, V6, V7, V8⟩
          exact ((hshape2.trans hshape3).trans hP.shape).trans (W5.trans V5)
    · rw [if_neg hbt] at hres
      obtain rfl := Option.some.inj hres
      have hflagF : b.1 = false := by
        revert hbt
        cases b.1 <;> simp
      obtain ⟨hcl, hdtf⟩ := BFS_closed g s t hinv.wf (by rw [← hbdef]; exact hflagF)
      rw [← hbdef] at hcl hdtf
      refine ⟨?_, hinv2, hC2, hfa2, hshape2, hcl, hdtf, ?_⟩
      · show ((mf : ℤ) : WithTop ℤ) = ((b.2.inflow t : ℤ) : WithTop ℤ)
        rw [hmf2]
      · exact hpost.hs (by rw [hpost.vert]; exact hsV)


/-- Both entry points, run from the same built store with non-negative
capacities, return the same total: each terminating run ends at a closed
`BFS` labelling, so each value equals its own saturated cut and weak
duality squeezes the two values together. -/
theorem run_values_eq {g : MaximumFlow} {s t fuel₁ fuel₂ : ℕ}
    {v₁ v₂ : WithTop ℤ} {g₁ g₂ : MaximumFlow} (hb : Built g)
    (hcap : ∀ i : ℕ, 0 ≤ g.capAt i)
    (hok₁ : g.edmonds_karp s t fuel₁ = some (Except.ok v₁, g₁))
    (hok₂ : g.dinic s t fuel₂ = some (Except.ok v₂, g₂)) : v₁ = v₂ := by
  have hloop₁ := edmonds_karp_ok hb hok₁
  have hloop₂ := dinic_ok hb hok₂
  set gT : MaximumFlow := { g with has_been_run := true } with hgT
  have hwfT : gT.WFgraph :=
    wf_congr (show gT.edge_list = g.edge_list from rfl)
      (show gT.adjacency_list = g.adjacency_list from rfl)
      (show gT.vertices = g.vertices from rfl) (Built_wf hb)
  by_cases hsV : s < g.vertices
  · by_cases hstq : s = t
    · exfalso
      rw [← hstq] at hloop₁
      rw [ekLoop_self_none s fuel₁ gT 0 hwfT hsV] at hloop₁
      exact Option.noConfusion hloop₁
    · by_cases htV : t < g.vertices
      · have hrunI : RunInv s t gT := Built_runInv hb s t
        have hCT : gT.FlowLeCap :=
          flowLeCap_congr (show gT.edge_list = g.edge_list from rfl)
            (Built_flowLeCap hb hcap)
        have hfaT : gT.FullAdj :=
          fullAdj_congr (show gT.edge_list = g.edge_list from rfl)
            (show gT.adjacency_list = g.adjacency_list from rfl)
            (Built_fullAdj hb)
        have hmfT : (0 : ℤ) = gT.inflow t := by
          rw [inflow_congr (show gT.edge_list = g.edge_list from rfl),
            Built_inflow hb t]
        rw [← WithTop.coe_zero] at hloop₁ hloop₂
        obtain ⟨E1, E2, E3, E4, E5, E6, E7, E8⟩ :=
          ekLoop_value s t hstq fuel₁ gT 0 (v₁, g₁) hloop₁ hrunI hCT hfaT hsV hmfT
        obtain ⟨D1, D2, D3, D4, D5, D6, D7, D8⟩ :=
          dinicLoop_value s t hstq fuel₂ gT 0 (v₂, g₂) hloop₂ hrunI hCT hfaT hsV
            hmfT
        have hle₁ : g₁.inflow t ≤ g₂.inflow t :=
          final_value_le s t hstq g₁ g₂ E2.wf E2.anti E2.ze E3 D2.wf D4 D2.anti
            D2.ze D6 D8 D7 (by rw [E5.vert]; exact hsV)
            (by rw [E5.vert]; exact htV)
            (E5.elen.trans D5.elen.symm)
            (fun i => (E5.heads i).trans (D5.heads i).symm)
            (fun i => (E5.caps i).trans (D5.caps i).symm)
            (E5.vert.trans D5.vert.symm)
        have hle₂ : g₂.inflow t ≤ g₁.inflow t :=
          final_value_le s t hstq g₂ g₁ D2.wf D2.anti D2.ze D3 E2.wf E4 E2.anti
            E2.ze E6 E8 E7 (by rw [D5.vert]; exact hsV)
            (by rw [D5.vert]; exact htV)
            (D5.elen.trans E5.elen.symm)
            (fun i => (D5.heads i).trans (E5.heads i).symm)
            (fun i => (D5.caps i).trans (E5.caps i).symm)
            (D5.vert.trans E5.vert.symm)
        have heq : g₁.inflow t = g₂.inflow t := le_antisymm hle₁ hle₂
        have hv1 : v₁ = ((g₁.inflow t : ℤ) : WithTop ℤ) := E1
        have hv2 : v₂ = ((g₂.inflow t : ℤ) : WithTop ℤ) := D1
        rw [hv1, hv2, heq]
      · have hflag : (gT.BFS s t).1 = false :=
          BFS_flag_t_oor gT s t hwfT (by show g.vertices ≤ t; omega)
        rw [ek_value_first_false hb hok₁ hflag,
          dinic_value_first_false hb hok₂ hflag]
  · have hflag : (gT.BFS s t).1 = false :=
      BFS_flag_s_oor gT s t hwfT (by show g.vertices ≤ s; omega)
    rw [ek_value_first_false hb hok₁ hflag,
      dinic_value_first_false hb hok₂ hflag]

/-! ### The specified properties -/

/-- Claim C2: on the 3-vertex store with directed edges `0→1` cap 3,
`0→2` cap 3 and `1→2` cap 3, both `edmonds_karp(0, 2)` and `dinic(0, 2)`
return a maximum flow of exactly 6. -/
theorem C2_concrete_maxflow_six :
    (g3.edmonds_karp 0 2 30).map (fun p => p.1) = some (Except.ok 6) ∧
    (g3.dinic 0 2 30).map (fun p => p.1) = some (Except.ok 6) :=
  ⟨rfl, rfl⟩

/-- Claim C3: after a completed `edmonds_karp` or `dinic` run on a store
built only by `add_edge` calls, flow is conserved at every vertex other
than the source and the sink: the flow leaving the vertex through the
store equals the flow entering it. -/
theorem C3_flow_conservation :
    ∀ (g : MaximumFlow) (s t fuel : ℕ) (mf : WithTop ℤ) (g' : MaximumFlow),
    Built g →
    (g.edmonds_karp s t fuel = some (Except.ok mf, g') ∨
     g.dinic s t fuel = some (Except.ok mf, g')) →
    ∀ v : ℕ, v ≠ s → v ≠ t → g'.outflow v = g'.inflow v := by
  intro g s t fuel mf g' hb hok v hvs hvt
  obtain ⟨hinv, _, _⟩ := run_final_inv hb hok
  have hz : g'.inflow v = 0 := hinv.ze v hvs hvt
  rw [outflow_eq_neg_inflow hinv.wf.evenLen hinv.anti, hz, neg_zero]

theorem C3_flow_conservation_witness :
    Built g3 ∧ g3ek.outflow 1 = g3ek.inflow 1 :=
  ⟨g3_built,
   C3_flow_conservation g3 0 2 30 6 g3ek g3_built (Or.inl rfl) 1
     (by decide) (by decide)⟩

/-- Claim C4: the reverse-pair invariant `flow[i] == -flow[i ^ 1]` holds
throughout: at construction, after every `add_edge` on a built store, after
every `BFS`, after every (finite-cap) `send_one_flow` step, after every
`DFS` step, and at the end of every completed run of either algorithm. -/
theorem C4_reverse_pair_invariant :
    (∀ V : ℕ, (MaximumFlow.init V).Antisym) ∧
    (∀ (g : MaximumFlow) (u v : ℕ) (c : ℤ) (d : Bool), Built g →
      (g.add_edge u v c d).Antisym) ∧
    (∀ (g : MaximumFlow) (s t : ℕ), g.Antisym → (g.BFS s t).2.Antisym) ∧
    (∀ (fuel : ℕ) (g : MaximumFlow) (s tv : ℕ) (f : ℤ),
      g.WFgraph → g.PathCtx s →
      (tv = s ∨ (tv < g.vertices ∧ 0 ≤ g.distAt tv)) → g.Antisym →
      (MaximumFlow.send_one_flow_fin fuel g s (tv : ℤ) f).2.Antisym) ∧
    (∀ (fuel : ℕ) (g : MaximumFlow) (u t : ℕ) (f : ℤ) (mode : Option ℕ),
      g.WFgraph → g.Antisym →
      (MaximumFlow.dfsAux fuel g u t f mode).2.Antisym) ∧
    (∀ (g : MaximumFlow) (s t fuel : ℕ) (mf : WithTop ℤ) (g' : MaximumFlow),
      Built g →
      (g.edmonds_karp s t fuel = some (Except.ok mf, g') ∨
       g.dinic s t fuel = some (Except.ok mf, g')) →
      g'.Antisym) := by
  refine ⟨?_, ?_, ?_, ?_, ?_, ?_⟩
  · intro V
    exact Built_antisym (Built.base V)
  · intro g u v c d hb
    exact antisym_of_flows_zero (add_edge_flows_zero (Built_flows hb) u v c d)
  · intro g s t ha
    exact antisym_congr (BFS_fields g s t).1 ha
  · intro fuel g s tv f hwf hctx hpre ha
    exact (sof_fin_post fuel g s tv f hwf hctx hpre).anti ha
  · intro fuel g u t f mode hwf ha
    exact (dfs_post fuel g u t f mode hwf).anti ha
  · intro g s t fuel mf g' hb hok
    exact (run_final_inv hb hok).1.anti

theorem C4_reverse_pair_invariant_witness :
    Built g3 ∧ g3ek.flowAt (0 ^^^ 1) = - g3ek.flowAt 0 :=
  ⟨g3_built,
   C4_reverse_pair_invariant.2.2.2.2.2 g3 0 2 30 6 g3ek g3_built (Or.inl rfl) 0⟩

/-- Claim C5, counterexample: on the single directed edge `0→1` with
capacity 5 (all capacities non-negative), running `edmonds_karp(0, 1)`
leaves the reverse entry (index 1) with flow `-5`, so `0 <= flow` is false
for that stored edge. -/
theorem C5_capacity_counterexample : g1ek.flowAt 1 < 0 := by decide

/-- Claim C5 as amended: with non-negative capacities, every stored entry
(forward and reverse) keeps `-capacity[i ^ 1] <= flow[i] <= capacity[i]`
at all times during and after a run: at construction, across every `BFS`,
after every (finite-cap) `send_one_flow` step, after every `DFS` step, and
at the end of every completed run of either algorithm.  Only the lower
bound of the original claim is wrong: `0 <= flow[i]` fails on reverse
entries, whose flow goes negative as flow is pushed. -/
theorem C5_capacity_bounds :
    (∀ g : MaximumFlow, Built g → (∀ i : ℕ, 0 ≤ g.capAt i) →
      ∀ i : ℕ, - g.capAt (i ^^^ 1) ≤ g.flowAt i ∧ g.flowAt i ≤ g.capAt i) ∧
    (∀ (g : MaximumFlow) (s t : ℕ), g.Antisym → g.FlowLeCap →
      ∀ i : ℕ, - (g.BFS s t).2.capAt (i ^^^ 1) ≤ (g.BFS s t).2.flowAt i ∧
        (g.BFS s t).2.flowAt i ≤ (g.BFS s t).2.capAt i) ∧
    (∀ (fuel : ℕ) (g : MaximumFlow) (s tv : ℕ) (f : ℤ),
      g.WFgraph → g.PathCtx s →
      (tv = s ∨ (tv < g.vertices ∧ 0 ≤ g.distAt tv)) →
      g.Antisym → g.FlowLeCap → 0 ≤ f →
      ∀ i : ℕ,
        - (MaximumFlow.send_one_flow_fin fuel g s (tv : ℤ) f).2.capAt (i ^^^ 1) ≤
          (MaximumFlow.send_one_flow_fin fuel g s (tv : ℤ) f).2.flowAt i ∧
        (MaximumFlow.send_one_flow_fin fuel g s (tv : ℤ) f).2.flowAt i ≤
          (MaximumFlow.send_one_flow_fin fuel g s (tv : ℤ) f).2.capAt i) ∧
    (∀ (fuel : ℕ) (g : MaximumFlow) (u t : ℕ) (f : ℤ) (mode : Option ℕ),
      g.WFgraph → g.Antisym → g.FlowLeCap → 0 ≤ f →
      ∀ i : ℕ,
        - (MaximumFlow.dfsAux fuel g u t f mode).2.capAt (i ^^^ 1) ≤
          (MaximumFlow.dfsAux fuel g u t f mode).2.flowAt i ∧
        (MaximumFlow.dfsAux fuel g u t f mode).2.flowAt i ≤
          (MaximumFlow.dfsAux fuel g u t f mode).2.capAt i) ∧
    (∀ (g : MaximumFlow) (s t fuel : ℕ) (mf : WithTop ℤ) (g' : MaximumFlow),
      Built g → (∀ i : ℕ, 0 ≤ g.capAt i) →
      (g.edmonds_karp s t fuel = some (Except.ok mf, g') ∨
       g.dinic s t fuel = some (Except.ok mf, g')) →
      ∀ i : ℕ, - g'.capAt (i ^^^ 1) ≤ g'.flowAt i ∧ g'.flowAt i ≤ g'.capAt i) := by
  have key : ∀ {h : MaximumFlow}, h.Antisym → h.FlowLeCap →
      ∀ i : ℕ, - h.capAt (i ^^^ 1) ≤ h.flowAt i ∧ h.flowAt i ≤ h.capAt i := by
    intro h ha hC i
    constructor
    · have h1 := ha i
      have h2 := hC (i ^^^ 1)
      omega
    · exact hC i
  refine ⟨?_, ?_, ?_, ?_, ?_⟩
  · intro g hb hc
    exact key (Built_antisym hb) (Built_flowLeCap hb hc)
  · intro g s t ha hC
    exact key (antisym_congr (BFS_fields g s t).1 ha)
      (flowLeCap_congr (BFS_fields g s t).1 hC)
  · intro fuel g s tv f hwf hctx hpre ha hC hf
    exact key ((sof_fin_post fuel g s tv f hwf hctx hpre).anti ha)
      ((sof_fin_bounds fuel g s tv f hwf hctx hpre hC hf).2.2)
  · intro fuel g u t f mode hwf ha hC hf
    exact key ((dfs_post fuel g u t f mode hwf).anti ha)
      ((dfs_bounds fuel g u t f mode hwf hC hf).2.2)
  · intro g s t fuel mf g' hb hc hok
    obtain ⟨hinv, hC, _⟩ := run_final_inv hb hok
    exact key hinv.anti (hC hc)

theorem C5_capacity_bounds_witness :
    Built g1 ∧ - g1ek.capAt (1 ^^^ 1) ≤ g1ek.flowAt 1 ∧ g1ek.flowAt 1 ≤ g1ek.capAt 1 :=
  ⟨g1_built,
   C5_capacity_bounds.2.2.2.2 g1 0 1 30 5 g1ek g1_built
     (capsNonneg_of_bounded g1 (by decide)) (Or.inl rfl) 1⟩

/-- Claim C6: once either entry point has completed on an instance, calling
either entry point again on that same instance raises the invalid-state
exception and returns with the stored state (in particular every flow
value) unchanged. -/
theorem C6_rerun_guard :
    ∀ (g : MaximumFlow) (s t fuel : ℕ) (mf : WithTop ℤ) (g' : MaximumFlow),
    (g.edmonds_karp s t fuel = some (Except.ok mf, g') ∨
     g.dinic s t fuel = some (Except.ok mf, g')) →
    ∀ (s' t' fuel' : ℕ),
      g'.edmonds_karp s' t' fuel' = some (Except.error rerunMsg, g') ∧
      g'.dinic s' t' fuel' = some (Except.error rerunMsg, g') := by
  intro g s t fuel mf g' hok s' t' fuel'
  have hf : g'.has_been_run = true := by
    rcases hok with hok | hok
    · exact ek_ok_flag hok
    · exact dinic_ok_flag hok
  exact run_on_done hf s' t' fuel'

theorem C6_rerun_guard_witness :
    (g3ek.edmonds_karp 0 2 5 = some (Except.error rerunMsg, g3ek)) ∧
    (g3ek.dinic 0 2 5 = some (Except.error rerunMsg, g3ek)) :=
  C6_rerun_guard g3 0 2 30 6 g3ek (Or.inl rfl) 0 2 5

/-- Claim C7, counterexample: `copy()` is a deep copy that also copies
`has_been_run`, so the copy of an instance that has completed a run is
itself in the `Done` state: invoking a run entry point on the copy raises
the invalid-state error instead of succeeding. -/
theorem C7_copy_counterexample :
    (g3ek.copy.edmonds_karp 0 2 30).map (fun p => p.1) =
      some (Except.error rerunMsg) := rfl

/-- Claim C7 as amended: `copy()` returns an identical independent value
(including the `has_been_run` flag, so a copy of a `Done` instance is still
`Done`); a copy taken while the instance is still `Ready` can be run and
never raises the invalid-state error, and since states are immutable
values, running the copy cannot modify the original. -/
theorem C7_copy_semantics :
    (∀ g : MaximumFlow, g.copy = g) ∧
    (∀ (g : MaximumFlow) (s t fuel : ℕ), g.has_been_run = false →
      ∀ (m : String) (st : MaximumFlow),
        g.copy.edmonds_karp s t fuel ≠ some (Except.error m, st) ∧
        g.copy.dinic s t fuel ≠ some (Except.error m, st)) := by
  refine ⟨fun g => rfl, ?_⟩
  intro g s t fuel hf m st
  exact ⟨(run_no_error hf s t fuel m st).1, (run_no_error hf s t fuel m st).2⟩

theorem C7_copy_semantics_witness :
    g3.has_been_run = false ∧
    g3.copy.edmonds_karp 0 2 30 ≠ some (Except.error rerunMsg, g3) :=
  ⟨rfl, (C7_copy_semantics.2 g3 0 2 30 rfl rerunMsg g3).1⟩

/-- Claim C8, counterexample: `send_one_flow` invoked with source equal to
sink does push no flow, but it returns its cap argument — the default
`INF`, not zero. -/
theorem C8_source_sink_counterexample :
    g3.send_one_flow 0 0 = ((⊤ : WithTop ℤ), g3) ∧ ((⊤ : WithTop ℤ) ≠ 0) :=
  ⟨rfl, by decide⟩

/-- Claim C8 as amended: `send_one_flow` with source equal to sink pushes
no flow (the store is returned unchanged) and returns the supplied flow
cap `f` — `INF` for the entry point's default argument — rather than zero. -/
theorem C8_source_sink_returns_cap :
    (∀ (g : MaximumFlow) (s : ℕ),
      g.send_one_flow s s = ((⊤ : WithTop ℤ), g)) ∧
    (∀ (fuel : ℕ) (g : MaximumFlow) (s : ℕ) (f : ℤ),
      MaximumFlow.send_one_flow_fin (fuel + 1) g s (s : ℤ) f = (f, g)) := by
  constructor
  · intro g s
    unfold MaximumFlow.send_one_flow
    rw [if_pos rfl]
  · intro fuel g s f
    simp only [MaximumFlow.send_one_flow_fin]
    rw [if_pos trivial]

/-- Claim C9: `add_edge(u, u, capacity, directed)` is a silent no-op for
every store and every vertex: no exception, no new edge, no adjacency
change — the store is returned unchanged. -/
theorem C9_self_loop_noop :
    ∀ (g : MaximumFlow) (u : ℕ) (c : ℤ) (d : Bool), g.add_edge u u c d = g := by
  intro g u c d
  unfold MaximumFlow.add_edge
  rw [if_pos rfl]

/-- Claim C10: with non-negative capacities, the residual capacity
`capacity[i] - flow[i]` of every stored entry — reverse entries included —
stays non-negative: initially, across `BFS`, across every `send_one_flow`
and `DFS` step, and at the end of every completed run. -/
theorem C10_residual_nonneg :
    (∀ g : MaximumFlow, Built g → (∀ i : ℕ, 0 ≤ g.capAt i) → g.FlowLeCap) ∧
    (∀ (g : MaximumFlow) (s t : ℕ), g.FlowLeCap → (g.BFS s t).2.FlowLeCap) ∧
    (∀ (fuel : ℕ) (g : MaximumFlow) (s tv : ℕ) (f : ℤ),
      g.WFgraph → g.PathCtx s →
      (tv = s ∨ (tv < g.vertices ∧ 0 ≤ g.distAt tv)) →
      g.FlowLeCap → 0 ≤ f →
      (MaximumFlow.send_one_flow_fin fuel g s (tv : ℤ) f).2.FlowLeCap) ∧
    (∀ (fuel : ℕ) (g : MaximumFlow) (u t : ℕ) (f : ℤ) (mode : Option ℕ),
      g.WFgraph → g.FlowLeCap → 0 ≤ f →
      (MaximumFlow.dfsAux fuel g u t f mode).2.FlowLeCap) ∧
    (∀ (g : MaximumFlow) (s t fuel : ℕ) (mf : WithTop ℤ) (g' : MaximumFlow),
      Built g → (∀ i : ℕ, 0 ≤ g.capAt i) →
      (g.edmonds_karp s t fuel = some (Except.ok mf, g') ∨
       g.dinic s t fuel = some (Except.ok mf, g')) →
      g'.FlowLeCap) := by
  refine ⟨?_, ?_, ?_, ?_, ?_⟩
  · intro g hb hc
    exact Built_flowLeCap hb hc
  · intro g s t hC
    exact flowLeCap_congr (BFS_fields g s t).1 hC
  · intro fuel g s tv f hwf hctx hpre hC hf
    exact (sof_fin_bounds fuel g s tv f hwf hctx hpre hC hf).2.2
  · intro fuel g u t f mode hwf hC hf
    exact (dfs_bounds fuel g u t f mode hwf hC hf).2.2
  · intro g s t fuel mf g' hb hc hok
    exact (run_final_inv hb hok).2.1 hc

theorem C10_residual_nonneg_witness :
    Built g3 ∧ g3ek.flowAt 1 ≤ g3ek.capAt 1 :=
  ⟨g3_built,
   C10_residual_nonneg.2.2.2.2 g3 0 2 30 6 g3ek g3_built
     (capsNonneg_of_bounded g3 (by decide)) (Or.inl rfl) 1⟩

/-- Claim C1: for every graph built by `add_edge` calls (the spec's
undefined-behaviour clause for negative capacities is reflected in the
non-negativity hypothesis) and every source and sink, whenever
`edmonds_karp(s, t)` and `dinic(s, t)` both complete on copies of the same
initial store, they return the same total flow value. -/
theorem C1_equal_flow_values :
    ∀ (g : MaximumFlow) (s t fuel₁ fuel₂ : ℕ) (v₁ v₂ : WithTop ℤ)
      (g₁ g₂ : MaximumFlow),
    Built g → (∀ i : ℕ, 0 ≤ g.capAt i) →
    g.edmonds_karp s t fuel₁ = some (Except.ok v₁, g₁) →
    g.dinic s t fuel₂ = some (Except.ok v₂, g₂) →
    v₁ = v₂ := by
  intro g s t fuel₁ fuel₂ v₁ v₂ g₁ g₂ hb hcap hok₁ hok₂
  exact run_values_eq hb hcap hok₁ hok₂

theorem C1_equal_flow_values_witness :
    Built g3 ∧ ((6 : WithTop ℤ) = 6) :=
  ⟨g3_built,
   C1_equal_flow_values g3 0 2 30 30 6 6 g3ek g3dn g3_built
     (capsNonneg_of_bounded g3 (by decide)) rfl rfl⟩
